import Mathlib

/-!
# A key-value store: LZW codec, B-tree index, append-only storage

A shallow embedding of `compression.c`, `tree.c` and `filesystem.c`, and the
properties of the codec, the index and the storage engine proved on it.

Bytes are `Fin 256`; unsigned integers of `w` bytes are natural numbers reduced
modulo `256 ^ w` where the source casts or stores them; positions (`long`) are
integers; files are lists of bytes.  Memory allocation is taken to succeed.

The functions of the index and of the storage engine take their keys from any
linearly ordered type: they are the source functions on keys that are in their
256-byte slots.  The functions with names ending in `_str` are the same calls made
with C strings of any length, and have no result when `strcpy` would write past a
slot.
-/

set_option linter.unusedSectionVars false

/-! ## Codec (compression.c) -/

/-- A `uint8_t`. -/
abbrev Byte := Fin 256

/-- The cast of an integer to `unsigned char`. -/
def byteOf (n : Nat) : Byte := ⟨n % 256, Nat.mod_lt _ (by decide)⟩

/-- The `w` bytes that `memcpy` writes for an unsigned integer of `w` bytes
(native byte order, taken little-endian as on x86-64): the value is
reduced modulo `256 ^ w`. -/
def le_bytes : Nat → Nat → List Byte
  | 0, _ => []
  | w + 1, v => byteOf v :: le_bytes w (v / 256)

/-- The unsigned integer that `memcpy` reads back from bytes in the same order. -/
def le_value : List Byte → Nat
  | [] => 0
  | b :: bs => b.val + 256 * le_value bs

/-- The two data fields of `DictEntry` (compression.c): the code of the
string before the last byte, and that byte.  The `used` flag is 1 exactly on
the slots below `dict_size`, which are the slots listed here. -/
structure DictEntry where
  pfx : Nat
  character : Byte
deriving DecidableEq, Repr

/-- The scan of `dict_find` from slot `i` on. -/
def dict_find_from (i : Nat) : List DictEntry → Nat → Byte → Option Nat
  | [], _, _ => none
  | e :: es, p, ch =>
    if e.pfx = p ∧ e.character = ch then some i else dict_find_from (i + 1) es p ch

/-- The function `dict_find`: the first slot from 256 on that holds the pair,
`none` for the return value -1.  The list `dict` holds the slots
`256 .. dict_size - 1`. -/
def dict_find (dict : List DictEntry) (p : Nat) (ch : Byte) : Option Nat :=
  dict_find_from 256 dict p ch

/-- The `for` loop of `lzw_compress` once `has_prefix` is set, followed by the
final flush: `p` is the variable `prefix` (an `unsigned short`), the result is the
list of the codes written to `codes` from here on. -/
def compress_scan : List DictEntry → Nat → List Byte → List Nat
  | _, p, [] => [p]
  | dict, p, ch :: rest =>
    match dict_find dict p ch with
    | some found => compress_scan dict (found % 65536) rest
    | none =>
      p :: compress_scan
        (if 256 + dict.length < 65536 then dict ++ [⟨p, ch⟩] else dict) ch.val rest

/-- The code stream of `lzw_compress`: the first byte only sets the prefix; an
empty input leaves `has_prefix` at 0 and emits nothing. -/
def lzw_codes : List Byte → List Nat
  | [] => []
  | ch :: rest => compress_scan [] ch.val rest

/-- The `memcpy` of the `uint16_t` codes into the output buffer. -/
def pack_codes : List Nat → List Byte
  | [] => []
  | c :: cs => le_bytes 2 c ++ pack_codes cs

/-- The function `lzw_compress` on a non-null input: `uint64_t` original size,
`uint32_t` count of codes (the cast `(uint32_t)codes_len`), then the codes. -/
def lzw_compress (input : List Byte) : List Byte :=
  le_bytes 8 (input.length % 2 ^ 64) ++
    le_bytes 4 ((lzw_codes input).length % 2 ^ 32) ++ pack_codes (lzw_codes input)

/-- The pointer `seq[code]` of `lzw_decompress`, `none` for NULL: the 256
single-byte entries, then the table `tbl` of the entries `256 .. dict_size - 1`. -/
def seq_at (tbl : List (List Byte)) (code : Nat) : Option (List Byte) :=
  if code < 256 then some [byteOf code] else tbl[code - 256]?

/-- The three-way choice of `entry` in the loop of `lzw_decompress`.  The outer
`none` is the read `seq[prev_code][0]` through a NULL pointer; `some none` is
`entry = NULL`. -/
def decode_entry (tbl : List (List Byte)) (prev : Option Nat) (code : Nat) :
    Option (Option (List Byte)) :=
  if code < 256 + tbl.length then some (seq_at tbl code)
  else
    match prev with
    | some pc =>
      if code = 256 + tbl.length then
        match seq_at tbl pc with
        | some s => some (some (s ++ s.take 1))
        | none => none
      else some none
    | none => some none

/-- The table after a code whose `entry` is not NULL: with `have_prev` set and
`dict_size < 65536`, slot `dict_size` receives the string of `prev_code`
(nothing is copied when `seq[prev_code]` is NULL, its `seqlen` being 0) followed
by `entry[0]`. -/
def table_after (tbl : List (List Byte)) (prev : Option Nat) (entry : List Byte) :
    List (List Byte) :=
  match prev with
  | some pc =>
    if 256 + tbl.length < 65536 then tbl ++ [(seq_at tbl pc).getD [] ++ entry.take 1]
    else tbl
  | none => tbl

/-- The reconstruction loop of `lzw_decompress` over the codes it reads; `prev`
is `prev_code` when `have_prev` is set.  The result is what the loop appends to
`out`, `none` when it reads through a NULL pointer. -/
def decode_codes : List (List Byte) → Option Nat → List Nat → Option (List Byte)
  | _, _, [] => some []
  | tbl, prev, code :: rest =>
    match decode_entry tbl prev code with
    | none => none
    | some none => decode_codes tbl (some code) rest
    | some (some entry) =>
      (decode_codes (table_after tbl prev entry) (some code) rest).map (entry ++ ·)

/-- The reads `codes[0] .. codes[cnt - 1]` from the bytes after the header;
`none` when a read leaves the input buffer. -/
def read_codes : Nat → List Byte → Option (List Nat)
  | 0, _ => some []
  | n + 1, lo :: hi :: rest => (read_codes n rest).map (le_value [lo, hi] :: ·)
  | _ + 1, _ => none

/-- What a call of `lzw_decompress` gives: the NULL return, an access outside
the buffers (no defined result), or the output buffer of `out_pos` bytes. -/
inductive Decoded where
  | null
  | fault
  | ok (out : List Byte)
deriving DecidableEq, Repr

/-- The function `lzw_decompress`. The header field `orig_size` only sizes
the first allocation and is not modelled. -/
def lzw_decompress (input : List Byte) : Decoded :=
  if input.length < 12 then Decoded.null
  else
    match read_codes (le_value ((input.drop 8).take 4)) (input.drop 12) with
    | none => Decoded.fault
    | some codes =>
      match decode_codes [] none codes with
      | none => Decoded.fault
      | some out => Decoded.ok out

/-- The table the decoder holds once it has caught up with the dictionary
`dict` of the compressor: entry by entry, the string of the prefix code followed
by the added byte. -/
def expand_dict (dict : List DictEntry) : List (List Byte) :=
  dict.foldl (fun S e => S ++ [(seq_at S e.pfx).getD [] ++ [e.character]]) []

/-- The byte string a code stands for under the dictionary `dict`. -/
def code_string (dict : List DictEntry) (c : Nat) : List Byte :=
  (seq_at (expand_dict dict) c).getD []

/-- Every dictionary entry refers to a code assigned before it. -/
def DictOK (dict : List DictEntry) : Prop :=
  ∀ D0 e D1, dict = D0 ++ e :: D1 → e.pfx < 256 + D0.length

/-- The compressor (dictionary, current prefix `p`) and the decoder (table,
previous code) between two codes of the stream: at the start, with the decoder
one entry behind, or with both tables full. -/
inductive InStep : List DictEntry → List (List Byte) → Option Nat → Nat → Prop
  | start (p : Nat) (hp : p < 256) : InStep [] [] none p
  | lag (D0 : List DictEntry) (e : DictEntry) (p : Nat)
      (hok : DictOK (D0 ++ [e])) (hlen : D0.length + 1 ≤ 65280)
      (hp : p < 256 + (D0.length + 1))
      (hhead : (code_string (D0 ++ [e]) p).take 1 = [e.character]) :
      InStep (D0 ++ [e]) (expand_dict D0) (some e.pfx) p
  | full (D : List DictEntry) (q p : Nat) (hok : DictOK D) (hlen : D.length = 65280)
      (hp : p < 256 + D.length) : InStep D (expand_dict D) (some q) p

/-! ## Keys -/

/-- The sign of `strcmp` on two C strings, given as their bytes before the
terminating NUL: the bytes are compared as `unsigned char`, and a string that
ends first is the smaller one. -/
def strcmp : List Byte → List Byte → Int
  | [], [] => 0
  | [], _ :: _ => -1
  | _ :: _, [] => 1
  | a :: as, b :: bs => if a < b then -1 else if b < a then 1 else strcmp as bs

/-! ## Index (tree.h, tree.c) -/

/-- The macro `BTREE_T` of tree.h, the minimum degree. -/
def BTREE_T : Nat := 2

/-- The helper `max_keys` of tree.c. -/
def max_keys : Nat := 2 * BTREE_T - 1

/-- The helper `max_children` of tree.c. -/
def max_children : Nat := 2 * BTREE_T

/-- A value of type `BTreeNode*`: NULL, or a node with its `n` keys and their
positions (`keys[j]`, `positions[j]` for `j < n`, as a list of pairs of length `n`),
the flag `leaf`, and the `max_children = 4` slots `C[0] .. C[3]`.  A node is owned
by one slot only, so a pointer is read as the tree below it.  Keys are compared
by `strcmp`, a linear order on C strings (`strcmp_sign`): `K` is any linearly
ordered type of keys, each key short enough for its 256-byte slot (for the
calls made with longer C strings see `btree_insert_str`). -/
inductive BTreeNode (K : Type) where
  | null : BTreeNode K
  | node (keys : List (K × Int)) (leaf : Bool) (c0 c1 c2 c3 : BTreeNode K) : BTreeNode K
deriving DecidableEq, Repr

namespace BTreeNode

variable {K : Type}

/-- The keys and positions `0 .. n - 1` of a node. -/
def keys : BTreeNode K → List (K × Int)
  | null => []
  | node ks _ _ _ _ _ => ks

/-- The field `n`. -/
def n (x : BTreeNode K) : Nat := x.keys.length

/-- The field `leaf`. -/
def leaf : BTreeNode K → Bool
  | null => true
  | node _ l _ _ _ _ => l

/-- The slot `x->C[i]`. -/
def child : BTreeNode K → Nat → BTreeNode K
  | node _ _ c0 _ _ _, 0 => c0
  | node _ _ _ c1 _ _, 1 => c1
  | node _ _ _ _ c2 _, 2 => c2
  | node _ _ _ _ _ c3, 3 => c3
  | _, _ => null

/-- The assignment `x->C[i] = c`. -/
def setChild : BTreeNode K → Nat → BTreeNode K → BTreeNode K
  | node ks l _ c1 c2 c3, 0, c => node ks l c c1 c2 c3
  | node ks l c0 _ c2 c3, 1, c => node ks l c0 c c2 c3
  | node ks l c0 c1 _ c3, 2, c => node ks l c0 c1 c c3
  | node ks l c0 c1 c2 _, 3, c => node ks l c0 c1 c2 c
  | x, _, _ => x

/-- The number of levels of nodes below a pointer, over all four slots. -/
def height : BTreeNode K → Nat
  | null => 0
  | node _ _ c0 c1 c2 c3 => 1 + max (max c0.height c1.height) (max c2.height c3.height)

end BTreeNode

open BTreeNode

/-- The function `btree_create`: `allocate_node(true)`. -/
def btree_create {K : Type} : BTreeNode K := node [] true null null null null

section
variable {K : Type} [LinearOrder K]

/-- The index `i` after `while (i < x->n && strcmp(key, x->keys[i]) > 0) i++`. -/
def scan_up (key : K) : List (K × Int) → Nat
  | [] => 0
  | e :: es => if e.1 < key then scan_up key es + 1 else 0

/-- The test `i < x->n && strcmp(key, x->keys[i]) == 0`. -/
def key_at (keys : List (K × Int)) (i : Nat) (key : K) : Bool :=
  match keys[i]? with
  | some e => decide (e.1 = key)
  | none => false

/-- The value `x->positions[i]` for `i < n`. -/
def pos_at (keys : List (K × Int)) (i : Nat) : Int :=
  match keys[i]? with
  | some e => e.2
  | none => -1

/-- The function `btree_search`. -/
def btree_search : BTreeNode K → K → Int
  | null, _ => -1
  | node keys leaf c0 c1 c2 c3, key =>
    if key_at keys (scan_up key keys) key then pos_at keys (scan_up key keys)
    else if leaf then -1
    else
      match scan_up key keys with
      | 0 => btree_search c0 key
      | 1 => btree_search c1 key
      | 2 => btree_search c2 key
      | 3 => btree_search c3 key
      | _ => -1

/-- The slot `j` of `x->C` after the loop `for (j = x->n; j >= i + 1; --j)
x->C[j + 1] = x->C[j]` and the assignment `x->C[i + 1] = z`, of a node whose
slots were `old` and whose key count was `n`. -/
def shifted_slot (old : Nat → BTreeNode K) (n i : Nat) (z : BTreeNode K) (j : Nat) :
    BTreeNode K :=
  if j ≤ i then old j
  else if j = i + 1 then z
  else if j ≤ n + 1 then old (j - 1)
  else old j

/-- The function `btree_split_child(x, i, y)` for `y = x->C[i]`, as at both call
sites, which test `y->n == max_keys()` first: the new node `z` takes the keys
`y->keys[t .. 2t-2]` and, when `y` is not a leaf, the slots `y->C[t .. 2t-1]`, which
become NULL in `y`; `y` keeps `t - 1` keys; `z` enters `x->C` at `i + 1` and the
key `y->keys[t - 1]` enters `x->keys` at `i`. -/
def btree_split_child (x : BTreeNode K) (i : Nat) : BTreeNode K :=
  match x, x.child i with
  | node xkeys xleaf c0 c1 c2 c3, node ykeys yleaf y0 y1 y2 y3 =>
    match ykeys[BTREE_T - 1]? with
    | none => x
    | some m =>
      let z : BTreeNode K :=
        node ((ykeys.drop BTREE_T).take (BTREE_T - 1)) yleaf
          (if yleaf then null else y2) (if yleaf then null else y3) null null
      let y1' : BTreeNode K :=
        node (ykeys.take (BTREE_T - 1)) yleaf y0 y1
          (if yleaf then y2 else null) (if yleaf then y3 else null)
      let old := (setChild (node xkeys xleaf c0 c1 c2 c3) i y1').child
      node (xkeys.take i ++ m :: xkeys.drop i) xleaf
        (shifted_slot old xkeys.length i z 0) (shifted_slot old xkeys.length i z 1)
        (shifted_slot old xkeys.length i z 2) (shifted_slot old xkeys.length i z 3)
  | _, _ => x

/-- The index `i + 1` after `while (i >= 0 && strcmp(k, x->keys[i]) < 0) i--`
started at `i = x->n - 1`: the keys above it are the trailing keys greater than `k`. -/
def scan_down (k : K) (keys : List (K × Int)) : Nat :=
  (keys.rdropWhile (fun e => decide (k < e.1))).length

/-- The leaf branch of `btree_insert_nonfull`: the trailing keys greater than `k`
move one slot up and `(k, pos)` takes the freed slot.  The key is copied with
`strcpy` into a slot of 256 bytes: `k` stands for a key that fits the slot, and a
call with a longer C string has no result here (`btree_insert_str`). -/
def leaf_place (k : K) (pos : Int) (keys : List (K × Int)) : List (K × Int) :=
  keys.rdropWhile (fun e => decide (k < e.1)) ++
    (k, pos) :: keys.rtakeWhile (fun e => decide (k < e.1))

/-- The test `strcmp(k, x->keys[i]) > 0` after a split. -/
def key_below (keys : List (K × Int)) (i : Nat) (k : K) : Bool :=
  match keys[i]? with
  | some e => decide (e.1 < k)
  | none => false

/-- The function `btree_insert_nonfull`; the first argument bounds the depth of
the recursion (one level of the tree per call). -/
def btree_insert_nonfull : Nat → BTreeNode K → K → Int → BTreeNode K
  | 0, x, _, _ => x
  | _ + 1, null, _, _ => null
  | fuel + 1, node keys leaf c0 c1 c2 c3, k, pos =>
    if leaf then node (leaf_place k pos keys) leaf c0 c1 c2 c3
    else
      let x : BTreeNode K := node keys leaf c0 c1 c2 c3
      let i := scan_down k keys
      if (x.child i).n = max_keys then
        let x1 := btree_split_child x i
        let i1 := if key_below x1.keys i k then i + 1 else i
        x1.setChild i1 (btree_insert_nonfull fuel (x1.child i1) k pos)
      else
        x.setChild i (btree_insert_nonfull fuel (x.child i) k pos)

/-- The loop of `btree_insert` that runs when the key is found: it walks down as
`btree_search` does and overwrites `positions[i]` where the key is. -/
def btree_update : BTreeNode K → K → Int → BTreeNode K
  | null, _, _ => null
  | node keys leaf c0 c1 c2 c3, key, position =>
    if key_at keys (scan_up key keys) key then
      node (keys.modify (fun e => (e.1, position)) (scan_up key keys)) leaf c0 c1 c2 c3
    else if leaf then node keys leaf c0 c1 c2 c3
    else
      match scan_up key keys with
      | 0 => node keys leaf (btree_update c0 key position) c1 c2 c3
      | 1 => node keys leaf c0 (btree_update c1 key position) c2 c3
      | 2 => node keys leaf c0 c1 (btree_update c2 key position) c3
      | 3 => node keys leaf c0 c1 c2 (btree_update c3 key position)
      | _ => node keys leaf c0 c1 c2 c3

/-- The function `btree_insert`; the result is the new `*root_ref`.  The bound
passed to `btree_insert_nonfull` is above the height of the tree it descends, so
it is never reached (`insert_nonfull_fuel`). -/
def btree_insert (r : BTreeNode K) (key : K) (position : Int) : BTreeNode K :=
  if btree_search r key ≠ -1 then btree_update r key position
  else if r.n = max_keys then
    btree_insert_nonfull (r.height + 2)
      (btree_split_child (node [] false r null null null) 0) key position
  else btree_insert_nonfull (r.height + 1) r key position

/-- The function `btree_delete`; the result is the tree under `*root_ref`. -/
def btree_delete : BTreeNode K → K → BTreeNode K
  | null, _ => null
  | node keys leaf c0 c1 c2 c3, key =>
    if key_at keys (scan_up key keys) key then
      node (keys.eraseIdx (scan_up key keys)) leaf c0 c1 c2 c3
    else if leaf then node keys leaf c0 c1 c2 c3
    else
      match scan_up key keys with
      | 0 => node keys leaf (btree_delete c0 key) c1 c2 c3
      | 1 => node keys leaf c0 (btree_delete c1 key) c2 c3
      | 2 => node keys leaf c0 c1 (btree_delete c2 key) c3
      | 3 => node keys leaf c0 c1 c2 (btree_delete c3 key)
      | _ => node keys leaf c0 c1 c2 c3

end

/-- The order of `btree_list` and `save_btree_recursive` in one node: for
`i < n` the subtree `C[i]` then key `i`, and last the subtree `C[n]`. -/
def interleave {α : Type} : List (List α) → List α → List α
  | c :: cs, k :: ks => c ++ k :: interleave cs ks
  | c :: _, [] => c
  | [], _ => []

/-- The keys with their positions in the order in which `btree_list` prints and
`save_btree_recursive` visits them. -/
def btree_entries {K : Type} : BTreeNode K → List (K × Int)
  | null => []
  | node keys leaf c0 c1 c2 c3 =>
    if leaf then keys
    else interleave [btree_entries c0, btree_entries c1, btree_entries c2, btree_entries c3] keys

/-- The keys that `btree_list` prints, in order. -/
def btree_list {K : Type} (x : BTreeNode K) : List K := (btree_entries x).map Prod.fst

/-- The index after a sequence of `btree_insert` calls on `btree_create()`. -/
def btree_build {K : Type} [LinearOrder K] (ops : List (K × Int)) : BTreeNode K :=
  ops.foldl (fun t op => btree_insert t op.1 op.2) btree_create

/-! ## Index: the notions used to state its properties -/

/-- Keys strictly ascending along a list of entries. -/
def KeySorted {K : Type} [LinearOrder K] (l : List (K × Int)) : Prop :=
  l.Pairwise (fun a b => a.1 < b.1)

/-- The position of the first entry with key `k` in a list of entries, -1 when
there is none. -/
def find_pos {K : Type} [LinearOrder K] (k : K) : List (K × Int) → Int
  | [] => -1
  | e :: es => if e.1 = k then e.2 else find_pos k es

/-- The entry `(k, v)` put at its place in a list of entries, in place of the
entries with key `k`. -/
def put_entry {K : Type} [LinearOrder K] (k : K) (v : Int) (l : List (K × Int)) :
    List (K × Int) :=
  l.filter (fun e => decide (e.1 < k)) ++ (k, v) :: l.filter (fun e => decide (k < e.1))

/-- A tree of `h + 1` levels as insertion builds it: every leaf is `h` levels
below the root, a node that is not a leaf has its slots `C[0] .. C[n]` filled with
such trees of `h` levels whose roots hold at least `t - 1 = 1` key, every other slot
is NULL, and every node holds at most `2t - 1 = 3` keys. -/
def Bal {K : Type} : Nat → BTreeNode K → Prop
  | _, null => False
  | 0, node keys leaf c0 c1 c2 c3 =>
    leaf = true ∧ keys.length ≤ 3 ∧ c0 = null ∧ c1 = null ∧ c2 = null ∧ c3 = null
  | h + 1, node keys leaf c0 c1 c2 c3 =>
    leaf = false ∧ keys.length ≤ 3 ∧
      (∀ j, j ≤ keys.length →
        Bal h ((node keys leaf c0 c1 c2 c3).child j) ∧
          1 ≤ ((node keys leaf c0 c1 c2 c3).child j).n) ∧
      (∀ j, keys.length < j → (node keys leaf c0 c1 c2 c3).child j = null)

/-- Every node under a pointer holds at most `2t - 1 = 3` keys. -/
def SmallNodes {K : Type} : BTreeNode K → Prop
  | null => True
  | node keys _ c0 c1 c2 c3 => keys.length ≤ 3 ∧ SmallNodes c0 ∧ SmallNodes c1 ∧ SmallNodes c2 ∧ SmallNodes c3

/-- What comes before the subtree of slot `j` in the order of `interleave`. -/
def pre_part {α : Type} : List (List α) → List α → Nat → List α
  | _, _, 0 => []
  | c :: cs, e :: ks, j + 1 => c ++ e :: pre_part cs ks j
  | _, _, _ + 1 => []

/-- What comes after the subtree of slot `j` in the order of `interleave`. -/
def post_part {α : Type} : List (List α) → List α → Nat → List α
  | _ :: _, [], 0 => []
  | _ :: cs, e :: ks, 0 => e :: interleave cs ks
  | _ :: cs, _ :: ks, j + 1 => post_part cs ks j
  | _, _, _ => []

/-- The entry with its position replaced by `v` when its key is `k`. -/
def with_pos {K : Type} [LinearOrder K] (k : K) (v : Int) (e : K × Int) : K × Int :=
  if e.1 = k then (e.1, v) else e

/-- The same tree, slot by slot and key by key, with `f` applied to every
(key, position) pair. -/
def map_entries {K : Type} (f : K × Int → K × Int) : BTreeNode K → BTreeNode K
  | null => null
  | node keys leaf c0 c1 c2 c3 =>
    node (keys.map f) leaf (map_entries f c0) (map_entries f c1) (map_entries f c2)
      (map_entries f c3)

/-- An index as `btree_insert` keeps it: balanced with the key counts in range,
keys strictly ascending in the order of `btree_list`, and the position -1 stored
with no key (-1 is what `btree_search` returns for a missing key). -/
def IndexOK {K : Type} [LinearOrder K] (t : BTreeNode K) : Prop :=
  (∃ h, Bal h t) ∧ KeySorted (btree_entries t) ∧ ∀ e ∈ btree_entries t, e.2 ≠ -1

/-- Every position stored in the tree, in any node and under any slot. -/
def stored_positions {K : Type} : BTreeNode K → List Int
  | null => []
  | node keys _ c0 c1 c2 c3 =>
    keys.map Prod.snd ++ stored_positions c0 ++ stored_positions c1 ++ stored_positions c2 ++
      stored_positions c3

/-! ## Storage engine (filesystem.h, filesystem.c) -/

/-- The struct `FileSystem`: the index, and the bytes of the file named by
`storage_file`. -/
structure FileSystem (K : Type) where
  index : BTreeNode K
  storage : List Byte

/-- The struct `MetaEntry`.  The field `name` holds the name as it is in the
file; `save_btree_recursive` fills it from a key of type `K`, a key as a slot of
the tree holds it, and for keys given as C strings `fs_save_str` applies the cut to
255 bytes that `strncpy(entry.name, node->keys[i], sizeof(entry.name) - 1)` makes. -/
structure MetaEntry (K : Type) where
  name : K
  position : Int
  comp_size : Nat

/-- The bytes of a `.meta` file: the `uint32_t` count and the entries behind it. -/
structure MetaFile (K : Type) where
  count : Nat
  entries : List (MetaEntry K)

/-- What a call of `fs_read` does: the key is not in the index (returns false);
`lzw_decompress` returned NULL (returns false); a read past the end of the file
left `comp_size` or the buffer `comp` unset, or the decoder left its buffers (no
defined result); or the content is printed (returns true). -/
inductive ReadResult where
  | not_found
  | failed
  | undefined
  | content (bytes : List Byte)
deriving DecidableEq, Repr

/-- The file position after `fseek(storage, pos, SEEK_SET)` on a stream just
opened: a negative offset is refused and the position stays at 0. -/
def seek_set (pos : Int) : Nat := if pos < 0 then 0 else pos.toNat

section
variable {K : Type} [LinearOrder K]

/-- The function `fs_init` on a storage file with the given bytes (the file is
created empty when absent and never truncated). -/
def fs_init (storage : List Byte) : FileSystem K := ⟨btree_create, storage⟩

/-- The function `fs_create` for a source file `filename` that opens and holds
`content`: the record is appended to the storage file, and `pos` is what `ftell`
gives on the stream just opened for appending, the size of the file. -/
def fs_create (fs : FileSystem K) (filename : K) (content : List Byte) : FileSystem K :=
  { index := btree_insert fs.index filename (fs.storage.length : Int),
    storage := fs.storage ++ le_bytes 8 (lzw_compress content).length ++ lzw_compress content }

/-- The function `fs_read`. -/
def fs_read (fs : FileSystem K) (filename : K) : ReadResult :=
  if btree_search fs.index filename = -1 then ReadResult.not_found
  else if (fs.storage.drop (seek_set (btree_search fs.index filename))).length < 8 then
    ReadResult.undefined
  else if ((fs.storage.drop (seek_set (btree_search fs.index filename))).drop 8).length <
      le_value ((fs.storage.drop (seek_set (btree_search fs.index filename))).take 8) then
    ReadResult.undefined
  else
    match lzw_decompress
      (((fs.storage.drop (seek_set (btree_search fs.index filename))).drop 8).take
        (le_value ((fs.storage.drop (seek_set (btree_search fs.index filename))).take 8))) with
    | Decoded.null => ReadResult.failed
    | Decoded.fault => ReadResult.undefined
    | Decoded.ok out => ReadResult.content out

/-- The function `fs_delete`. -/
def fs_delete (fs : FileSystem K) (filename : K) : FileSystem K :=
  { fs with index := btree_delete fs.index filename }

/-- The `comp_size` that `save_btree_recursive` reads at a position, taken as the
initial 0 when the 8 bytes are not there. -/
def stored_size (storage : List Byte) (pos : Int) : Nat :=
  if (storage.drop (seek_set pos)).length < 8 then 0
  else le_value ((storage.drop (seek_set pos)).take 8)

/-- The function `save_btree_recursive`: the entries written to the `.meta`
file, in order. -/
def save_btree_recursive : BTreeNode K → List Byte → List (MetaEntry K)
  | null, _ => []
  | node keys leaf c0 c1 c2 c3, storage =>
    if leaf then keys.map (fun e => MetaEntry.mk e.1 e.2 (stored_size storage e.2))
    else
      interleave [save_btree_recursive c0 storage, save_btree_recursive c1 storage,
          save_btree_recursive c2 storage, save_btree_recursive c3 storage]
        (keys.map (fun e => MetaEntry.mk e.1 e.2 (stored_size storage e.2)))

/-- The function `fs_save` when both files open: the count written last is the
number of entries, held in a `uint32_t`. -/
def fs_save (fs : FileSystem K) : MetaFile K :=
  { count := (save_btree_recursive fs.index fs.storage).length % 2 ^ 32,
    entries := save_btree_recursive fs.index fs.storage }

/-- The function `fs_load` when the file opens: a new index receives the first
`count` entries of the file; the iterations whose `fread` finds no entry left
are not modelled. -/
def fs_load (fs : FileSystem K) (m : MetaFile K) : FileSystem K :=
  { fs with
    index := (m.entries.take m.count).foldl (fun t e => btree_insert t e.name e.position)
      btree_create }

end

/-- An operation of the store that adds or keeps entries: `fs_create` of a key
with a content, or `fs_save` followed by `fs_load` of the file written. -/
inductive StoreOp (K : Type) where
  | put (key : K) (content : List Byte)
  | snapshot_restore

/-- One operation applied to a store. -/
def apply_op {K : Type} [LinearOrder K] (fs : FileSystem K) : StoreOp K → FileSystem K
  | StoreOp.put key content => fs_create fs key content
  | StoreOp.snapshot_restore => fs_load fs (fs_save fs)

/-- A sequence of operations applied to a store, in order. -/
def run_ops {K : Type} [LinearOrder K] (fs : FileSystem K) (ops : List (StoreOp K)) :
    FileSystem K :=
  ops.foldl apply_op fs

/-! ## Stores populated by puts, the order of the keys in a node, the guards of the descent -/

/-- The input of 20 bytes made of the two bytes of "ab" ten times. -/
def ab_ten : List Byte :=
  [97, 98, 97, 98, 97, 98, 97, 98, 97, 98, 97, 98, 97, 98, 97, 98, 97, 98, 97, 98]

/-- The store after `fs_init` on a storage file holding `blob` and one call of
`fs_create` per pair (key, content), in order. -/
def fs_populate {K : Type} [LinearOrder K] (blob : List Byte) (puts : List (K × List Byte)) :
    FileSystem K :=
  puts.foldl (fun fs p => fs_create fs p.1 p.2) (fs_init blob)

/-- The keys held in a node and in all the nodes under its four slots. -/
def subtree_keys {K : Type} : BTreeNode K → List K
  | null => []
  | node keys _ c0 c1 c2 c3 =>
    keys.map Prod.fst ++
      (subtree_keys c0 ++ (subtree_keys c1 ++ (subtree_keys c2 ++ subtree_keys c3)))

/-- The ordering of a search tree, node by node: the keys of a node are strictly
ascending, and in a node that is not a leaf every key under the slot `C[i]`, for
`i ≤ n`, is above the key `i - 1` of the node (when `i ≥ 1`) and below its key `i`
(when `i < n`). -/
def Ordered {K : Type} [LinearOrder K] : BTreeNode K → Prop
  | null => True
  | node keys leaf c0 c1 c2 c3 =>
    (keys.map Prod.fst).Pairwise (· < ·) ∧
      (leaf = false → ∀ i, i ≤ keys.length →
        ∀ k ∈ subtree_keys ((node keys leaf c0 c1 c2 c3).child i),
          (∀ a, 1 ≤ i → keys[i - 1]? = some a → a.1 < k) ∧
            (∀ b, keys[i]? = some b → k < b.1)) ∧
      Ordered c0 ∧ Ordered c1 ∧ Ordered c2 ∧ Ordered c3

/-- What every call on the index relies on: no node holds more than `2t - 1 = 3`
keys, and a node that is not a leaf has a node in each of its slots `C[0] .. C[n]`. -/
def Safe {K : Type} : BTreeNode K → Prop
  | null => True
  | node keys leaf c0 c1 c2 c3 =>
    keys.length ≤ 3 ∧
      (leaf = false → ∀ j, j ≤ keys.length → (node keys leaf c0 c1 c2 c3).child j ≠ null) ∧
      Safe c0 ∧ Safe c1 ∧ Safe c2 ∧ Safe c3

section
variable {K : Type} [LinearOrder K]

/-- Whether the walk that `btree_search`, the update loop of `btree_insert` and
`btree_delete` make for `key` (the same in the three) only goes through pointers
that are not NULL, the root included. -/
def descent_present : BTreeNode K → K → Bool
  | null, _ => false
  | node keys leaf c0 c1 c2 c3, key =>
    if key_at keys (scan_up key keys) key then true
    else if leaf then true
    else
      match scan_up key keys with
      | 0 => descent_present c0 key
      | 1 => descent_present c1 key
      | 2 => descent_present c2 key
      | 3 => descent_present c3 key
      | _ => false

/-- Whether a call `btree_split_child(x, i, x->C[i])` finds what it relies on: the
parent `x` holds fewer than `2t - 1 = 3` keys and the child holds exactly 3. -/
def split_guard (x : BTreeNode K) (i : Nat) : Bool :=
  decide (x.n < max_keys) && decide ((x.child i).n = max_keys)

/-- Whether the calls that `btree_insert_nonfull(x, k, _)` makes find what they rely
on: every node it is entered on is there and holds fewer than 3 keys, every call
of `btree_split_child` passes `split_guard`, and the bound on the depth is not
reached.  The walk is that of `btree_insert_nonfull`; the position plays no part
in it. -/
def insert_nonfull_safe : Nat → BTreeNode K → K → Bool
  | 0, _, _ => false
  | _ + 1, null, _ => false
  | fuel + 1, node keys leaf c0 c1 c2 c3, k =>
    decide (keys.length < max_keys) &&
      (if leaf then true
      else
        let x : BTreeNode K := node keys leaf c0 c1 c2 c3
        let i := scan_down k keys
        if (x.child i).n = max_keys then
          let x1 := btree_split_child x i
          let i1 := if key_below x1.keys i k then i + 1 else i
          split_guard x i && insert_nonfull_safe fuel (x1.child i1) k
        else
          insert_nonfull_safe fuel (x.child i) k)

/-- Whether a call `btree_insert(&r, key, _)` finds what it relies on: the search
and the update loop go through pointers that are not NULL, and when the key is
not found the split of a full root and the call of `btree_insert_nonfull` pass
their guards. -/
def btree_insert_safe (r : BTreeNode K) (key : K) : Bool :=
  descent_present r key &&
    (if btree_search r key ≠ -1 then true
    else if r.n = max_keys then
      split_guard (node [] false r null null null) 0 &&
        insert_nonfull_safe (r.height + 2)
          (btree_split_child (node [] false r null null null) 0) key
    else insert_nonfull_safe (r.height + 1) r key)

end

/-- The variables that the loop of `lzw_compress` changes: the slots
`256 .. dict_size - 1` of `dict`, the variables `prefix` and `has_prefix`, the
codes `codes[0 .. codes_len - 1]` and `codes_cap`. -/
structure CompressState where
  dict : List DictEntry
  pfx : Nat
  has_pfx : Bool
  codes : List Nat
  codes_cap : Nat
deriving DecidableEq, Repr

/-- The variables before the loop, for an input of `input_size` bytes: the sum
`input_size + 16` is a `size_t`. -/
def compress_init (input_size : Nat) : CompressState :=
  { dict := [], pfx := 0, has_pfx := false, codes := [],
    codes_cap := (input_size + 16) % 2 ^ 64 }

/-- The write `codes[codes_len++] = c`, after `codes_cap *= 2` when
`codes_len >= codes_cap`. -/
def push_code (s : CompressState) (c : Nat) : CompressState :=
  { s with
    codes_cap := if s.codes_cap ≤ s.codes.length then (s.codes_cap * 2) % 2 ^ 64
      else s.codes_cap,
    codes := s.codes ++ [c] }

/-- One iteration of the `for` loop of `lzw_compress`, on the byte `ch`. -/
def compress_step (s : CompressState) (ch : Byte) : CompressState :=
  if s.has_pfx = false then { s with pfx := ch.val, has_pfx := true }
  else
    match dict_find s.dict s.pfx ch with
    | some found => { s with pfx := found % 65536 }
    | none =>
      { push_code s s.pfx with
        dict := if 256 + s.dict.length < 65536 then s.dict ++ [⟨s.pfx, ch⟩] else s.dict,
        pfx := ch.val }

/-- The variables of `lzw_compress` after `j` iterations of its loop. -/
def compress_after (input : List Byte) (j : Nat) : CompressState :=
  (input.take j).foldl compress_step (compress_init input.length)

/-- The flush after the loop: the last value of `prefix` is emitted when
`has_prefix` is set. -/
def compress_flush (s : CompressState) : CompressState :=
  if s.has_pfx then push_code s s.pfx else s

/-- A lookup keyed by the pair (prefix code, byte): it answers with the code of
a slot that holds the pair when there is one, and with `none` only when no slot
holds it. -/
def PairLookup (find : List DictEntry → Nat → Byte → Option Nat) : Prop :=
  ∀ dict p ch,
    (∀ c, find dict p ch = some c → 256 ≤ c ∧ dict[c - 256]? = some ⟨p, ch⟩) ∧
      (find dict p ch = none → (⟨p, ch⟩ : DictEntry) ∉ dict)

/-- The scan of `compress_scan` with the lookup `find` in place of `dict_find`. -/
def compress_scan_with (find : List DictEntry → Nat → Byte → Option Nat) :
    List DictEntry → Nat → List Byte → List Nat
  | _, p, [] => [p]
  | dict, p, ch :: rest =>
    match find dict p ch with
    | some found => compress_scan_with find dict (found % 65536) rest
    | none =>
      p :: compress_scan_with find
        (if 256 + dict.length < 65536 then dict ++ [⟨p, ch⟩] else dict) ch.val rest

/-- The code stream of `lzw_codes` with the lookup `find` in place of `dict_find`. -/
def lzw_codes_with (find : List DictEntry → Nat → Byte → Option Nat) : List Byte → List Nat
  | [] => []
  | ch :: rest => compress_scan_with find [] ch.val rest

/-- A lookup that answers with the highest code that holds the pair: the scan
of the slots from `i` on, where a match further on wins. -/
def dict_find_last_from (i : Nat) : List DictEntry → Nat → Byte → Option Nat
  | [], _, _ => none
  | e :: es, p, ch =>
    match dict_find_last_from (i + 1) es p ch with
    | some c => some c
    | none => if e.pfx = p ∧ e.character = ch then some i else none

/-- The lookup of the highest code that holds the pair, over the slots from 256 on. -/
def dict_find_last (dict : List DictEntry) (p : Nat) (ch : Byte) : Option Nat :=
  dict_find_last_from 256 dict p ch

/-! ## Keys as C strings and their 256-byte slots -/

/-- An index on which `btree_search` and `btree_insert` find the same way to a
key: the root is a node, no node holds more than 3 keys, a node that is not a
leaf has its slots `C[0] .. C[n]` filled, the keys are strictly ascending in the
order of `btree_list`, and the position -1 is stored with no key.  Nothing is
asked of the number of keys in a node other than the upper bound, nor of the
depth of the leaves. -/
def TreeOK {K : Type} [LinearOrder K] (t : BTreeNode K) : Prop :=
  t ≠ null ∧ Safe t ∧ KeySorted (btree_entries t) ∧ ∀ e ∈ btree_entries t, e.2 ≠ -1

/-- Whether `strcpy(x->keys[i], key)` stays inside the slot `keys[i]` of 256
bytes: the bytes of the key and the terminating NUL are at most 256. -/
def key_fits (key : List Byte) : Bool := decide (key.length < 256)

/-- The function `btree_insert` called with a C string, on an index whose keys
are in their slots.  When the key is found only a position is written.  When it
is not found, `btree_insert_nonfull` walks down to a leaf and copies the key into
a slot with `strcpy`, which has no length check: the call has a result here, that
of `btree_insert`, when the walk finds the nodes and the key counts it relies on
(`btree_insert_safe`) and the key fits the slot. -/
def btree_insert_str (r : BTreeNode (List Byte)) (key : List Byte) (position : Int) :
    Option (BTreeNode (List Byte)) :=
  if btree_search r key ≠ -1 then some (btree_insert r key position)
  else if btree_insert_safe r key && key_fits key then some (btree_insert r key position)
  else none

/-- The index after a sequence of `btree_insert` calls with C strings on
`btree_create()`, `none` when one of the calls has no result. -/
def btree_build_str (ops : List (List Byte × Int)) : Option (BTreeNode (List Byte)) :=
  ops.foldl (fun t op => t.bind (fun r => btree_insert_str r op.1 op.2)) (some btree_create)

/-- The function `fs_create` called with a C string as file name: the record is
appended and `btree_insert` is called with that name. -/
def fs_create_str (fs : FileSystem (List Byte)) (filename : List Byte) (content : List Byte) :
    Option (FileSystem (List Byte)) :=
  (btree_insert_str fs.index filename (fs.storage.length : Int)).map
    (fun index =>
      { index := index,
        storage := fs.storage ++ le_bytes 8 (lzw_compress content).length ++
          lzw_compress content })

/-- The name that `save_btree_recursive` writes for a key:
`strncpy(entry.name, node->keys[i], sizeof(entry.name) - 1)` and a NUL at
`entry.name[255]` keep the first 255 bytes. -/
def meta_name (key : List Byte) : List Byte := key.take 255

/-- The function `fs_save` on an index of C strings: the entries of `fs_save`
with the names as `save_btree_recursive` writes them. -/
def fs_save_str (fs : FileSystem (List Byte)) : MetaFile (List Byte) :=
  { count := (fs_save fs).count,
    entries := (fs_save fs).entries.map
      (fun e => { name := meta_name e.name, position := e.position, comp_size := e.comp_size }) }

/-- The function `fs_load` on names read as C strings: `btree_insert` is called
with each of the first `count` names on a new index. -/
def fs_load_str (fs : FileSystem (List Byte)) (m : MetaFile (List Byte)) :
    Option (FileSystem (List Byte)) :=
  ((m.entries.take m.count).foldl
    (fun t e => t.bind (fun r => btree_insert_str r e.name e.position))
    (some btree_create)).map (fun index => { index := index, storage := fs.storage })

/-- One operation of `StoreOp` applied to a store whose keys are C strings. -/
def apply_op_str (fs : FileSystem (List Byte)) :
    StoreOp (List Byte) → Option (FileSystem (List Byte))
  | StoreOp.put key content => fs_create_str fs key content
  | StoreOp.snapshot_restore => fs_load_str fs (fs_save_str fs)

/-- A sequence of operations applied in order to a store whose keys are C
strings, `none` when one of them has no result. -/
def run_ops_str (fs : FileSystem (List Byte)) (ops : List (StoreOp (List Byte))) :
    Option (FileSystem (List Byte)) :=
  ops.foldl (fun s op => s.bind (fun f => apply_op_str f op)) (some fs)

/-- The store after `fs_init` and one call of `fs_create` per pair (name,
content), the names being C strings. -/
def fs_populate_str (blob : List Byte) (puts : List (List Byte × List Byte)) :
    Option (FileSystem (List Byte)) :=
  puts.foldl (fun s p => s.bind (fun f => fs_create_str f p.1 p.2)) (some (fs_init blob))

/-- A store in which the record written by `fs_create` for `key` is in place:
the index is one that search and insert agree on, it gives `key` the position
`pos`, and the storage file starts with the bytes `head`. -/
def RecordHeld {K : Type} [LinearOrder K] (key : K) (pos : Int) (head : List Byte)
    (fs : FileSystem K) : Prop :=
  TreeOK fs.index ∧ find_pos key (btree_entries fs.index) = pos ∧
    ∃ extra, fs.storage = head ++ extra

/-- The key of 256 bytes `a`, one byte more than a slot holds with its NUL. -/
def long_key : List Byte := List.replicate 256 97

/-- The store after `fs_init` on an empty file, `fs_create` of the names `a` and
`b` and `fs_delete` of `a`: the root, a leaf, holds `b` alone. -/
def store_after_delete : FileSystem (List Byte) :=
  fs_delete (fs_populate [] [([97], [120]), ([98], [121])]) [97]

/-- The store after `fs_init` on an empty file, `fs_create` of the names `a`,
`c`, `e`, `h`, `j`, `l`, `f` with empty contents, `fs_delete` of `c`, by then a
key of the root, and `fs_create` of `n` and `p`: the root holds the keys `h` and
`f`, in that order. -/
def damaged_store : FileSystem (List Byte) :=
  fs_create (fs_create (fs_delete (fs_populate []
    [([97], []), ([99], []), ([101], []), ([104], []), ([106], []), ([108], []), ([102], [])])
    [99]) [110] []) [112] []

/-- The name made of the decimal digits of `i`, the last digit first. -/
def decimal_name (i : Nat) : List Byte := (Nat.digits 10 i).map (fun d => Fin.ofNat (d + 48))

/-- One put with an empty content for each of the 2^32 names of the numbers 1
to 2^32. -/
def many_puts : List (List Byte × List Byte) :=
  (List.range (2 ^ 32)).map (fun i => (decimal_name (i + 1), []))

/-- A snapshot file with one entry, which gives the name `a` the offset -1. -/
def stale_meta : MetaFile (List Byte) := { count := 1, entries := [⟨[97], -1, 0⟩] }

/-! ## Codec: serialisation lemmas -/

theorem byteOf_val (b : Byte) : byteOf b.val = b := by
  apply Fin.ext
  simp [byteOf, Nat.mod_eq_of_lt b.isLt]

theorem le_bytes_length (w v : Nat) : (le_bytes w v).length = w := by
  induction w generalizing v with
  | zero => rfl
  | succ w ih => simp [le_bytes, ih]

theorem le_value_le_bytes (w v : Nat) : le_value (le_bytes w v) = v % 256 ^ w := by
  induction w generalizing v with
  | zero => simp [le_bytes, le_value, Nat.mod_one]
  | succ w ih =>
    simp only [le_bytes, le_value, ih, byteOf]
    rw [pow_succ, Nat.mul_comm (256 ^ w) 256, Nat.mod_mul]

theorem le_value_lt (bs : List Byte) : le_value bs < 256 ^ bs.length := by
  induction bs with
  | nil => simp [le_value]
  | cons b bs ih =>
    simp only [le_value, List.length_cons, pow_succ]
    have := b.isLt
    omega

theorem pack_codes_length (cs : List Nat) : (pack_codes cs).length = 2 * cs.length := by
  induction cs with
  | nil => rfl
  | cons c cs ih => simp [pack_codes, le_bytes_length, ih]; omega

theorem read_codes_pack (cs : List Nat) (h : ∀ c ∈ cs, c < 65536) :
    read_codes cs.length (pack_codes cs) = some cs := by
  induction cs with
  | nil => rfl
  | cons c cs ih =>
    have hc : c < 65536 := h c (List.mem_cons_self _ _)
    have ih1 := ih (fun x hx => h x (List.mem_cons_of_mem _ hx))
    have hv : le_value [byteOf c, byteOf (c / 256)] = c := by
      have := le_value_le_bytes 2 c
      simp only [le_bytes] at this
      rw [this]
      exact Nat.mod_eq_of_lt (by norm_num; exact hc)
    simp only [pack_codes, le_bytes, List.length_cons, List.cons_append, List.nil_append,
      List.append_eq, read_codes, ih1, Option.map_some', hv]

theorem read_codes_length (n : Nat) (bs : List Byte) (cs : List Nat)
    (h : read_codes n bs = some cs) : cs.length = n := by
  induction n generalizing bs cs with
  | zero => simp [read_codes] at h; simp [← h]
  | succ n ih =>
    match bs, h with
    | lo :: hi :: rest, h =>
      simp only [read_codes, Option.map_eq_some'] at h
      obtain ⟨cs1, h1, rfl⟩ := h
      simp [ih rest cs1 h1]
    | [], h => simp [read_codes] at h
    | [_], h => simp [read_codes] at h

/-! ## Codec: the decoder follows the compressor -/

theorem expand_dict_snoc (D : List DictEntry) (e : DictEntry) :
    expand_dict (D ++ [e]) = expand_dict D ++ [code_string D e.pfx ++ [e.character]] := by
  simp [expand_dict, code_string, List.foldl_append]

theorem expand_dict_length (D : List DictEntry) : (expand_dict D).length = D.length := by
  induction D using List.reverseRecOn with
  | nil => rfl
  | append_singleton D e ih => simp [expand_dict_snoc, ih]

theorem expand_dict_append (D D1 : List DictEntry) :
    ∃ X, expand_dict (D ++ D1) = expand_dict D ++ X := by
  induction D1 using List.reverseRecOn with
  | nil => exact ⟨[], by simp⟩
  | append_singleton D1 e ih =>
    obtain ⟨X, hX⟩ := ih
    refine ⟨X ++ [code_string (D ++ D1) e.pfx ++ [e.character]], ?_⟩
    rw [← List.append_assoc, expand_dict_snoc, hX, List.append_assoc]

theorem seq_at_append (S X : List (List Byte)) (c : Nat) (h : c < 256 + S.length) :
    seq_at (S ++ X) c = seq_at S c := by
  unfold seq_at
  split
  · rfl
  · rw [List.getElem?_append_left (by omega)]

theorem code_string_append (D D1 : List DictEntry) (c : Nat) (h : c < 256 + D.length) :
    code_string (D ++ D1) c = code_string D c := by
  obtain ⟨X, hX⟩ := expand_dict_append D D1
  unfold code_string
  rw [hX, seq_at_append _ _ _ (by rw [expand_dict_length]; exact h)]

theorem code_string_byte (D : List DictEntry) (c : Nat) (h : c < 256) :
    code_string D c = [byteOf c] := by
  simp [code_string, seq_at, h]

theorem DictOK_left (D D1 : List DictEntry) (h : DictOK (D ++ D1)) : DictOK D := by
  intro D0 e D2 hD
  exact h D0 e (D2 ++ D1) (by simp [hD])

theorem DictOK_snoc (D : List DictEntry) (e : DictEntry) (h : DictOK D)
    (he : e.pfx < 256 + D.length) : DictOK (D ++ [e]) := by
  intro D0 e1 D1 hD
  rcases List.eq_nil_or_concat D1 with rfl | ⟨D2, x, rfl⟩
  · obtain ⟨h1, h2⟩ := List.append_inj' hD rfl
    simp only [List.cons.injEq, and_true] at h2
    subst h1 h2
    exact he
  · have hD1 : D ++ [e] = (D0 ++ e1 :: D2) ++ [x] := by simp [hD]
    obtain ⟨h1, _⟩ := List.append_inj' hD1 rfl
    exact h D0 e1 D2 h1

theorem code_string_mid (D0 D1 : List DictEntry) (e : DictEntry) :
    code_string (D0 ++ e :: D1) (256 + D0.length) =
      code_string D0 e.pfx ++ [e.character] := by
  have h1 : D0 ++ e :: D1 = (D0 ++ [e]) ++ D1 := by simp
  rw [h1, code_string_append _ _ _ (by simp)]
  unfold code_string
  rw [expand_dict_snoc]
  simp [seq_at, expand_dict_length]
  rfl

theorem code_string_found (D0 D1 : List DictEntry) (e : DictEntry)
    (h : DictOK (D0 ++ e :: D1)) :
    code_string (D0 ++ e :: D1) (256 + D0.length) =
      code_string (D0 ++ e :: D1) e.pfx ++ [e.character] := by
  rw [code_string_mid, code_string_append _ _ _ (h D0 e D1 rfl)]

theorem code_string_ne_nil (D : List DictEntry) (c : Nat) (h : c < 256 + D.length) :
    code_string D c ≠ [] := by
  by_cases hc : c < 256
  · simp [code_string_byte D c hc]
  · have hi : c - 256 < D.length := by omega
    have hsplit : D = D.take (c - 256) ++ D[c - 256] :: D.drop (c - 256 + 1) := by
      rw [← List.drop_eq_getElem_cons hi, List.take_append_drop]
    have hlen : (D.take (c - 256)).length = c - 256 := by
      rw [List.length_take]; omega
    have hc2 : c = 256 + (D.take (c - 256)).length := by omega
    have hm := code_string_mid (D.take (c - 256)) (D.drop (c - 256 + 1)) D[c - 256]
    rw [← hsplit, ← hc2] at hm
    rw [hm]
    simp

theorem seq_at_expand (D : List DictEntry) (c : Nat) (h : c < 256 + D.length) :
    seq_at (expand_dict D) c = some (code_string D c) := by
  unfold code_string
  cases hs : seq_at (expand_dict D) c with
  | some s => rfl
  | none =>
    unfold seq_at at hs
    split at hs
    · simp at hs
    · rw [List.getElem?_eq_none_iff, expand_dict_length] at hs
      omega

theorem dict_find_from_spec (i : Nat) (D : List DictEntry) (p : Nat) (ch : Byte) (f : Nat)
    (h : dict_find_from i D p ch = some f) :
    ∃ D0 D1, D = D0 ++ ⟨p, ch⟩ :: D1 ∧ f = i + D0.length := by
  induction D generalizing i with
  | nil => simp [dict_find_from] at h
  | cons e es ih =>
    simp only [dict_find_from] at h
    split at h
    · rename_i he
      refine ⟨[], es, ?_, ?_⟩
      · obtain ⟨h1, h2⟩ := he
        cases e
        simp_all
      · simp at h; simp [h]
    · obtain ⟨D0, D1, h1, h2⟩ := ih (i + 1) h
      exact ⟨e :: D0, D1, by simp [h1], by simp [h2]; omega⟩

theorem take_one_append (s t : List Byte) (h : s ≠ []) : (s ++ t).take 1 = s.take 1 := by
  cases s with
  | nil => exact absurd rfl h
  | cons a s => simp

theorem decode_entry_in_step (D : List DictEntry) (T : List (List Byte)) (prev : Option Nat)
    (p : Nat) (h : InStep D T prev p) :
    decode_entry T prev p = some (some (code_string D p)) := by
  cases h with
  | start _ hp =>
    simp [decode_entry, seq_at, code_string_byte, hp]
  | lag D0 e _ hok hlen hp hhead =>
    unfold decode_entry
    rw [expand_dict_length]
    by_cases hlt : p < 256 + D0.length
    · rw [if_pos hlt, seq_at_expand D0 p hlt, code_string_append _ _ _ hlt]
    · have hpe : p = 256 + D0.length := by omega
      have hpfx : e.pfx < 256 + D0.length := hok D0 e [] rfl
      rw [if_neg hlt]
      simp only [hpe, if_true]
      rw [seq_at_expand D0 e.pfx hpfx]
      have hne := code_string_ne_nil D0 e.pfx hpfx
      have hmid := code_string_mid D0 [] e
      rw [hpe, hmid, take_one_append _ _ hne] at hhead
      simp only [hmid, hhead]
  | full _ q _ hok hlen hp =>
    unfold decode_entry
    rw [expand_dict_length, if_pos hp, seq_at_expand D p hp]

theorem in_step_found (D : List DictEntry) (T : List (List Byte)) (prev : Option Nat)
    (p : Nat) (ch : Byte) (f : Nat) (h : InStep D T prev p) (hok : DictOK D)
    (hf : dict_find D p ch = some f) :
    f < 256 + D.length ∧ code_string D f = code_string D p ++ [ch] ∧ InStep D T prev f := by
  obtain ⟨D0, D1, hD, hfe⟩ := dict_find_from_spec 256 D p ch f hf
  have hlt : f < 256 + D.length := by rw [hD, hfe]; simp
  have hstr : code_string D f = code_string D p ++ [ch] := by
    rw [hD] at hok ⊢
    rw [hfe, code_string_found D0 D1 ⟨p, ch⟩ hok]
  refine ⟨hlt, hstr, ?_⟩
  cases h with
  | start _ hp => simp at hD
  | lag E e _ hok1 hlen hp hhead =>
    refine InStep.lag E e f hok1 hlen (by simpa using hlt) ?_
    rw [hstr, take_one_append _ _ (code_string_ne_nil _ _ (by simpa using hp))]
    exact hhead
  | full _ q _ hok1 hlen hp => exact InStep.full D q f hok1 hlen hlt

theorem in_step_dict (D : List DictEntry) (T : List (List Byte)) (prev : Option Nat)
    (p : Nat) (h : InStep D T prev p) :
    DictOK D ∧ p < 256 + D.length ∧ D.length ≤ 65280 := by
  cases h with
  | start _ hp => exact ⟨fun D0 e D1 hD => by simp at hD, by simpa using hp, by simp⟩
  | lag E e _ hok hlen hp hhead => exact ⟨hok, by simpa using hp, by simpa using hlen⟩
  | full _ q _ hok hlen hp => exact ⟨hok, hp, by omega⟩

theorem in_step_emit (D : List DictEntry) (T : List (List Byte)) (prev : Option Nat)
    (p : Nat) (ch : Byte) (h : InStep D T prev p) :
    InStep (if 256 + D.length < 65536 then D ++ [⟨p, ch⟩] else D)
      (table_after T prev (code_string D p)) (some p) ch.val := by
  unfold table_after
  cases h with
  | start _ hp =>
    simp only [List.length_nil]
    rw [if_pos (by norm_num)]
    have h1 : DictOK ([] ++ [(⟨p, ch⟩ : DictEntry)]) :=
      DictOK_snoc [] _ (fun D0 e D1 hD => by simp at hD) (by simpa using hp)
    have := InStep.lag [] ⟨p, ch⟩ ch.val h1 (by simp) (by have := ch.isLt; simp; omega)
      (by rw [code_string_byte _ _ ch.isLt, byteOf_val]; rfl)
    simpa [expand_dict] using this
  | lag E e _ hok hlen hp hhead =>
    have hT : 256 + (expand_dict E).length < 65536 := by rw [expand_dict_length]; omega
    have hpfx : e.pfx < 256 + E.length := hok E e [] rfl
    have hT1 : expand_dict E ++ [(seq_at (expand_dict E) e.pfx).getD [] ++
        (code_string (E ++ [e]) p).take 1] = expand_dict (E ++ [e]) := by
      rw [hhead, expand_dict_snoc]; rfl
    simp only [if_pos hT, hT1]
    by_cases hfull : 256 + (E ++ [e]).length < 65536
    · rw [if_pos hfull]
      have h1 : DictOK ((E ++ [e]) ++ [(⟨p, ch⟩ : DictEntry)]) :=
        DictOK_snoc _ _ hok (by simpa using hp)
      exact InStep.lag (E ++ [e]) ⟨p, ch⟩ ch.val h1 (by simp at hfull ⊢; omega)
        (by have := ch.isLt; simp; omega)
        (by rw [code_string_byte _ _ ch.isLt, byteOf_val]; rfl)
    · rw [if_neg hfull]
      exact InStep.full (E ++ [e]) p ch.val hok (by simp at hfull ⊢; omega)
        (by have := ch.isLt; omega)
  | full _ q _ hok hlen hp =>
    have hT : ¬ 256 + (expand_dict D).length < 65536 := by rw [expand_dict_length]; omega
    have hD : ¬ 256 + D.length < 65536 := by omega
    simp only [if_neg hT, if_neg hD]
    exact InStep.full D p ch.val hok hlen (by have := ch.isLt; omega)

theorem decode_compress_scan (rest : List Byte) :
    ∀ (D : List DictEntry) (T : List (List Byte)) (prev : Option Nat) (p : Nat),
      InStep D T prev p →
      decode_codes T prev (compress_scan D p rest) = some (code_string D p ++ rest) := by
  induction rest with
  | nil =>
    intro D T prev p h
    simp [compress_scan, decode_codes, decode_entry_in_step D T prev p h]
  | cons ch rest ih =>
    intro D T prev p h
    obtain ⟨hok, hp, hlen⟩ := in_step_dict D T prev p h
    unfold compress_scan
    cases hf : dict_find D p ch with
    | some f =>
      obtain ⟨hlt, hstr, hstep⟩ := in_step_found D T prev p ch f h hok hf
      simp only
      rw [Nat.mod_eq_of_lt (by omega), ih D T prev f hstep, hstr]
      simp
    | none =>
      simp only
      rw [decode_codes, decode_entry_in_step D T prev p h]
      simp only
      rw [ih _ _ _ _ (in_step_emit D T prev p ch h)]
      rw [code_string_byte _ _ ch.isLt, byteOf_val]
      simp

theorem compress_scan_lt (rest : List Byte) :
    ∀ (D : List DictEntry) (p : Nat), p < 65536 →
      ∀ c ∈ compress_scan D p rest, c < 65536 := by
  induction rest with
  | nil =>
    intro D p hp c hc
    simp [compress_scan] at hc
    omega
  | cons ch rest ih =>
    intro D p hp c hc
    unfold compress_scan at hc
    cases hf : dict_find D p ch with
    | some f =>
      rw [hf] at hc
      exact ih D (f % 65536) (Nat.mod_lt _ (by norm_num)) c hc
    | none =>
      rw [hf] at hc
      simp only [List.mem_cons] at hc
      rcases hc with rfl | hc
      · exact hp
      · exact ih _ ch.val (by have := ch.isLt; omega) c hc

theorem lzw_codes_lt (b : List Byte) : ∀ c ∈ lzw_codes b, c < 65536 := by
  cases b with
  | nil => simp [lzw_codes]
  | cons ch rest =>
    exact compress_scan_lt rest [] ch.val (by have := ch.isLt; omega)

theorem decode_lzw_codes (b : List Byte) : decode_codes [] none (lzw_codes b) = some b := by
  cases b with
  | nil => rfl
  | cons ch rest =>
    simp only [lzw_codes]
    rw [decode_compress_scan rest [] [] none ch.val (InStep.start ch.val ch.isLt),
      code_string_byte _ _ ch.isLt, byteOf_val]
    rfl

theorem lzw_decompress_layout (a c : Nat) (codes : List Nat) :
    lzw_decompress (le_bytes 8 a ++ le_bytes 4 c ++ pack_codes codes) =
      match read_codes (c % 2 ^ 32) (pack_codes codes) with
      | none => Decoded.fault
      | some cs =>
        match decode_codes [] none cs with
        | none => Decoded.fault
        | some out => Decoded.ok out := by
  have h8 : (le_bytes 8 a).length = 8 := le_bytes_length 8 a
  have h4 : (le_bytes 4 c).length = 4 := le_bytes_length 4 c
  have hlen : ¬ (le_bytes 8 a ++ le_bytes 4 c ++ pack_codes codes).length < 12 := by
    simp [h8, h4]; omega
  have hd8 : (le_bytes 8 a ++ le_bytes 4 c ++ pack_codes codes).drop 8 =
      le_bytes 4 c ++ pack_codes codes := by
    rw [List.append_assoc, List.drop_left' h8]
  have hd12 : (le_bytes 8 a ++ le_bytes 4 c ++ pack_codes codes).drop 12 = pack_codes codes := by
    rw [List.drop_left' (by simp [h8, h4])]
  have ht : (le_bytes 4 c ++ pack_codes codes).take 4 = le_bytes 4 c := List.take_left' h4
  unfold lzw_decompress
  rw [if_neg hlen, hd8, hd12, ht, le_value_le_bytes]
  norm_num

theorem table_after_bound (T : List (List Byte)) (prev : Option Nat) (entry : List Byte)
    (hT : T.length ≤ 65280) (hb : ∀ s ∈ T, s.length ≤ T.length + 1) :
    (table_after T prev entry).length ≤ 65280 ∧
      ∀ s ∈ table_after T prev entry, s.length ≤ (table_after T prev entry).length + 1 := by
  cases prev with
  | none => exact ⟨hT, hb⟩
  | some pc =>
    by_cases h : 256 + T.length < 65536
    · simp only [table_after, if_pos h]
      refine ⟨by simp; omega, ?_⟩
      intro s hs
      simp only [List.mem_append, List.mem_singleton] at hs
      rcases hs with hs | rfl
      · have := hb s hs
        simp; omega
      · have h1 : ((seq_at T pc).getD []).length ≤ T.length + 1 := by
          unfold seq_at
          split
          · simp
          · cases hg : T[pc - 256]? with
            | none => simp
            | some x =>
              have := hb x (List.getElem?_mem hg)
              simpa using this
        have h2 : (entry.take 1).length ≤ 1 := by simp
        simp only [List.length_append, List.length_singleton]
        omega
    · simp only [table_after, if_neg h]; exact ⟨hT, hb⟩

theorem decode_entry_length (T : List (List Byte)) (prev : Option Nat) (code : Nat)
    (entry : List Byte) (hb : ∀ s ∈ T, s.length ≤ T.length + 1) (hT : T.length ≤ 65280)
    (h : decode_entry T prev code = some (some entry)) : entry.length ≤ 65536 := by
  have hseq : ∀ c s, seq_at T c = some s → s.length ≤ T.length + 1 := by
    intro c s hs
    unfold seq_at at hs
    split at hs
    · simp at hs; subst hs; simp
    · exact hb s (List.getElem?_mem hs)
  unfold decode_entry at h
  split at h
  · simp only [Option.some.injEq] at h
    have := hseq code entry h
    omega
  · cases prev with
    | none => simp at h
    | some pc =>
      simp only at h
      split at h
      · cases hs : seq_at T pc with
        | none => simp [hs] at h
        | some s =>
          simp [hs] at h
          subst h
          have := hseq pc s hs
          simp; omega
      · simp at h

theorem decode_codes_length (codes : List Nat) :
    ∀ (T : List (List Byte)) (prev : Option Nat) (out : List Byte),
      T.length ≤ 65280 → (∀ s ∈ T, s.length ≤ T.length + 1) →
      decode_codes T prev codes = some out → out.length ≤ 65536 * codes.length := by
  induction codes with
  | nil =>
    intro T prev out _ _ h
    simp [decode_codes] at h
    simp [← h]
  | cons code rest ih =>
    intro T prev out hT hb h
    unfold decode_codes at h
    cases he : decode_entry T prev code with
    | none => simp [he] at h
    | some oe =>
      cases oe with
      | none =>
        simp only [he] at h
        have := ih T (some code) out hT hb h
        simp only [List.length_cons]; omega
      | some entry =>
        simp only [he, Option.map_eq_some'] at h
        obtain ⟨out1, h1, rfl⟩ := h
        obtain ⟨hT1, hb1⟩ := table_after_bound T prev entry hT hb
        have h2 := ih _ (some code) out1 hT1 hb1 h1
        have h3 := decode_entry_length T prev code entry hb hT he
        simp only [List.length_append, List.length_cons]; omega

theorem lzw_decompress_length (input out : List Byte)
    (h : lzw_decompress input = Decoded.ok out) : out.length < 2 ^ 48 := by
  unfold lzw_decompress at h
  split at h
  · simp at h
  · cases hr : read_codes (le_value ((input.drop 8).take 4)) (input.drop 12) with
    | none => simp [hr] at h
    | some codes =>
      cases hd : decode_codes [] none codes with
      | none => simp [hr, hd] at h
      | some o =>
        simp [hr, hd] at h
        subst h
        have h1 := read_codes_length _ _ _ hr
        have h2 := le_value_lt ((input.drop 8).take 4)
        have h3 : ((input.drop 8).take 4).length ≤ 4 := by simp
        have h4 : (256 : Nat) ^ ((input.drop 8).take 4).length ≤ 256 ^ 4 :=
          Nat.pow_le_pow_right (by norm_num) h3
        have h5 := decode_codes_length codes [] none o (by simp) (by simp) hd
        have h6 : codes.length < 256 ^ 4 := by omega
        norm_num at h6 ⊢
        omega

theorem compress_scan_length (rest : List Byte) :
    ∀ (D : List DictEntry) (p : Nat), (compress_scan D p rest).length ≤ rest.length + 1 := by
  induction rest with
  | nil => intro D p; simp [compress_scan]
  | cons ch rest ih =>
    intro D p
    unfold compress_scan
    cases hf : dict_find D p ch with
    | some f =>
      have := ih D (f % 65536)
      simp only [List.length_cons]; omega
    | none =>
      have := ih (if 256 + D.length < 65536 then D ++ [⟨p, ch⟩] else D) ch.val
      simp only [List.length_cons]; omega

/-- The compressor emits at most one code per input byte. -/
theorem lzw_codes_length_le (b : List Byte) : (lzw_codes b).length ≤ b.length := by
  cases b with
  | nil => simp [lzw_codes]
  | cons ch rest => exact compress_scan_length rest [] ch.val

theorem decompress_compress (b : List Byte) (h : (lzw_codes b).length < 2 ^ 32) :
    lzw_decompress (lzw_compress b) = Decoded.ok b := by
  unfold lzw_compress
  rw [lzw_decompress_layout, Nat.mod_mod, Nat.mod_eq_of_lt h,
    read_codes_pack _ (lzw_codes_lt b)]
  simp only [decode_lzw_codes]

/-- C1 (as amended): for every byte sequence whose compression emits fewer than
`2 ^ 32` codes (the empty sequence and the inputs that fill the 65536-entry
dictionary included), `lzw_decompress (lzw_compress b)` succeeds and returns `b`. -/
theorem lzw_round_trip (b : List Byte) (h : (lzw_codes b).length < 2 ^ 32) :
    lzw_decompress (lzw_compress b) = Decoded.ok b :=
  decompress_compress b h

theorem lzw_round_trip_witness :
    (lzw_codes [97, 98, 97, 98, 97]).length < 2 ^ 32 ∧
      lzw_decompress (lzw_compress [97, 98, 97, 98, 97]) = Decoded.ok [97, 98, 97, 98, 97] :=
  ⟨by decide, lzw_round_trip [97, 98, 97, 98, 97] (by decide)⟩

/-- C1 as stated fails: on `2 ^ 48` zero bytes the decompressed output is not the input,
the 4-byte count field holding the number of codes modulo `2 ^ 32`. -/
theorem lzw_round_trip_fails_on_long_input :
    lzw_decompress (lzw_compress (List.replicate (2 ^ 48) 0)) ≠
      Decoded.ok (List.replicate (2 ^ 48) 0) := by
  intro h
  have := lzw_decompress_length _ _ h
  rw [List.length_replicate] at this
  exact absurd this (lt_irrefl _)

/-! ## Keys: `strcmp` is the order of the index on byte strings -/

/-- The comparisons of tree.c on keys that are byte strings: `strcmp(a, b) < 0`
is the order `a < b` under which the index is stated, `strcmp(a, b) == 0` is
equality, and `strcmp(a, b) > 0` is `b < a`. -/
theorem strcmp_sign (a b : List Byte) :
    (strcmp a b < 0 ↔ a < b) ∧ (strcmp a b = 0 ↔ a = b) ∧ (0 < strcmp a b ↔ b < a) := by
  induction a generalizing b with
  | nil =>
    cases b with
    | nil => simp [strcmp]
    | cons y bs =>
      refine ⟨?_, ?_, ?_⟩
      · simp only [strcmp]
        exact ⟨fun _ => List.Lex.nil, fun _ => by decide⟩
      · simp [strcmp]
      · simp only [strcmp]
        exact ⟨fun h => absurd h (by decide), fun h => by cases h⟩
  | cons x as ih =>
    cases b with
    | nil =>
      refine ⟨?_, ?_, ?_⟩
      · simp only [strcmp]
        exact ⟨fun h => absurd h (by decide), fun h => by cases h⟩
      · simp [strcmp]
      · simp only [strcmp]
        exact ⟨fun _ => List.Lex.nil, fun _ => by decide⟩
    | cons y bs =>
      obtain ⟨h1, h2, h3⟩ := ih bs
      by_cases hxy : x < y
      · have hne : x ≠ y := ne_of_lt hxy
        refine ⟨?_, ?_, ?_⟩
        · simp only [strcmp, if_pos hxy]
          exact ⟨fun _ => List.Lex.rel hxy, fun _ => by decide⟩
        · simp [strcmp, hxy, hne]
        · simp only [strcmp, if_pos hxy]
          refine ⟨fun h => absurd h (by decide), fun h => ?_⟩
          cases h with
          | cons h => exact absurd hxy (lt_irrefl _)
          | rel h => exact absurd h (not_lt.mpr (le_of_lt hxy))
      · by_cases hyx : y < x
        · have hne : x ≠ y := ne_of_gt hyx
          refine ⟨?_, ?_, ?_⟩
          · simp only [strcmp, if_neg hxy, if_pos hyx]
            refine ⟨fun h => absurd h (by decide), fun h => ?_⟩
            cases h with
            | cons h => exact absurd hyx (lt_irrefl _)
            | rel h => exact absurd h hxy
          · simp [strcmp, hxy, hyx, hne]
          · simp only [strcmp, if_neg hxy, if_pos hyx]
            exact ⟨fun _ => List.Lex.rel hyx, fun _ => by decide⟩
        · have heq : x = y := le_antisymm (not_lt.mp hyx) (not_lt.mp hxy)
          subst heq
          refine ⟨?_, ?_, ?_⟩
          · simp only [strcmp, if_neg hxy]
            rw [h1]
            exact ⟨fun h => List.Lex.cons h, fun h => by
              cases h with
              | cons h => exact h
              | rel h => exact absurd h hxy⟩
          · simp only [strcmp, if_neg hxy]
            rw [h2]
            simp
          · simp only [strcmp, if_neg hxy]
            rw [h3]
            exact ⟨fun h => List.Lex.cons h, fun h => by
              cases h with
              | cons h => exact h
              | rel h => exact absurd h hxy⟩

/-! ## Index: lists of entries -/

section
variable {K : Type} [LinearOrder K]

theorem scan_up_le (key : K) (keys : List (K × Int)) : scan_up key keys ≤ keys.length := by
  induction keys with
  | nil => simp [scan_up]
  | cons e es ih =>
    simp only [scan_up]
    split
    · simp; omega
    · simp

theorem scan_up_before (key : K) (keys : List (K × Int)) (j : Nat) (e : K × Int)
    (hj : j < scan_up key keys) (he : keys[j]? = some e) : e.1 < key := by
  induction keys generalizing j with
  | nil => simp [scan_up] at hj
  | cons a es ih =>
    simp only [scan_up] at hj
    split at hj
    · rename_i ha
      cases j with
      | zero => simp at he; subst he; exact ha
      | succ j => simp at he; exact ih j (by omega) he
    · omega

theorem scan_up_at (key : K) (keys : List (K × Int)) (e : K × Int)
    (he : keys[scan_up key keys]? = some e) : key ≤ e.1 := by
  induction keys with
  | nil => simp at he
  | cons a es ih =>
    simp only [scan_up] at he
    split at he
    · simp at he; exact ih he
    · rename_i ha
      simp at he; subst he; exact not_lt.mp ha

theorem scan_down_le (k : K) (keys : List (K × Int)) : scan_down k keys ≤ keys.length := by
  unfold scan_down
  exact (List.rdropWhile_prefix _ _).length_le

theorem rdrop_rtake (p : K × Int → Bool) (l : List (K × Int)) :
    l.rdropWhile p ++ l.rtakeWhile p = l := by
  simp [List.rdropWhile, List.rtakeWhile, ← List.reverse_append, List.takeWhile_append_dropWhile]

theorem scan_down_at (k : K) (keys : List (K × Int)) (e : K × Int)
    (he : keys[scan_down k keys]? = some e) : k < e.1 := by
  have h := rdrop_rtake (fun e => decide (k < e.1)) keys
  have he1 : (keys.rdropWhile (fun e => decide (k < e.1)) ++
      keys.rtakeWhile (fun e => decide (k < e.1)))[
        (keys.rdropWhile (fun e => decide (k < e.1))).length]? = some e := by
    rw [h]; exact he
  rw [List.getElem?_append_right (le_refl _)] at he1
  simp only [Nat.sub_self] at he1
  have hm : e ∈ keys.rtakeWhile (fun e => decide (k < e.1)) := List.getElem?_mem he1
  simp only [List.rtakeWhile, List.mem_reverse] at hm
  simpa using List.mem_takeWhile_imp hm

theorem scan_down_before (k : K) (keys : List (K × Int)) (e : K × Int)
    (hpos : 1 ≤ scan_down k keys) (he : keys[scan_down k keys - 1]? = some e) : e.1 ≤ k := by
  have h := rdrop_rtake (fun e => decide (k < e.1)) keys
  have hne : keys.rdropWhile (fun e => decide (k < e.1)) ≠ [] := by
    intro h0; simp [scan_down, h0] at hpos
  have hl := List.rdropWhile_last_not (fun e => decide (k < e.1)) keys hne
  have he1 : (keys.rdropWhile (fun e => decide (k < e.1)) ++
      keys.rtakeWhile (fun e => decide (k < e.1)))[
        (keys.rdropWhile (fun e => decide (k < e.1))).length - 1]? = some e := by
    rw [h]; exact he
  unfold scan_down at hpos
  rw [List.getElem?_append_left (by omega)] at he1
  rw [List.getLast_eq_getElem] at hl
  rw [List.getElem?_eq_getElem (by omega)] at he1
  simp only [Option.some.injEq] at he1
  rw [he1] at hl
  simpa using hl
end

theorem interleave_set {α : Type} (cs : List (List α)) (ks : List α) (j : Nat) (m : List α)
    (hj : j ≤ ks.length) (hc : j < cs.length) :
    interleave (cs.set j m) ks = pre_part cs ks j ++ m ++ post_part cs ks j := by
  induction j generalizing cs ks with
  | zero =>
    cases cs with
    | nil => simp at hc
    | cons c cs =>
      cases ks with
      | nil => simp [interleave, pre_part, post_part]
      | cons e ks => simp [interleave, pre_part, post_part]
  | succ j ih =>
    cases cs with
    | nil => simp at hc
    | cons c cs =>
      cases ks with
      | nil => simp at hj
      | cons e ks =>
        simp only [List.set_cons_succ, interleave, pre_part, post_part]
        rw [ih cs ks (by simpa using hj) (by simpa using hc)]
        simp

theorem pre_part_last {α : Type} (cs : List (List α)) (ks : List α) (j : Nat)
    (hj : j + 1 ≤ ks.length) (hc : j + 1 < cs.length) :
    ∃ B e, pre_part cs ks (j + 1) = B ++ [e] ∧ ks[j]? = some e := by
  induction j generalizing cs ks with
  | zero =>
    cases cs with
    | nil => simp at hc
    | cons c cs =>
      cases ks with
      | nil => simp at hj
      | cons e ks => exact ⟨c, e, by simp [pre_part], by simp⟩
  | succ j ih =>
    cases cs with
    | nil => simp at hc
    | cons c cs =>
      cases ks with
      | nil => simp at hj
      | cons e ks =>
        obtain ⟨B, e1, h1, h2⟩ := ih cs ks (by simpa using hj) (by simpa using hc)
        refine ⟨c ++ e :: B, e1, ?_, by simpa using h2⟩
        rw [pre_part, h1]
        simp

theorem post_part_head {α : Type} (cs : List (List α)) (ks : List α) (j : Nat)
    (hc : j < cs.length) : (post_part cs ks j).head? = ks[j]? := by
  induction j generalizing cs ks with
  | zero =>
    cases cs with
    | nil => simp at hc
    | cons c cs =>
      cases ks with
      | nil => simp [post_part]
      | cons e ks => simp [post_part]
  | succ j ih =>
    cases cs with
    | nil => simp at hc
    | cons c cs =>
      cases ks with
      | nil => simp [post_part]
      | cons e ks =>
        simp only [post_part, List.getElem?_cons_succ]
        exact ih cs ks (by simpa using hc)

section
variable {K : Type} [LinearOrder K]

theorem find_pos_append (k : K) (l1 l2 : List (K × Int)) :
    find_pos k (l1 ++ l2) =
      if k ∈ l1.map Prod.fst then find_pos k l1 else find_pos k l2 := by
  induction l1 with
  | nil => simp
  | cons e es ih =>
    by_cases h : e.1 = k
    · simp [find_pos, h]
    · have h1 : ¬ k = e.1 := fun h2 => h h2.symm
      simp only [List.cons_append, find_pos, if_neg h, List.map_cons, List.mem_cons, h1,
        false_or]
      exact ih

theorem find_pos_not_mem (k : K) (l : List (K × Int)) (h : k ∉ l.map Prod.fst) :
    find_pos k l = -1 := by
  induction l with
  | nil => rfl
  | cons e es ih =>
    simp only [List.map_cons, List.mem_cons, not_or] at h
    have h1 : ¬ e.1 = k := fun h2 => h.1 h2.symm
    simp only [find_pos, if_neg h1, ih h.2]

theorem find_pos_mem (k : K) (l : List (K × Int)) (h : k ∈ l.map Prod.fst) :
    (k, find_pos k l) ∈ l := by
  induction l with
  | nil => simp at h
  | cons e es ih =>
    by_cases he : e.1 = k
    · simp only [find_pos, if_pos he]
      rw [← he]
      exact List.mem_cons_self _ _
    · simp only [find_pos, if_neg he]
      simp only [List.map_cons, List.mem_cons] at h
      rcases h with h | h
      · exact absurd h.symm he
      · exact List.mem_cons_of_mem _ (ih h)

theorem find_pos_filter (k : K) (p : K × Int → Bool) (l : List (K × Int))
    (hp : ∀ e ∈ l, e.1 = k → p e = true) : find_pos k (l.filter p) = find_pos k l := by
  induction l with
  | nil => rfl
  | cons e es ih =>
    have ih1 := ih (fun x hx => hp x (List.mem_cons_of_mem _ hx))
    by_cases he : e.1 = k
    · have := hp e (List.mem_cons_self _ _) he
      simp [List.filter_cons, this, find_pos, he]
    · by_cases hq : p e = true
      · simp [List.filter_cons, hq, find_pos, he, ih1]
      · simp [List.filter_cons, hq, find_pos, he, ih1]

theorem find_pos_filter_none (k : K) (p : K × Int → Bool) (l : List (K × Int))
    (hp : ∀ e ∈ l, e.1 = k → p e = false) : find_pos k (l.filter p) = -1 := by
  apply find_pos_not_mem
  intro h
  simp only [List.mem_map, List.mem_filter] at h
  obtain ⟨e, ⟨he, hpe⟩, hk⟩ := h
  rw [hp e he hk] at hpe
  exact Bool.false_ne_true hpe

theorem find_pos_put_entry (k k1 : K) (v : Int) (l : List (K × Int)) :
    find_pos k (put_entry k1 v l) = if k = k1 then v else find_pos k l := by
  unfold put_entry
  by_cases h : k = k1
  · subst h
    rw [find_pos_append, if_neg, if_pos rfl]
    · simp [find_pos]
    · simp [List.mem_filter]
  · rw [if_neg h]
    rcases lt_or_gt_of_ne h with hlt | hgt
    · by_cases hm : k ∈ l.map Prod.fst
      · have hm1 : k ∈ (l.filter (fun e => decide (e.1 < k1))).map Prod.fst := by
          simp only [List.mem_map, List.mem_filter] at hm ⊢
          obtain ⟨e, he, hk⟩ := hm
          exact ⟨e, ⟨he, by simp [hk, hlt]⟩, hk⟩
        rw [find_pos_append, if_pos hm1, find_pos_filter]
        intro e _ hk
        simp [hk, hlt]
      · rw [find_pos_not_mem k l hm]
        apply find_pos_not_mem
        intro hm1
        apply hm
        simp only [List.map_append, List.map_cons, List.mem_append, List.mem_cons,
          List.mem_map, List.mem_filter] at hm1 ⊢
        rcases hm1 with ⟨e, ⟨he, _⟩, hk⟩ | h1 | ⟨e, ⟨he, _⟩, hk⟩
        · exact ⟨e, he, hk⟩
        · exact absurd h1 h
        · exact ⟨e, he, hk⟩
    · have hm1 : k ∉ (l.filter (fun e => decide (e.1 < k1))).map Prod.fst := by
        simp only [List.mem_map, List.mem_filter, not_exists, not_and]
        intro e ⟨_, he⟩ hk
        simp only [decide_eq_true_eq] at he
        rw [hk] at he
        exact absurd he (not_lt.mpr (le_of_lt hgt))
      rw [find_pos_append, if_neg hm1]
      simp only [find_pos, if_neg (fun h2 : k1 = k => h h2.symm)]
      apply find_pos_filter
      intro e _ hk
      simp [hk, hgt]
end

/-! ## Index: one node -/

section
variable {K : Type} [LinearOrder K]

theorem child_induction {P : BTreeNode K → Prop} (hnull : P null)
    (hnode : ∀ keys leaf c0 c1 c2 c3,
      (∀ j, P ((node keys leaf c0 c1 c2 c3).child j)) → P (node keys leaf c0 c1 c2 c3)) :
    ∀ t, P t := by
  intro t
  induction t with
  | null => exact hnull
  | node keys leaf c0 c1 c2 c3 ih0 ih1 ih2 ih3 =>
    apply hnode
    intro j
    match j with
    | 0 => exact ih0
    | 1 => exact ih1
    | 2 => exact ih2
    | 3 => exact ih3
    | _ + 4 => exact hnull

theorem setChild_child (x : BTreeNode K) (j : Nat) : x.setChild j (x.child j) = x := by
  cases x with
  | null => rfl
  | node keys leaf c0 c1 c2 c3 =>
    match j with
    | 0 => rfl
    | 1 => rfl
    | 2 => rfl
    | 3 => rfl
    | _ + 4 => rfl

theorem child_setChild (keys : List (K × Int)) (leaf : Bool) (c0 c1 c2 c3 c : BTreeNode K)
    (j : Nat) (hj : j < 4) : ((node keys leaf c0 c1 c2 c3).setChild j c).child j = c := by
  interval_cases j <;> rfl

theorem child_setChild_ne (x c : BTreeNode K) (i j : Nat) (h : i ≠ j) :
    (x.setChild j c).child i = x.child i := by
  cases x with
  | null => cases j <;> rfl
  | node keys leaf c0 c1 c2 c3 =>
    match j, i, h with
    | 0, 0, h => exact absurd rfl h
    | 0, 1, _ => rfl
    | 0, 2, _ => rfl
    | 0, 3, _ => rfl
    | 0, _ + 4, _ => rfl
    | 1, 0, _ => rfl
    | 1, 1, h => exact absurd rfl h
    | 1, 2, _ => rfl
    | 1, 3, _ => rfl
    | 1, _ + 4, _ => rfl
    | 2, 0, _ => rfl
    | 2, 1, _ => rfl
    | 2, 2, h => exact absurd rfl h
    | 2, 3, _ => rfl
    | 2, _ + 4, _ => rfl
    | 3, 0, _ => rfl
    | 3, 1, _ => rfl
    | 3, 2, _ => rfl
    | 3, 3, h => exact absurd rfl h
    | 3, _ + 4, _ => rfl
    | _ + 4, _, _ => rfl

theorem keys_setChild (x c : BTreeNode K) (j : Nat) : (x.setChild j c).keys = x.keys := by
  cases x with
  | null => cases j <;> rfl
  | node keys leaf c0 c1 c2 c3 =>
    match j with
    | 0 => rfl
    | 1 => rfl
    | 2 => rfl
    | 3 => rfl
    | _ + 4 => rfl

theorem entries_setChild (keys : List (K × Int)) (c0 c1 c2 c3 c : BTreeNode K) (j : Nat)
    (hj : j < 4) :
    btree_entries ((node keys false c0 c1 c2 c3).setChild j c) =
      interleave ([btree_entries c0, btree_entries c1, btree_entries c2,
        btree_entries c3].set j (btree_entries c)) keys := by
  interval_cases j <;> simp [setChild, btree_entries]

/-- The entries of a node that is not a leaf, cut around the subtree of slot `j`. -/
theorem node_cut (keys : List (K × Int)) (c0 c1 c2 c3 : BTreeNode K) (j : Nat)
    (hj : j ≤ keys.length) (hn : keys.length ≤ 3) :
    ∃ L R, (∀ c, btree_entries ((node keys false c0 c1 c2 c3).setChild j c) =
        L ++ btree_entries c ++ R) ∧
      (j = 0 → L = []) ∧ (∀ i, j = i + 1 → ∃ B e, L = B ++ [e] ∧ keys[i]? = some e) ∧
      R.head? = keys[j]? := by
  refine ⟨pre_part [btree_entries c0, btree_entries c1, btree_entries c2, btree_entries c3]
    keys j, post_part [btree_entries c0, btree_entries c1, btree_entries c2, btree_entries c3]
    keys j, ?_, ?_, ?_, ?_⟩
  · intro c
    rw [entries_setChild _ _ _ _ _ _ _ (by omega), interleave_set _ _ _ _ hj (by simp; omega)]
  · rintro rfl; simp [pre_part]
  · rintro i rfl
    exact pre_part_last _ _ i hj (by simp; omega)
  · exact post_part_head _ _ _ (by simp; omega)

theorem bound_left (L rest : List (K × Int)) (k : K) (hs : KeySorted (L ++ rest))
    (h : L = [] ∨ ∃ B e, L = B ++ [e] ∧ e.1 < k) : ∀ e ∈ L, e.1 < k := by
  rcases h with rfl | ⟨B, e0, rfl, he0⟩
  · simp
  · intro e he
    simp only [List.mem_append, List.mem_singleton] at he
    rcases he with he | rfl
    · unfold KeySorted at hs
      rw [List.append_assoc, List.pairwise_append] at hs
      exact lt_trans (hs.2.2 e he e0 (by simp)) he0
    · exact he0

theorem bound_right (pre R : List (K × Int)) (k : K) (hs : KeySorted (pre ++ R))
    (h : ∀ e, R.head? = some e → k < e.1) : ∀ e ∈ R, k < e.1 := by
  cases R with
  | nil => simp
  | cons e0 A =>
    have he0 := h e0 rfl
    intro e he
    simp only [List.mem_cons] at he
    rcases he with rfl | he
    · exact he0
    · unfold KeySorted at hs
      rw [List.pairwise_append, List.pairwise_cons] at hs
      exact lt_trans he0 (hs.2.1.1 e he)

theorem put_entry_middle (k : K) (v : Int) (L M R : List (K × Int))
    (hL : ∀ e ∈ L, e.1 < k) (hR : ∀ e ∈ R, k < e.1) :
    put_entry k v (L ++ M ++ R) = L ++ put_entry k v M ++ R := by
  have h1 : L.filter (fun e => decide (e.1 < k)) = L :=
    List.filter_eq_self.mpr (fun e he => by simpa using hL e he)
  have h2 : R.filter (fun e => decide (e.1 < k)) = [] :=
    List.filter_eq_nil_iff.mpr (fun e he => by simpa using le_of_lt (hR e he))
  have h3 : L.filter (fun e => decide (k < e.1)) = [] :=
    List.filter_eq_nil_iff.mpr (fun e he => by simpa using le_of_lt (hL e he))
  have h4 : R.filter (fun e => decide (k < e.1)) = R :=
    List.filter_eq_self.mpr (fun e he => by simpa using hR e he)
  simp [put_entry, List.filter_append, h1, h2, h3, h4]

theorem find_pos_middle (k : K) (L M R : List (K × Int))
    (hL : ∀ e ∈ L, e.1 < k) (hR : ∀ e ∈ R, k < e.1) :
    find_pos k (L ++ M ++ R) = find_pos k M := by
  have h1 : k ∉ L.map Prod.fst := by
    intro h
    obtain ⟨e, he, hk⟩ := List.mem_map.mp h
    exact absurd (hL e he) (by rw [hk]; exact lt_irrefl _)
  have h2 : k ∉ R.map Prod.fst := by
    intro h
    obtain ⟨e, he, hk⟩ := List.mem_map.mp h
    exact absurd (hR e he) (by rw [hk]; exact lt_irrefl _)
  rw [List.append_assoc, find_pos_append, if_neg h1, find_pos_append]
  split
  · rfl
  · rename_i hM
    rw [find_pos_not_mem k M hM, find_pos_not_mem k R h2]

theorem KeySorted.sublist {l1 l2 : List (K × Int)} (h : KeySorted l2) (hs : l1.Sublist l2) :
    KeySorted l1 := List.Pairwise.sublist hs h

theorem keySorted_middle (L M R : List (K × Int)) (h : KeySorted (L ++ M ++ R)) :
    KeySorted M :=
  h.sublist ((List.sublist_append_right L M).trans (List.sublist_append_left (L ++ M) R))
end

/-! ## Index: search -/

section
variable {K : Type} [LinearOrder K]

theorem search_node (keys : List (K × Int)) (leaf : Bool) (c0 c1 c2 c3 : BTreeNode K) (k : K) :
    btree_search (node keys leaf c0 c1 c2 c3) k =
      if key_at keys (scan_up k keys) k then pos_at keys (scan_up k keys)
      else if leaf then -1
      else btree_search ((node keys leaf c0 c1 c2 c3).child (scan_up k keys)) k := by
  rw [btree_search]
  generalize scan_up k keys = i
  split
  · rfl
  · split
    · rfl
    · match i with
      | 0 => rfl
      | 1 => rfl
      | 2 => rfl
      | 3 => rfl
      | _ + 4 => rfl

theorem delete_node (keys : List (K × Int)) (leaf : Bool) (c0 c1 c2 c3 : BTreeNode K) (k : K) :
    btree_delete (node keys leaf c0 c1 c2 c3) k =
      if key_at keys (scan_up k keys) k then
        node (keys.eraseIdx (scan_up k keys)) leaf c0 c1 c2 c3
      else if leaf then node keys leaf c0 c1 c2 c3
      else (node keys leaf c0 c1 c2 c3).setChild (scan_up k keys)
        (btree_delete ((node keys leaf c0 c1 c2 c3).child (scan_up k keys)) k) := by
  rw [btree_delete]
  generalize scan_up k keys = i
  split
  · rfl
  · split
    · rfl
    · match i with
      | 0 => rfl
      | 1 => rfl
      | 2 => rfl
      | 3 => rfl
      | _ + 4 => rfl

theorem update_node (keys : List (K × Int)) (leaf : Bool) (c0 c1 c2 c3 : BTreeNode K) (k : K)
    (v : Int) :
    btree_update (node keys leaf c0 c1 c2 c3) k v =
      if key_at keys (scan_up k keys) k then
        node (keys.modify (fun e => (e.1, v)) (scan_up k keys)) leaf c0 c1 c2 c3
      else if leaf then node keys leaf c0 c1 c2 c3
      else (node keys leaf c0 c1 c2 c3).setChild (scan_up k keys)
        (btree_update ((node keys leaf c0 c1 c2 c3).child (scan_up k keys)) k v) := by
  rw [btree_update]
  generalize scan_up k keys = i
  split
  · rfl
  · split
    · rfl
    · match i with
      | 0 => rfl
      | 1 => rfl
      | 2 => rfl
      | 3 => rfl
      | _ + 4 => rfl

theorem smallNodes_child (x : BTreeNode K) (j : Nat) (h : SmallNodes x) :
    SmallNodes (x.child j) := by
  cases x with
  | null => cases j <;> trivial
  | node keys leaf c0 c1 c2 c3 =>
    obtain ⟨_, h0, h1, h2, h3⟩ := h
    match j with
    | 0 => exact h0
    | 1 => exact h1
    | 2 => exact h2
    | 3 => exact h3
    | _ + 4 => trivial

theorem find_pos_scan (k : K) (keys : List (K × Int)) (hs : KeySorted keys) :
    find_pos k keys =
      if key_at keys (scan_up k keys) k then pos_at keys (scan_up k keys) else -1 := by
  induction keys with
  | nil => simp [find_pos, key_at]
  | cons e es ih =>
    have hs1 : KeySorted es := (List.pairwise_cons.mp hs).2
    have hlt : ∀ x ∈ es, e.1 < x.1 := (List.pairwise_cons.mp hs).1
    by_cases h : e.1 < k
    · have hne : ¬ e.1 = k := ne_of_lt h
      simp only [find_pos, if_neg hne, scan_up, if_pos h, key_at, pos_at,
        List.getElem?_cons_succ]
      exact ih hs1
    · by_cases he : e.1 = k
      · simp [find_pos, he, scan_up, key_at, pos_at]
      · have hk : k < e.1 := lt_of_le_of_ne (not_lt.mp h) (fun h2 => he h2.symm)
        have hnm : k ∉ es.map Prod.fst := by
          intro hm
          obtain ⟨x, hx, hxk⟩ := List.mem_map.mp hm
          have := hlt x hx
          rw [hxk] at this
          exact absurd (lt_trans hk this) (lt_irrefl _)
        simp [find_pos, he, scan_up, h, key_at, find_pos_not_mem k es hnm]

/-- On a tree with ascending entries, `btree_search` returns the position listed
for the key, and -1 for a key that is not listed. -/
theorem search_eq_find_pos (k : K) :
    ∀ t : BTreeNode K, SmallNodes t → KeySorted (btree_entries t) →
      btree_search t k = find_pos k (btree_entries t) := by
  apply child_induction
  · intro _ _; rfl
  · intro keys leaf c0 c1 c2 c3 ih hsm hs
    rw [search_node]
    cases leaf with
    | true =>
      simp only [btree_entries, if_true] at hs ⊢
      rw [find_pos_scan k keys hs]
    | false =>
      have hn : keys.length ≤ 3 := hsm.1
      obtain ⟨L, R, hcut, hL0, hL1, hR⟩ :=
        node_cut keys c0 c1 c2 c3 (scan_up k keys) (scan_up_le k keys) hn
      have hx := hcut ((node keys false c0 c1 c2 c3).child (scan_up k keys))
      rw [setChild_child] at hx
      rw [hx] at hs ⊢
      have hLk : ∀ e ∈ L, e.1 < k := by
        apply bound_left L _ k (by rw [← List.append_assoc]; exact hs)
        cases hi : scan_up k keys with
        | zero => exact Or.inl (hL0 hi)
        | succ i =>
          obtain ⟨B, e, hB, he⟩ := hL1 i hi
          exact Or.inr ⟨B, e, hB, scan_up_before k keys i e (by omega) he⟩
      have hchild := ih (scan_up k keys) (smallNodes_child _ _ hsm) (keySorted_middle L _ R hs)
      cases hk : keys[scan_up k keys]? with
      | none =>
        rw [hk] at hR
        have hR0 : R = [] := by
          cases R with
          | nil => rfl
          | cons _ _ => simp at hR
        subst hR0
        simp only [key_at, hk, Bool.false_eq_true, if_false]
        rw [hchild, find_pos_middle k L _ [] hLk (by simp)]
      | some e1 =>
        rw [hk] at hR
        obtain ⟨A, rfl⟩ : ∃ A, R = e1 :: A := by
          cases R with
          | nil => simp at hR
          | cons r A => simp at hR; exact ⟨A, by rw [hR]⟩
        have hge := scan_up_at k keys e1 hk
        by_cases he : e1.1 = k
        · simp only [key_at, pos_at, hk, he, decide_True, if_true]
          have hlt : ∀ e ∈ L ++ btree_entries ((node keys false c0 c1 c2 c3).child
              (scan_up k keys)), e.1 < e1.1 := by
            intro e hmem
            unfold KeySorted at hs
            rw [List.pairwise_append] at hs
            exact hs.2.2 e hmem e1 (List.mem_cons_self _ _)
          have hnm : k ∉ (L ++ btree_entries ((node keys false c0 c1 c2 c3).child
              (scan_up k keys))).map Prod.fst := by
            intro hm
            obtain ⟨x, hx, hxk⟩ := List.mem_map.mp hm
            have := hlt x hx
            rw [hxk, he] at this
            exact absurd this (lt_irrefl _)
          rw [find_pos_append, if_neg hnm]
          simp [find_pos, he]
        · have hk1 : k < e1.1 := lt_of_le_of_ne hge (fun h2 => he h2.symm)
          have hRk : ∀ e ∈ e1 :: A, k < e.1 :=
            bound_right _ _ k hs (fun e h => by simp at h; rw [← h]; exact hk1)
          simp only [key_at, hk, he, decide_False, Bool.false_eq_true, if_false]
          rw [hchild, find_pos_middle k L _ _ hLk hRk]
end

/-! ## Index: shape -/

section
variable {K : Type} [LinearOrder K]

theorem bal_zero_iff (keys : List (K × Int)) (leaf : Bool) (c0 c1 c2 c3 : BTreeNode K) :
    Bal 0 (node keys leaf c0 c1 c2 c3) ↔
      leaf = true ∧ keys.length ≤ 3 ∧ c0 = null ∧ c1 = null ∧ c2 = null ∧ c3 = null := by
  simp [Bal]

theorem bal_succ_iff (h : Nat) (keys : List (K × Int)) (leaf : Bool) (c0 c1 c2 c3 : BTreeNode K) :
    Bal (h + 1) (node keys leaf c0 c1 c2 c3) ↔
      leaf = false ∧ keys.length ≤ 3 ∧
        (Bal h c0 ∧ 1 ≤ c0.n) ∧
        (if 1 ≤ keys.length then Bal h c1 ∧ 1 ≤ c1.n else c1 = null) ∧
        (if 2 ≤ keys.length then Bal h c2 ∧ 1 ≤ c2.n else c2 = null) ∧
        (if 3 ≤ keys.length then Bal h c3 ∧ 1 ≤ c3.n else c3 = null) := by
  simp only [Bal]
  constructor
  · rintro ⟨h1, h2, h3, h4⟩
    refine ⟨h1, h2, h3 0 (by omega), ?_, ?_, ?_⟩
    · split
      · exact h3 1 (by omega)
      · exact h4 1 (by omega)
    · split
      · exact h3 2 (by omega)
      · exact h4 2 (by omega)
    · split
      · exact h3 3 (by omega)
      · exact h4 3 (by omega)
  · rintro ⟨h1, h2, h3, h4, h5, h6⟩
    refine ⟨h1, h2, ?_, ?_⟩
    · intro j hj
      match j with
      | 0 => exact h3
      | 1 => rw [if_pos (by omega)] at h4; exact h4
      | 2 => rw [if_pos (by omega)] at h5; exact h5
      | 3 => rw [if_pos (by omega)] at h6; exact h6
      | _ + 4 => omega
    · intro j hj
      match j with
      | 0 => omega
      | 1 => rw [if_neg (by omega)] at h4; exact h4
      | 2 => rw [if_neg (by omega)] at h5; exact h5
      | 3 => rw [if_neg (by omega)] at h6; exact h6
      | _ + 4 => rfl

theorem bal_not_null (h : Nat) : ¬ Bal h (null : BTreeNode K) := by
  cases h <;> simp [Bal]

theorem bal_n_le (h : Nat) (x : BTreeNode K) (hb : Bal h x) : x.n ≤ 3 := by
  cases x with
  | null => exact absurd hb (bal_not_null h)
  | node keys leaf c0 c1 c2 c3 =>
    cases h with
    | zero => exact ((bal_zero_iff _ _ _ _ _ _).mp hb).2.1
    | succ h => exact hb.2.1

theorem bal_child (h : Nat) (x : BTreeNode K) (j : Nat) (hb : Bal (h + 1) x) (hj : j ≤ x.n) :
    Bal h (x.child j) ∧ 1 ≤ (x.child j).n := by
  cases x with
  | null => exact absurd hb (bal_not_null _)
  | node keys leaf c0 c1 c2 c3 => exact hb.2.2.1 j hj

theorem bal_setChild (h : Nat) (x c : BTreeNode K) (j : Nat) (hb : Bal (h + 1) x)
    (hj : j ≤ x.n) (hc : Bal h c) (hn : 1 ≤ c.n) : Bal (h + 1) (x.setChild j c) := by
  cases x with
  | null => exact absurd hb (bal_not_null _)
  | node keys leaf c0 c1 c2 c3 =>
    have hn3 : keys.length ≤ 3 := hb.2.1
    have hj3 : j ≤ keys.length := hj
    rw [bal_succ_iff] at hb
    obtain ⟨h1, h2, h3, h4, h5, h6⟩ := hb
    match j with
    | 0 => exact (bal_succ_iff _ _ _ _ _ _ _).mpr ⟨h1, h2, ⟨hc, hn⟩, h4, h5, h6⟩
    | 1 =>
      exact (bal_succ_iff _ _ _ _ _ _ _).mpr ⟨h1, h2, h3, by rw [if_pos hj3]; exact ⟨hc, hn⟩,
        h5, h6⟩
    | 2 =>
      exact (bal_succ_iff _ _ _ _ _ _ _).mpr ⟨h1, h2, h3, h4, by rw [if_pos hj3]; exact ⟨hc, hn⟩,
        h6⟩
    | 3 =>
      exact (bal_succ_iff _ _ _ _ _ _ _).mpr ⟨h1, h2, h3, h4, h5,
        by rw [if_pos hj3]; exact ⟨hc, hn⟩⟩
    | _ + 4 => omega

theorem bal_smallNodes (h : Nat) : ∀ x : BTreeNode K, Bal h x → SmallNodes x := by
  induction h with
  | zero =>
    intro x hb
    cases x with
    | null => trivial
    | node keys leaf c0 c1 c2 c3 =>
      obtain ⟨_, h2, rfl, rfl, rfl, rfl⟩ := (bal_zero_iff _ _ _ _ _ _).mp hb
      exact ⟨h2, trivial, trivial, trivial, trivial⟩
  | succ h ih =>
    intro x hb
    cases x with
    | null => trivial
    | node keys leaf c0 c1 c2 c3 =>
      obtain ⟨_, h2, h3, h4, h5, h6⟩ := (bal_succ_iff _ _ _ _ _ _ _).mp hb
      refine ⟨h2, ih _ h3.1, ?_, ?_, ?_⟩
      · split at h4
        · exact ih _ h4.1
        · rw [h4]; trivial
      · split at h5
        · exact ih _ h5.1
        · rw [h5]; trivial
      · split at h6
        · exact ih _ h6.1
        · rw [h6]; trivial

theorem bal_height (h : Nat) : ∀ x : BTreeNode K, Bal h x → x.height = h + 1 := by
  induction h with
  | zero =>
    intro x hb
    cases x with
    | null => exact absurd hb (bal_not_null _)
    | node keys leaf c0 c1 c2 c3 =>
      obtain ⟨_, _, rfl, rfl, rfl, rfl⟩ := (bal_zero_iff _ _ _ _ _ _).mp hb
      simp [height]
  | succ h ih =>
    intro x hb
    cases x with
    | null => exact absurd hb (bal_not_null _)
    | node keys leaf c0 c1 c2 c3 =>
      obtain ⟨_, h2, h3, h4, h5, h6⟩ := (bal_succ_iff _ _ _ _ _ _ _).mp hb
      have e0 := ih _ h3.1
      have e1 : c1.height ≤ h + 1 := by
        split at h4
        · rw [ih _ h4.1]
        · rw [h4]; simp [height]
      have e2 : c2.height ≤ h + 1 := by
        split at h5
        · rw [ih _ h5.1]
        · rw [h5]; simp [height]
      have e3 : c3.height ≤ h + 1 := by
        split at h6
        · rw [ih _ h6.1]
        · rw [h6]; simp [height]
      simp only [height, e0]
      omega
end

/-! ## Index: splitting a full child -/

section
variable {K : Type} [LinearOrder K]

theorem n_node (ks : List (K × Int)) (l : Bool) (c0 c1 c2 c3 : BTreeNode K) :
    (node ks l c0 c1 c2 c3).n = ks.length := rfl

theorem keys_node (ks : List (K × Int)) (l : Bool) (c0 c1 c2 c3 : BTreeNode K) :
    (node ks l c0 c1 c2 c3).keys = ks := rfl

theorem split_halves (h : Nat) (p m q : K × Int) (yl : Bool) (y0 y1 y2 y3 : BTreeNode K)
    (hb : Bal h (node [p, m, q] yl y0 y1 y2 y3)) :
    Bal h (node [p] yl y0 y1 (if yl then y2 else null) (if yl then y3 else null)) ∧
      Bal h (node [q] yl (if yl then null else y2) (if yl then null else y3) null null) ∧
      btree_entries (node [p, m, q] yl y0 y1 y2 y3) =
        btree_entries (node [p] yl y0 y1 (if yl then y2 else null) (if yl then y3 else null))
          ++ m :: btree_entries
            (node [q] yl (if yl then null else y2) (if yl then null else y3) null null) := by
  cases h with
  | zero =>
    obtain ⟨rfl, _, rfl, rfl, rfl, rfl⟩ := (bal_zero_iff _ _ _ _ _ _).mp hb
    simp [Bal, btree_entries]
  | succ h =>
    obtain ⟨rfl, _, h0, h1, h2, h3⟩ := (bal_succ_iff _ _ _ _ _ _ _).mp hb
    simp only [List.length_cons, List.length_nil] at h1 h2 h3
    norm_num at h1 h2 h3
    refine ⟨?_, ?_, ?_⟩
    · rw [bal_succ_iff]
      simp [h0, h1]
    · rw [bal_succ_iff]
      simp [h2, h3]
    · simp [btree_entries, interleave]

theorem node_three (h : Nat) (y : BTreeNode K) (hb : Bal h y) (hn : y.n = 3) :
    ∃ p m q yl y0 y1 y2 y3, y = node [p, m, q] yl y0 y1 y2 y3 := by
  cases y with
  | null => exact absurd hb (bal_not_null _)
  | node ks yl y0 y1 y2 y3 =>
    obtain ⟨p, m, q, rfl⟩ := List.length_eq_three.mp hn
    exact ⟨p, m, q, yl, y0, y1, y2, y3, rfl⟩

/-- What `btree_split_child` does to a node that is not full, at a full child. -/
theorem split_child_spec (h : Nat) (ks : List (K × Int)) (c0 c1 c2 c3 : BTreeNode K) (i : Nat)
    (hb : Bal (h + 1) (node ks false c0 c1 c2 c3)) (hn : ks.length ≤ 2)
    (hi : i ≤ ks.length) (hfull : ((node ks false c0 c1 c2 c3).child i).n = 3) :
    ∃ m, Bal (h + 1) (btree_split_child (node ks false c0 c1 c2 c3) i) ∧
      (btree_split_child (node ks false c0 c1 c2 c3) i).keys =
        ks.take i ++ m :: ks.drop i ∧
      btree_entries (btree_split_child (node ks false c0 c1 c2 c3) i) =
        btree_entries (node ks false c0 c1 c2 c3) ∧
      ((btree_split_child (node ks false c0 c1 c2 c3) i).child i).n = 1 ∧
      ((btree_split_child (node ks false c0 c1 c2 c3) i).child (i + 1)).n = 1 := by
  have hci := bal_child h _ i hb hi
  obtain ⟨p, m, q, yl, y0, y1, y2, y3, hy⟩ := node_three h _ hci.1 hfull
  rw [hy] at hci
  obtain ⟨hy1, hz, hent⟩ := split_halves h p m q yl y0 y1 y2 y3 hci.1
  refine ⟨m, ?_⟩
  obtain ⟨_, _, h0, h1, h2, h3⟩ := (bal_succ_iff _ _ _ _ _ _ _).mp hb
  have hi' : i = 0 ∨ i = 1 ∨ i = 2 := by omega
  rcases ks with _ | ⟨a, _ | ⟨b, _ | ⟨c, t⟩⟩⟩
  · rcases hi' with rfl | rfl | rfl
    · simp only [child] at hy
      subst hy
      simp only [List.length_cons, List.length_nil] at h1 h2 h3
      norm_num at h1 h2 h3
      simp only [btree_split_child, child, setChild, shifted_slot, BTREE_T, List.length_cons,
        List.length_nil]
      refine ⟨?_, ?_, ?_, ?_, ?_⟩
      · simp [bal_succ_iff, hy1, hz, n_node, h0, h1, h2, h3]
      · simp [keys_node]
      · simp [btree_entries, interleave] at hent ⊢
        simp [btree_entries, interleave, hent, h1, h2, h3]
      · simp [child, n_node]
      · simp [child, n_node]
    · simp at hi
    · simp at hi
  · rcases hi' with rfl | rfl | rfl
    · simp only [child] at hy
      subst hy
      simp only [List.length_cons, List.length_nil] at h1 h2 h3
      norm_num at h1 h2 h3
      simp only [btree_split_child, child, setChild, shifted_slot, BTREE_T, List.length_cons,
        List.length_nil]
      refine ⟨?_, ?_, ?_, ?_, ?_⟩
      · simp [bal_succ_iff, hy1, hz, n_node, h0, h1, h2, h3]
      · simp [keys_node]
      · simp [btree_entries, interleave] at hent ⊢
        simp [btree_entries, interleave, hent, h1, h2, h3]
      · simp [child, n_node]
      · simp [child, n_node]
    · simp only [child] at hy
      subst hy
      simp only [List.length_cons, List.length_nil] at h1 h2 h3
      norm_num at h1 h2 h3
      simp only [btree_split_child, child, setChild, shifted_slot, BTREE_T, List.length_cons,
        List.length_nil]
      refine ⟨?_, ?_, ?_, ?_, ?_⟩
      · simp [bal_succ_iff, hy1, hz, n_node, h0, h1, h2, h3]
      · simp [keys_node]
      · simp [btree_entries, interleave] at hent ⊢
        simp [btree_entries, interleave, hent, h1, h2, h3]
      · simp [child, n_node]
      · simp [child, n_node]
    · simp at hi
  · rcases hi' with rfl | rfl | rfl
    · simp only [child] at hy
      subst hy
      simp only [List.length_cons, List.length_nil] at h1 h2 h3
      norm_num at h1 h2 h3
      simp only [btree_split_child, child, setChild, shifted_slot, BTREE_T, List.length_cons,
        List.length_nil]
      refine ⟨?_, ?_, ?_, ?_, ?_⟩
      · simp [bal_succ_iff, hy1, hz, n_node, h0, h1, h2, h3]
      · simp [keys_node]
      · simp [btree_entries, interleave] at hent ⊢
        simp [btree_entries, interleave, hent, h1, h2, h3]
      · simp [child, n_node]
      · simp [child, n_node]
    · simp only [child] at hy
      subst hy
      simp only [List.length_cons, List.length_nil] at h1 h2 h3
      norm_num at h1 h2 h3
      simp only [btree_split_child, child, setChild, shifted_slot, BTREE_T, List.length_cons,
        List.length_nil]
      refine ⟨?_, ?_, ?_, ?_, ?_⟩
      · simp [bal_succ_iff, hy1, hz, n_node, h0, h1, h2, h3]
      · simp [keys_node]
      · simp [btree_entries, interleave] at hent ⊢
        simp [btree_entries, interleave, hent, h1, h2, h3]
      · simp [child, n_node]
      · simp [child, n_node]
    · simp only [child] at hy
      subst hy
      simp only [List.length_cons, List.length_nil] at h1 h2 h3
      norm_num at h1 h2 h3
      simp only [btree_split_child, child, setChild, shifted_slot, BTREE_T, List.length_cons,
        List.length_nil]
      refine ⟨?_, ?_, ?_, ?_, ?_⟩
      · simp [bal_succ_iff, hy1, hz, n_node, h0, h1, h2, h3]
      · simp [keys_node]
      · simp [btree_entries, interleave] at hent ⊢
        simp [btree_entries, interleave, hent, h1, h2, h3]
      · simp [child, n_node]
      · simp [child, n_node]
  · simp at hn
end

/-! ## Index: insertion below a node that is not full -/

section
variable {K : Type} [LinearOrder K]

theorem leaf_place_length (k : K) (v : Int) (ks : List (K × Int)) :
    (leaf_place k v ks).length = ks.length + 1 := by
  have h := congrArg List.length (rdrop_rtake (fun e => decide (k < e.1)) ks)
  simp only [List.length_append] at h
  simp only [leaf_place, List.length_append, List.length_cons]
  omega

theorem leaf_place_eq (k : K) (v : Int) (ks : List (K × Int)) (hs : KeySorted ks)
    (hk : k ∉ ks.map Prod.fst) : leaf_place k v ks = put_entry k v ks := by
  have h := rdrop_rtake (fun e => decide (k < e.1)) ks
  have hB : ∀ e ∈ ks.rtakeWhile (fun e => decide (k < e.1)), k < e.1 := by
    intro e he
    simp only [List.rtakeWhile, List.mem_reverse] at he
    simpa using List.mem_takeWhile_imp he
  have hs1 : KeySorted (ks.rdropWhile (fun e => decide (k < e.1)) ++
      ks.rtakeWhile (fun e => decide (k < e.1))) := by rw [h]; exact hs
  have hA : ∀ e ∈ ks.rdropWhile (fun e => decide (k < e.1)), e.1 < k := by
    apply bound_left _ _ k hs1
    by_cases hne : ks.rdropWhile (fun e => decide (k < e.1)) = []
    · exact Or.inl hne
    · right
      have hl := List.rdropWhile_last_not (fun e => decide (k < e.1)) ks hne
      refine ⟨_, _, (List.dropLast_append_getLast hne).symm, ?_⟩
      have hmem : (ks.rdropWhile (fun e => decide (k < e.1))).getLast hne ∈ ks :=
        (List.rdropWhile_prefix _ _).subset (List.getLast_mem hne)
      have hle : ((ks.rdropWhile (fun e => decide (k < e.1))).getLast hne).1 ≤ k := by
        simpa using hl
      refine lt_of_le_of_ne hle (fun heq => hk ?_)
      rw [← heq]
      exact List.mem_map_of_mem _ hmem
  have := put_entry_middle k v _ [] _ hA hB
  rw [List.append_nil, h] at this
  rw [this]
  simp [leaf_place, put_entry]

theorem mem_interleave_keys {α : Type} (cs : List (List α)) (ks : List α) (e : α)
    (hl : ks.length < cs.length) (he : e ∈ ks) : e ∈ interleave cs ks := by
  induction ks generalizing cs with
  | nil => simp at he
  | cons a ks ih =>
    cases cs with
    | nil => simp at hl
    | cons c cs =>
      simp only [interleave, List.mem_append, List.mem_cons]
      simp only [List.mem_cons] at he
      rcases he with rfl | he
      · exact Or.inr (Or.inl rfl)
      · exact Or.inr (Or.inr (ih cs (by simpa using hl) he))

theorem keys_subset_entries (ks : List (K × Int)) (l : Bool) (c0 c1 c2 c3 : BTreeNode K)
    (hn : ks.length ≤ 3) : ∀ e ∈ ks, e ∈ btree_entries (node ks l c0 c1 c2 c3) := by
  intro e he
  cases l with
  | true => simpa [btree_entries] using he
  | false =>
    simp only [btree_entries, Bool.false_eq_true, if_false]
    exact mem_interleave_keys _ _ e (by simp; omega) he

theorem entries_child_sublist (ks : List (K × Int)) (c0 c1 c2 c3 : BTreeNode K) (j : Nat)
    (hn : ks.length ≤ 3) (hj : j ≤ ks.length) :
    (btree_entries ((node ks false c0 c1 c2 c3).child j)).Sublist
      (btree_entries (node ks false c0 c1 c2 c3)) := by
  obtain ⟨L, R, hcut, _, _, _⟩ := node_cut ks c0 c1 c2 c3 j hj hn
  have hx := hcut ((node ks false c0 c1 c2 c3).child j)
  rw [setChild_child] at hx
  rw [hx]
  exact (List.sublist_append_right L _).trans (List.sublist_append_left _ R)

theorem descend_entries (k : K) (v : Int) (ks : List (K × Int)) (c0 c1 c2 c3 c : BTreeNode K)
    (j : Nat) (hn : ks.length ≤ 3) (hj : j ≤ ks.length)
    (hs : KeySorted (btree_entries (node ks false c0 c1 c2 c3)))
    (hlo : ∀ i e, j = i + 1 → ks[i]? = some e → e.1 < k)
    (hhi : ∀ e, ks[j]? = some e → k < e.1)
    (hc : btree_entries c =
      put_entry k v (btree_entries ((node ks false c0 c1 c2 c3).child j))) :
    btree_entries ((node ks false c0 c1 c2 c3).setChild j c) =
      put_entry k v (btree_entries (node ks false c0 c1 c2 c3)) := by
  obtain ⟨L, R, hcut, hL0, hL1, hR⟩ := node_cut ks c0 c1 c2 c3 j hj hn
  have hx := hcut ((node ks false c0 c1 c2 c3).child j)
  rw [setChild_child] at hx
  rw [hx] at hs
  have hLk : ∀ e ∈ L, e.1 < k := by
    apply bound_left L _ k (by rw [← List.append_assoc]; exact hs)
    cases j with
    | zero => exact Or.inl (hL0 rfl)
    | succ i =>
      obtain ⟨B, e, hB, he⟩ := hL1 i rfl
      exact Or.inr ⟨B, e, hB, hlo i e rfl he⟩
  have hRk : ∀ e ∈ R, k < e.1 :=
    bound_right _ _ k hs (fun e he => hhi e (by rw [← hR]; exact he))
  rw [hcut, hc, hx, put_entry_middle k v L _ R hLk hRk]
end

section
variable {K : Type} [LinearOrder K]

theorem insert_nonfull_node (f : Nat) (ks : List (K × Int)) (c0 c1 c2 c3 : BTreeNode K)
    (k : K) (v : Int) :
    btree_insert_nonfull (f + 1) (node ks false c0 c1 c2 c3) k v =
      if ((node ks false c0 c1 c2 c3).child (scan_down k ks)).n = max_keys then
        (btree_split_child (node ks false c0 c1 c2 c3) (scan_down k ks)).setChild
          (if key_below (btree_split_child (node ks false c0 c1 c2 c3) (scan_down k ks)).keys
              (scan_down k ks) k then scan_down k ks + 1 else scan_down k ks)
          (btree_insert_nonfull f
            ((btree_split_child (node ks false c0 c1 c2 c3) (scan_down k ks)).child
              (if key_below (btree_split_child (node ks false c0 c1 c2 c3)
                  (scan_down k ks)).keys (scan_down k ks) k
                then scan_down k ks + 1 else scan_down k ks)) k v)
      else
        (node ks false c0 c1 c2 c3).setChild (scan_down k ks)
          (btree_insert_nonfull f ((node ks false c0 c1 c2 c3).child (scan_down k ks)) k v) := by
  rw [btree_insert_nonfull]
  simp

theorem n_setChild (x c : BTreeNode K) (j : Nat) : (x.setChild j c).n = x.n := by
  unfold BTreeNode.n
  rw [keys_setChild]

theorem node_of_bal_succ (h : Nat) (x : BTreeNode K) (hb : Bal (h + 1) x) :
    ∃ ks c0 c1 c2 c3, x = node ks false c0 c1 c2 c3 := by
  cases x with
  | null => exact absurd hb (bal_not_null _)
  | node ks l c0 c1 c2 c3 =>
    obtain ⟨rfl, _⟩ := (bal_succ_iff _ _ _ _ _ _ _).mp hb
    exact ⟨ks, c0, c1, c2, c3, rfl⟩

/-- The recursion of `btree_insert_nonfull` on a tree as insertion builds it:
the shape is kept, and on ascending entries without the key the new entry
takes its place in the order. -/
theorem insert_nonfull_spec (k : K) (v : Int) :
    ∀ (h fuel : Nat) (x : BTreeNode K), Bal h x → x.n < 3 → h < fuel →
      Bal h (btree_insert_nonfull fuel x k v) ∧ x.n ≤ (btree_insert_nonfull fuel x k v).n ∧
        (KeySorted (btree_entries x) → k ∉ (btree_entries x).map Prod.fst →
          btree_entries (btree_insert_nonfull fuel x k v) = put_entry k v (btree_entries x)) := by
  intro h
  induction h with
  | zero =>
    intro fuel x hb hn hf
    obtain ⟨f, rfl⟩ : ∃ f, fuel = f + 1 := ⟨fuel - 1, by omega⟩
    cases x with
    | null => exact absurd hb (bal_not_null _)
    | node ks l c0 c1 c2 c3 =>
      obtain ⟨rfl, _, rfl, rfl, rfl, rfl⟩ := (bal_zero_iff _ _ _ _ _ _).mp hb
      have hn' : ks.length < 3 := hn
      simp only [btree_insert_nonfull, if_true]
      refine ⟨?_, ?_, ?_⟩
      · rw [bal_zero_iff, leaf_place_length]
        exact ⟨rfl, by omega, rfl, rfl, rfl, rfl⟩
      · rw [n_node, n_node, leaf_place_length]; omega
      · intro hs hk
        simp only [btree_entries, if_true] at hs hk ⊢
        exact leaf_place_eq k v ks hs hk
  | succ h ih =>
    intro fuel x hb hn hf
    obtain ⟨f, rfl⟩ : ∃ f, fuel = f + 1 := ⟨fuel - 1, by omega⟩
    obtain ⟨ks, c0, c1, c2, c3, rfl⟩ := node_of_bal_succ h x hb
    have hn' : ks.length < 3 := hn
    have hi := scan_down_le k ks
    rw [insert_nonfull_node]
    by_cases hfull : ((node ks false c0 c1 c2 c3).child (scan_down k ks)).n = max_keys
    · rw [if_pos hfull]
      obtain ⟨m, hb1, hkeys, hent, hni, hni1⟩ :=
        split_child_spec h ks c0 c1 c2 c3 (scan_down k ks) hb (by omega) hi hfull
      obtain ⟨ks1, d0, d1, d2, d3, hx1⟩ := node_of_bal_succ h _ hb1
      rw [hx1] at hb1 hkeys hent hni hni1 ⊢
      rw [keys_node] at hkeys
      have hlen1 : ks1.length = ks.length + 1 := by
        rw [hkeys]; simp; omega
      have hki : ks1[scan_down k ks]? = some m := by
        rw [hkeys, List.getElem?_append_right (by simp)]
        simp [min_eq_left hi]
      have hki1 : ks1[scan_down k ks + 1]? = ks[scan_down k ks]? := by
        rw [hkeys, List.getElem?_append_right (by simp)]
        simp [min_eq_left hi]
      have hklo : ∀ j, j < scan_down k ks → ks1[j]? = ks[j]? := by
        intro j hj
        rw [hkeys, List.getElem?_append_left (by simp; omega), List.getElem?_take_of_lt hj]
      by_cases hkb : key_below ks1 (scan_down k ks) k = true
      · simp only [keys_node, hkb, if_true]
        have hmk : m.1 < k := by simpa [key_below, hki] using hkb
        have hc := bal_child h _ (scan_down k ks + 1) hb1 (by rw [n_node]; omega)
        obtain ⟨ihb, ihn, ihe⟩ := ih f _ hc.1 (by omega) (by omega)
        refine ⟨bal_setChild h _ _ _ hb1 (by rw [n_node]; omega) ihb (le_trans hc.2 ihn),
          by rw [n_setChild, n_node, n_node]; omega, ?_⟩
        intro hs hk
        rw [← hent] at hs hk ⊢
        have hsub := entries_child_sublist ks1 d0 d1 d2 d3 (scan_down k ks + 1) (by omega)
          (by omega)
        apply descend_entries k v ks1 d0 d1 d2 d3 _ _ (by omega) (by omega) hs
        · intro i e hie he
          have : i = scan_down k ks := by omega
          subst this
          rw [hki] at he
          simp only [Option.some.injEq] at he
          rw [← he]; exact hmk
        · intro e he
          rw [hki1] at he
          exact scan_down_at k ks e he
        · exact ihe (hs.sublist hsub) (fun hm => hk (List.Sublist.subset (hsub.map _) hm))
      · simp only [keys_node, hkb, Bool.false_eq_true, if_false]
        have hc := bal_child h _ (scan_down k ks) hb1 (by rw [n_node]; omega)
        obtain ⟨ihb, ihn, ihe⟩ := ih f _ hc.1 (by omega) (by omega)
        refine ⟨bal_setChild h _ _ _ hb1 (by rw [n_node]; omega) ihb (le_trans hc.2 ihn),
          by rw [n_setChild, n_node, n_node]; omega, ?_⟩
        intro hs hk
        rw [← hent] at hs hk ⊢
        have hsub := entries_child_sublist ks1 d0 d1 d2 d3 (scan_down k ks) (by omega)
          (by omega)
        have hmem : ∀ e ∈ ks1, e.1 ≠ k := by
          intro e he heq
          apply hk
          rw [← heq]
          exact List.mem_map_of_mem _ (keys_subset_entries ks1 false d0 d1 d2 d3 (by omega) e he)
        apply descend_entries k v ks1 d0 d1 d2 d3 _ _ (by omega) (by omega) hs
        · intro i e hie he
          have he0 := he
          rw [hklo i (by omega)] at he
          have hle := scan_down_before k ks e (by omega) (by rw [hie]; simpa using he)
          exact lt_of_le_of_ne hle (hmem e (List.getElem?_mem he0))
        · intro e he
          rw [hki] at he
          simp only [Option.some.injEq] at he
          subst he
          have hnlt : ¬ m.1 < k := by simpa [key_below, hki] using hkb
          exact lt_of_le_of_ne (not_lt.mp hnlt)
            (fun heq => hmem m (List.getElem?_mem hki) heq.symm)
        · exact ihe (hs.sublist hsub) (fun hm => hk (List.Sublist.subset (hsub.map _) hm))
    · rw [if_neg hfull]
      have hc := bal_child h _ (scan_down k ks) hb (by rw [n_node]; omega)
      have hc3 := bal_n_le h _ hc.1
      have hmk : max_keys = 3 := rfl
      obtain ⟨ihb, ihn, ihe⟩ := ih f _ hc.1 (by omega) (by omega)
      refine ⟨bal_setChild h _ _ _ hb (by rw [n_node]; omega) ihb (le_trans hc.2 ihn),
        by rw [n_setChild], ?_⟩
      intro hs hk
      have hsub := entries_child_sublist ks c0 c1 c2 c3 (scan_down k ks) (by omega) hi
      have hmem : ∀ e ∈ ks, e.1 ≠ k := by
        intro e he heq
        apply hk
        rw [← heq]
        exact List.mem_map_of_mem _ (keys_subset_entries ks false c0 c1 c2 c3 (by omega) e he)
      apply descend_entries k v ks c0 c1 c2 c3 _ _ (by omega) hi hs
      · intro i e hie he
        have hle := scan_down_before k ks e (by omega) (by rw [hie]; simpa using he)
        exact lt_of_le_of_ne hle (hmem e (List.getElem?_mem he))
      · intro e he
        exact scan_down_at k ks e he
      · exact ihe (hs.sublist hsub) (fun hm => hk (List.Sublist.subset (hsub.map _) hm))
end

/-! ## Index: the recursion bound of `btree_insert_nonfull` is never reached -/

section
variable {K : Type} [LinearOrder K]

theorem height_child (ks : List (K × Int)) (l : Bool) (c0 c1 c2 c3 : BTreeNode K) (j : Nat) :
    ((node ks l c0 c1 c2 c3).child j).height < (node ks l c0 c1 c2 c3).height := by
  match j with
  | 0 => simp only [child, height]; omega
  | 1 => simp only [child, height]; omega
  | 2 => simp only [child, height]; omega
  | 3 => simp only [child, height]; omega
  | _ + 4 => simp only [child, height]; omega

theorem height_setChild_child (x c : BTreeNode K) (i j : Nat) (b : Nat)
    (hx : ∀ j, (x.child j).height < b) (hc : c.height < b) :
    ((x.setChild i c).child j).height < b := by
  by_cases hij : j = i
  · subst hij
    cases x with
    | null => cases j <;> exact hx 0
    | node ks l c0 c1 c2 c3 =>
      by_cases h4 : j < 4
      · rw [child_setChild _ _ _ _ _ _ _ _ h4]; exact hc
      · have : (node ks l c0 c1 c2 c3).setChild j c = node ks l c0 c1 c2 c3 := by
          match j, h4 with
          | _ + 4, _ => rfl
        rw [this]; exact hx j
  · rw [child_setChild_ne _ _ _ _ hij]; exact hx j

theorem height_split_child (ks : List (K × Int)) (l : Bool) (c0 c1 c2 c3 : BTreeNode K)
    (i j : Nat) :
    ((btree_split_child (node ks l c0 c1 c2 c3) i).child j).height <
      (node ks l c0 c1 c2 c3).height := by
  unfold btree_split_child
  cases hy : (node ks l c0 c1 c2 c3).child i with
  | null => simp only; exact height_child ks l c0 c1 c2 c3 j
  | node yks yl y0 y1 y2 y3 =>
    simp only
    cases hm : yks[BTREE_T - 1]? with
    | none => simp only; exact height_child ks l c0 c1 c2 c3 j
    | some m =>
      simp only
      have hyh := height_child ks l c0 c1 c2 c3 i
      rw [hy] at hyh
      have hz : (node ((yks.drop BTREE_T).take (BTREE_T - 1)) yl
          (if yl then null else y2) (if yl then null else y3) null null).height <
          (node ks l c0 c1 c2 c3).height := by
        refine lt_of_le_of_lt ?_ hyh
        cases yl <;> simp only [height, Bool.false_eq_true, if_false, if_true] <;> omega
      have hy1 : (node (yks.take (BTREE_T - 1)) yl y0 y1
          (if yl then y2 else null) (if yl then y3 else null)).height <
          (node ks l c0 c1 c2 c3).height := by
        refine lt_of_le_of_lt ?_ hyh
        cases yl <;> simp only [height, Bool.false_eq_true, if_false, if_true] <;> omega
      have hold := fun j => height_setChild_child (node ks l c0 c1 c2 c3) _ i j _
        (height_child ks l c0 c1 c2 c3) hy1
      have hslot : ∀ j, (shifted_slot ((setChild (node ks l c0 c1 c2 c3) i
          (node (yks.take (BTREE_T - 1)) yl y0 y1 (if yl then y2 else null)
            (if yl then y3 else null))).child) ks.length i
          (node ((yks.drop BTREE_T).take (BTREE_T - 1)) yl
            (if yl then null else y2) (if yl then null else y3) null null) j).height <
          (node ks l c0 c1 c2 c3).height := by
        intro j
        unfold shifted_slot
        split
        · exact hold j
        · split
          · exact hz
          · split
            · exact hold (j - 1)
            · exact hold j
      match j with
      | 0 => exact hslot 0
      | 1 => exact hslot 1
      | 2 => exact hslot 2
      | 3 => exact hslot 3
      | _ + 4 => simp only [child, height]; omega

/-- Any two bounds above the height of the tree give the same result: the
recursion of `btree_insert_nonfull` ends before the bound that `btree_insert`
passes. -/
theorem insert_nonfull_fuel (k : K) (v : Int) :
    ∀ (f1 f2 : Nat) (x : BTreeNode K), x.height < f1 → x.height < f2 →
      btree_insert_nonfull f1 x k v = btree_insert_nonfull f2 x k v := by
  intro f1
  induction f1 with
  | zero => intro f2 x h1 _; omega
  | succ f1 ih =>
    intro f2 x h1 h2
    obtain ⟨g, rfl⟩ : ∃ g, f2 = g + 1 := ⟨f2 - 1, by omega⟩
    cases x with
    | null => rfl
    | node ks l c0 c1 c2 c3 =>
      cases l with
      | true => simp [btree_insert_nonfull]
      | false =>
        rw [insert_nonfull_node, insert_nonfull_node]
        split
        · have := height_split_child ks false c0 c1 c2 c3 (scan_down k ks)
            (if key_below (btree_split_child (node ks false c0 c1 c2 c3) (scan_down k ks)).keys
              (scan_down k ks) k then scan_down k ks + 1 else scan_down k ks)
          rw [ih g _ (by omega) (by omega)]
        · have := height_child ks false c0 c1 c2 c3 (scan_down k ks)
          rw [ih g _ (by omega) (by omega)]
end

/-! ## Index: the update of an existing key -/

section
variable {K : Type} [LinearOrder K]

theorem setChild_node (ks : List (K × Int)) (l : Bool) (c0 c1 c2 c3 c : BTreeNode K) (j : Nat) :
    ∃ d0 d1 d2 d3, (node ks l c0 c1 c2 c3).setChild j c = node ks l d0 d1 d2 d3 := by
  match j with
  | 0 => exact ⟨_, _, _, _, rfl⟩
  | 1 => exact ⟨_, _, _, _, rfl⟩
  | 2 => exact ⟨_, _, _, _, rfl⟩
  | 3 => exact ⟨_, _, _, _, rfl⟩
  | _ + 4 => exact ⟨_, _, _, _, rfl⟩

/-- The entries of a node that is not a leaf, cut around the subtree of slot `j`:
the keys of the node and the entries of the other subtrees lie in the two outer
parts. -/
theorem node_cut_full (ks : List (K × Int)) (c0 c1 c2 c3 : BTreeNode K) (j : Nat)
    (hj : j ≤ ks.length) (hn : ks.length ≤ 3) :
    ∃ L R, (∀ c, btree_entries ((node ks false c0 c1 c2 c3).setChild j c) =
        L ++ btree_entries c ++ R) ∧
      (j = 0 → L = []) ∧ (∀ i, j = i + 1 → ∃ B e, L = B ++ [e] ∧ ks[i]? = some e) ∧
      R.head? = ks[j]? ∧
      (∀ e ∈ ks, e ∈ L ++ R) ∧
      (∀ i, i ≠ j → i ≤ ks.length →
        ∀ e ∈ btree_entries ((node ks false c0 c1 c2 c3).child i), e ∈ L ++ R) := by
  obtain ⟨L, R, hcut, hL0, hL1, hR⟩ := node_cut ks c0 c1 c2 c3 j hj hn
  have hy := hcut null
  simp only [btree_entries, List.append_nil] at hy
  obtain ⟨d0, d1, d2, d3, hd⟩ := setChild_node ks false c0 c1 c2 c3 null j
  refine ⟨L, R, hcut, hL0, hL1, hR, ?_, ?_⟩
  · intro e he
    rw [← hy, hd]
    exact keys_subset_entries ks false d0 d1 d2 d3 hn e he
  · intro i hij hi e he
    rw [← child_setChild_ne _ null i j hij] at he
    rw [← hy]
    rw [hd] at he ⊢
    exact (entries_child_sublist ks d0 d1 d2 d3 i hn hi).subset he

/-- Where `btree_search`, the update loop and `btree_delete` go down from a
node that does not hold the key: everything before the chosen subtree is below
the key and everything after it is above. -/
theorem route_up (k : K) (ks : List (K × Int)) (c0 c1 c2 c3 : BTreeNode K)
    (hn : ks.length ≤ 3) (hs : KeySorted (btree_entries (node ks false c0 c1 c2 c3)))
    (hk : ¬ key_at ks (scan_up k ks) k = true) :
    ∃ L R, (∀ c, btree_entries ((node ks false c0 c1 c2 c3).setChild (scan_up k ks) c) =
        L ++ btree_entries c ++ R) ∧
      (∀ e ∈ L, e.1 < k) ∧ (∀ e ∈ R, k < e.1) ∧
      (∀ e ∈ ks, e ∈ L ++ R) ∧
      (∀ i, i ≠ scan_up k ks → i ≤ ks.length →
        ∀ e ∈ btree_entries ((node ks false c0 c1 c2 c3).child i), e ∈ L ++ R) := by
  obtain ⟨L, R, hcut, hL0, hL1, hR, hkeys, hoth⟩ :=
    node_cut_full ks c0 c1 c2 c3 (scan_up k ks) (scan_up_le k ks) hn
  have hx := hcut ((node ks false c0 c1 c2 c3).child (scan_up k ks))
  rw [setChild_child] at hx
  rw [hx] at hs
  refine ⟨L, R, hcut, ?_, ?_, hkeys, hoth⟩
  · apply bound_left L _ k (by rw [← List.append_assoc]; exact hs)
    cases hi : scan_up k ks with
    | zero => exact Or.inl (hL0 hi)
    | succ i =>
      obtain ⟨B, e, hB, he⟩ := hL1 i hi
      exact Or.inr ⟨B, e, hB, scan_up_before k ks i e (by omega) he⟩
  · apply bound_right _ _ k hs
    intro e he
    rw [hR] at he
    have hge := scan_up_at k ks e he
    refine lt_of_le_of_ne hge (fun heq => hk ?_)
    unfold key_at
    rw [he]
    exact decide_eq_true heq.symm

theorem child_keys_ne (ks : List (K × Int)) (c0 c1 c2 c3 : BTreeNode K) (j : Nat)
    (hj : j ≤ ks.length) (hn : ks.length ≤ 3)
    (hs : KeySorted (btree_entries (node ks false c0 c1 c2 c3))) :
    ∀ e ∈ ks, ∀ m ∈ btree_entries ((node ks false c0 c1 c2 c3).child j), m.1 ≠ e.1 := by
  obtain ⟨L, R, hcut, _, _, _, hkeys, _⟩ := node_cut_full ks c0 c1 c2 c3 j hj hn
  have hx := hcut ((node ks false c0 c1 c2 c3).child j)
  rw [setChild_child] at hx
  rw [hx] at hs
  intro e he m hm
  have := hkeys e he
  unfold KeySorted at hs
  rw [List.pairwise_append, List.pairwise_append] at hs
  rcases List.mem_append.mp this with h1 | h1
  · exact ne_of_gt (hs.1.2.2 e h1 m hm)
  · exact ne_of_lt (hs.2.2 m (List.mem_append_right _ hm) e h1)

theorem node_map_children (ks : List (K × Int)) (l : Bool) (c0 c1 c2 c3 : BTreeNode K)
    (g : BTreeNode K → BTreeNode K) (i : Nat)
    (h : ∀ j, j ≠ i → g ((node ks l c0 c1 c2 c3).child j) = (node ks l c0 c1 c2 c3).child j)
    (hi : i < 4) :
    node ks l (g c0) (g c1) (g c2) (g c3) =
      (node ks l c0 c1 c2 c3).setChild i (g ((node ks l c0 c1 c2 c3).child i)) := by
  have h0 := h 0
  have h1 := h 1
  have h2 := h 2
  have h3 := h 3
  simp only [child] at h0 h1 h2 h3
  interval_cases i
  · simp [setChild, child, h1, h2, h3]
  · simp [setChild, child, h0, h2, h3]
  · simp [setChild, child, h0, h1, h3]
  · simp [setChild, child, h0, h1, h2]

theorem map_entries_id (k : K) (v : Int) :
    ∀ (h : Nat) (t : BTreeNode K), Bal h t → k ∉ (btree_entries t).map Prod.fst →
      map_entries (with_pos k v) t = t := by
  have hlist : ∀ ks : List (K × Int), (∀ e ∈ ks, e.1 ≠ k) → ks.map (with_pos k v) = ks := by
    intro ks hks
    conv_rhs => rw [← List.map_id ks]
    apply List.map_congr_left
    intro e he
    simp [with_pos, hks e he]
  intro h
  induction h with
  | zero =>
    intro t hb hk
    cases t with
    | null => rfl
    | node ks l c0 c1 c2 c3 =>
      obtain ⟨rfl, _, rfl, rfl, rfl, rfl⟩ := (bal_zero_iff _ _ _ _ _ _).mp hb
      simp only [btree_entries, if_true] at hk
      simp only [map_entries]
      rw [hlist ks (fun e he heq => hk (by rw [← heq]; exact List.mem_map_of_mem _ he))]
  | succ h ih =>
    intro t hb hk
    obtain ⟨ks, c0, c1, c2, c3, rfl⟩ := node_of_bal_succ h t hb
    have hn : ks.length ≤ 3 := hb.2.1
    have hch : ∀ j, map_entries (with_pos k v) ((node ks false c0 c1 c2 c3).child j) =
        (node ks false c0 c1 c2 c3).child j := by
      intro j
      by_cases hj : j ≤ ks.length
      · apply ih _ (bal_child h _ j hb hj).1
        intro hm
        exact hk (List.Sublist.subset ((entries_child_sublist ks c0 c1 c2 c3 j hn hj).map _) hm)
      · rw [hb.2.2.2 j (by omega)]; rfl
    have h0 := hch 0
    have h1 := hch 1
    have h2 := hch 2
    have h3 := hch 3
    simp only [child] at h0 h1 h2 h3
    simp only [map_entries, h0, h1, h2, h3]
    rw [hlist ks (fun e he heq => hk (by
      rw [← heq]
      exact List.mem_map_of_mem _ (keys_subset_entries ks false c0 c1 c2 c3 hn e he)))]
end

section
variable {K : Type} [LinearOrder K]

theorem map_with_pos_id (k : K) (v : Int) (ks : List (K × Int)) (h : ∀ e ∈ ks, e.1 ≠ k) :
    ks.map (with_pos k v) = ks := by
  conv_rhs => rw [← List.map_id ks]
  apply List.map_congr_left
  intro e he
  simp [with_pos, h e he]

theorem modify_eq_map (k : K) (v : Int) (ks : List (K × Int)) (hs : KeySorted ks)
    (hk : key_at ks (scan_up k ks) k = true) :
    ks.modify (fun e => (e.1, v)) (scan_up k ks) = ks.map (with_pos k v) := by
  induction ks with
  | nil => simp [key_at] at hk
  | cons a rest ih =>
    have hs1 : KeySorted rest := (List.pairwise_cons.mp hs).2
    have hlt : ∀ x ∈ rest, a.1 < x.1 := (List.pairwise_cons.mp hs).1
    by_cases h : a.1 < k
    · simp only [scan_up, if_pos h, key_at, List.getElem?_cons_succ] at hk ⊢
      rw [List.modify_succ_cons, List.map_cons, ih hs1 hk]
      simp [with_pos, ne_of_lt h]
    · simp only [scan_up, if_neg h, key_at, List.getElem?_cons_zero, decide_eq_true_eq] at hk ⊢
      rw [List.modify_zero_cons, List.map_cons,
        map_with_pos_id k v rest (fun e he => by rw [← hk]; exact ne_of_gt (hlt e he))]
      simp [with_pos, hk]

theorem not_key_at (k : K) (ks : List (K × Int)) (hs : KeySorted ks)
    (hk : ¬ key_at ks (scan_up k ks) k = true) : ∀ e ∈ ks, e.1 ≠ k := by
  induction ks with
  | nil => simp
  | cons a rest ih =>
    have hs1 : KeySorted rest := (List.pairwise_cons.mp hs).2
    have hlt : ∀ x ∈ rest, a.1 < x.1 := (List.pairwise_cons.mp hs).1
    by_cases h : a.1 < k
    · simp only [scan_up, if_pos h, key_at, List.getElem?_cons_succ] at hk
      intro e he
      rcases List.mem_cons.mp he with rfl | he
      · exact ne_of_lt h
      · exact ih hs1 hk e he
    · simp only [scan_up, if_neg h, key_at, List.getElem?_cons_zero, decide_eq_true_eq] at hk
      have hka : k < a.1 := lt_of_le_of_ne (not_lt.mp h) (fun h2 => hk h2.symm)
      intro e he
      rcases List.mem_cons.mp he with rfl | he
      · exact hk
      · exact ne_of_gt (lt_trans hka (hlt e he))

theorem keySorted_keys (ks : List (K × Int)) (l : Bool) (c0 c1 c2 c3 : BTreeNode K)
    (hn : ks.length ≤ 3) (hs : KeySorted (btree_entries (node ks l c0 c1 c2 c3))) :
    KeySorted ks := by
  cases l with
  | true => simpa [btree_entries] using hs
  | false =>
    apply hs.sublist
    simp only [btree_entries, Bool.false_eq_true, if_false]
    have : ∀ (cs : List (List (K × Int))) (ks : List (K × Int)), ks.length < cs.length →
        ks.Sublist (interleave cs ks) := by
      intro cs ks
      induction ks generalizing cs with
      | nil => intro _; exact List.nil_sublist _
      | cons a ks ih =>
        intro hl
        cases cs with
        | nil => simp at hl
        | cons c cs =>
          simp only [interleave]
          exact List.sublist_append_of_sublist_right
            ((ih cs (by simpa using hl)).cons₂ a)
    exact this _ _ (by simp; omega)

/-- On a tree as insertion builds it, with ascending entries, the update loop
of `btree_insert` changes the position stored with the key and nothing else. -/
theorem update_eq_map (k : K) (v : Int) :
    ∀ (h : Nat) (t : BTreeNode K), Bal h t → KeySorted (btree_entries t) →
      btree_update t k v = map_entries (with_pos k v) t := by
  intro h
  induction h with
  | zero =>
    intro t hb hs
    cases t with
    | null => rfl
    | node ks l c0 c1 c2 c3 =>
      obtain ⟨rfl, _, rfl, rfl, rfl, rfl⟩ := (bal_zero_iff _ _ _ _ _ _).mp hb
      simp only [btree_entries, if_true] at hs
      rw [update_node]
      simp only [map_entries, if_true]
      split
      · rename_i hk
        rw [modify_eq_map k v ks hs hk]
      · rename_i hk
        rw [map_with_pos_id k v ks (not_key_at k ks hs hk)]
  | succ h ih =>
    intro t hb hs
    obtain ⟨ks, c0, c1, c2, c3, rfl⟩ := node_of_bal_succ h t hb
    have hn : ks.length ≤ 3 := hb.2.1
    have hsk := keySorted_keys ks false c0 c1 c2 c3 hn hs
    have hnull : ∀ j, ks.length < j → (node ks false c0 c1 c2 c3).child j = null := hb.2.2.2
    rw [update_node]
    by_cases hk : key_at ks (scan_up k ks) k = true
    · rw [if_pos hk, modify_eq_map k v ks hsk hk]
      obtain ⟨e, he, hek⟩ : ∃ e, e ∈ ks ∧ e.1 = k := by
        unfold key_at at hk
        cases hg : ks[scan_up k ks]? with
        | none => simp [hg] at hk
        | some e =>
          simp only [hg, decide_eq_true_eq] at hk
          exact ⟨e, List.getElem?_mem hg, hk⟩
      have hch : ∀ j, map_entries (with_pos k v) ((node ks false c0 c1 c2 c3).child j) =
          (node ks false c0 c1 c2 c3).child j := by
        intro j
        by_cases hj : j ≤ ks.length
        · apply map_entries_id k v h _ (bal_child h _ j hb hj).1
          intro hm
          obtain ⟨m, hm1, hm2⟩ := List.mem_map.mp hm
          exact child_keys_ne ks c0 c1 c2 c3 j hj hn hs e he m hm1 (by rw [hm2, hek])
        · rw [hnull j (by omega)]; rfl
      have h0 := hch 0
      have h1 := hch 1
      have h2 := hch 2
      have h3 := hch 3
      simp only [child] at h0 h1 h2 h3
      simp only [map_entries, h0, h1, h2, h3]
    · rw [if_neg hk]
      simp only [Bool.false_eq_true, if_false]
      have hi := scan_up_le k ks
      obtain ⟨L, R, hcut, hL, hR, hkeys, hoth⟩ := route_up k ks c0 c1 c2 c3 hn hs hk
      have hx := hcut ((node ks false c0 c1 c2 c3).child (scan_up k ks))
      rw [setChild_child] at hx
      have hLR : ∀ e ∈ L ++ R, e.1 ≠ k := by
        intro e he
        rcases List.mem_append.mp he with h1 | h1
        · exact ne_of_lt (hL e h1)
        · exact ne_of_gt (hR e h1)
      have hch : ∀ j, j ≠ scan_up k ks →
          map_entries (with_pos k v) ((node ks false c0 c1 c2 c3).child j) =
            (node ks false c0 c1 c2 c3).child j := by
        intro j hj
        by_cases hjn : j ≤ ks.length
        · apply map_entries_id k v h _ (bal_child h _ j hb hjn).1
          intro hm
          obtain ⟨m, hm1, hm2⟩ := List.mem_map.mp hm
          exact hLR m (hoth j hj hjn m hm1) hm2
        · rw [hnull j (by omega)]; rfl
      rw [ih _ (bal_child h _ _ hb hi).1 (by rw [hx] at hs; exact keySorted_middle L _ R hs)]
      simp only [map_entries]
      rw [map_with_pos_id k v ks (fun e he => hLR e (hkeys e he))]
      exact (node_map_children ks false c0 c1 c2 c3 _ _ hch (by omega)).symm
end

/-! ## Index: `btree_insert` -/

section
variable {K : Type} [LinearOrder K]

theorem interleave_map {α β : Type} (f : α → β) (cs : List (List α)) (ks : List α) :
    interleave (cs.map (List.map f)) (ks.map f) = (interleave cs ks).map f := by
  induction cs generalizing ks with
  | nil => cases ks <;> simp [interleave]
  | cons c cs ih =>
    cases ks with
    | nil => simp [interleave]
    | cons a ks => simp [interleave, ih]

theorem entries_map (f : K × Int → K × Int) :
    ∀ t : BTreeNode K, btree_entries (map_entries f t) = (btree_entries t).map f := by
  intro t
  induction t with
  | null => rfl
  | node ks l c0 c1 c2 c3 ih0 ih1 ih2 ih3 =>
    cases l with
    | true => simp [map_entries, btree_entries]
    | false =>
      simp only [map_entries, btree_entries, Bool.false_eq_true, if_false, ih0, ih1, ih2, ih3]
      rw [← interleave_map]
      simp

theorem n_map_entries (f : K × Int → K × Int) (t : BTreeNode K) :
    (map_entries f t).n = t.n := by
  cases t with
  | null => rfl
  | node ks l c0 c1 c2 c3 => simp [map_entries, n_node]

theorem bal_map_entries (f : K × Int → K × Int) :
    ∀ (h : Nat) (t : BTreeNode K), Bal h t → Bal h (map_entries f t) := by
  intro h
  induction h with
  | zero =>
    intro t hb
    cases t with
    | null => exact absurd hb (bal_not_null _)
    | node ks l c0 c1 c2 c3 =>
      obtain ⟨rfl, h2, rfl, rfl, rfl, rfl⟩ := (bal_zero_iff _ _ _ _ _ _).mp hb
      simp only [map_entries]
      rw [bal_zero_iff]
      exact ⟨rfl, by simpa using h2, rfl, rfl, rfl, rfl⟩
  | succ h ih =>
    intro t hb
    cases t with
    | null => exact absurd hb (bal_not_null _)
    | node ks l c0 c1 c2 c3 =>
      obtain ⟨h1, h2, h3, h4, h5, h6⟩ := (bal_succ_iff _ _ _ _ _ _ _).mp hb
      simp only [map_entries]
      rw [bal_succ_iff]
      refine ⟨h1, by simpa using h2, ⟨ih _ h3.1, by rw [n_map_entries]; exact h3.2⟩, ?_, ?_, ?_⟩
      · rw [List.length_map]
        split at h4
        · rw [if_pos (by assumption)]
          exact ⟨ih _ h4.1, by rw [n_map_entries]; exact h4.2⟩
        · rw [if_neg (by assumption), h4]; rfl
      · rw [List.length_map]
        split at h5
        · rw [if_pos (by assumption)]
          exact ⟨ih _ h5.1, by rw [n_map_entries]; exact h5.2⟩
        · rw [if_neg (by assumption), h5]; rfl
      · rw [List.length_map]
        split at h6
        · rw [if_pos (by assumption)]
          exact ⟨ih _ h6.1, by rw [n_map_entries]; exact h6.2⟩
        · rw [if_neg (by assumption), h6]; rfl

theorem mem_put_entry (k : K) (v : Int) (l : List (K × Int)) (e : K × Int) :
    e ∈ put_entry k v l ↔ e = (k, v) ∨ (e ∈ l ∧ e.1 ≠ k) := by
  simp only [put_entry, List.mem_append, List.mem_cons, List.mem_filter, decide_eq_true_eq]
  constructor
  · rintro (⟨h1, h2⟩ | h | ⟨h1, h2⟩)
    · exact Or.inr ⟨h1, ne_of_lt h2⟩
    · exact Or.inl h
    · exact Or.inr ⟨h1, ne_of_gt h2⟩
  · rintro (h | ⟨h1, h2⟩)
    · exact Or.inr (Or.inl h)
    · rcases lt_or_gt_of_ne h2 with h3 | h3
      · exact Or.inl ⟨h1, h3⟩
      · exact Or.inr (Or.inr ⟨h1, h3⟩)

theorem keySorted_put_entry (k : K) (v : Int) (l : List (K × Int)) (hs : KeySorted l) :
    KeySorted (put_entry k v l) := by
  unfold KeySorted put_entry
  rw [List.pairwise_append, List.pairwise_cons]
  refine ⟨hs.sublist (List.filter_sublist _), ⟨?_, hs.sublist (List.filter_sublist _)⟩, ?_⟩
  · intro e he
    simpa using (List.mem_filter.mp he).2
  · intro a ha b hb
    have ha1 : a.1 < k := by simpa using (List.mem_filter.mp ha).2
    rcases List.mem_cons.mp hb with rfl | hb
    · exact ha1
    · have hb1 : k < b.1 := by simpa using (List.mem_filter.mp hb).2
      exact lt_trans ha1 hb1

theorem map_with_pos_eq_put (k : K) (v : Int) (l : List (K × Int)) (hs : KeySorted l)
    (hk : k ∈ l.map Prod.fst) : l.map (with_pos k v) = put_entry k v l := by
  induction l with
  | nil => simp at hk
  | cons a rest ih =>
    have hs1 : KeySorted rest := (List.pairwise_cons.mp hs).2
    have hlt : ∀ x ∈ rest, a.1 < x.1 := (List.pairwise_cons.mp hs).1
    by_cases ha : a.1 = k
    · have h1 : rest.filter (fun e => decide (e.1 < k)) = [] :=
        List.filter_eq_nil_iff.mpr (fun e he => by
          have := hlt e he
          rw [ha] at this
          simpa using le_of_lt this)
      have h2 : rest.filter (fun e => decide (k < e.1)) = rest :=
        List.filter_eq_self.mpr (fun e he => by
          have := hlt e he
          rw [ha] at this
          simpa using this)
      rw [List.map_cons, map_with_pos_id k v rest (fun e he => by
        rw [← ha]; exact ne_of_gt (hlt e he))]
      simp [put_entry, List.filter_cons, ha, h1, h2, with_pos]
    · have hk1 : k ∈ rest.map Prod.fst := by
        simp only [List.map_cons, List.mem_cons] at hk
        rcases hk with hk | hk
        · exact absurd hk.symm ha
        · exact hk
      obtain ⟨e, he, hek⟩ := List.mem_map.mp hk1
      have hak : a.1 < k := by rw [← hek]; exact hlt e he
      rw [List.map_cons, ih hs1 hk1]
      simp [put_entry, List.filter_cons, hak, not_lt.mpr (le_of_lt hak), with_pos, ha]

theorem update_bal (k : K) (v : Int) :
    ∀ (h : Nat) (t : BTreeNode K), Bal h t →
      Bal h (btree_update t k v) ∧ (btree_update t k v).n = t.n := by
  intro h
  induction h with
  | zero =>
    intro t hb
    cases t with
    | null => exact absurd hb (bal_not_null _)
    | node ks l c0 c1 c2 c3 =>
      obtain ⟨rfl, h2, rfl, rfl, rfl, rfl⟩ := (bal_zero_iff _ _ _ _ _ _).mp hb
      rw [update_node]
      split
      · refine ⟨?_, by simp [n_node]⟩
        rw [bal_zero_iff]
        exact ⟨rfl, by simpa using h2, rfl, rfl, rfl, rfl⟩
      · exact ⟨hb, rfl⟩
  | succ h ih =>
    intro t hb
    obtain ⟨ks, c0, c1, c2, c3, rfl⟩ := node_of_bal_succ h t hb
    obtain ⟨h1, h2, h3, h4, h5, h6⟩ := (bal_succ_iff _ _ _ _ _ _ _).mp hb
    rw [update_node]
    split
    · refine ⟨?_, by simp [n_node]⟩
      rw [bal_succ_iff]
      simp only [List.length_modify]
      exact ⟨trivial, h2, h3, h4, h5, h6⟩
    · simp only [Bool.false_eq_true, if_false]
      have hi := scan_up_le k ks
      have hc := bal_child h _ (scan_up k ks) hb hi
      obtain ⟨ihb, ihn⟩ := ih _ hc.1
      exact ⟨bal_setChild h _ _ _ hb hi ihb (by rw [ihn]; exact hc.2), n_setChild _ _ _⟩
end

section
variable {K : Type} [LinearOrder K]

theorem bal_new_root (h : Nat) (t : BTreeNode K) (hb : Bal h t) (hn : 1 ≤ t.n) :
    Bal (h + 1) (node [] false t null null null) := by
  rw [bal_succ_iff]
  simp [hb, hn]

/-- The shape is kept by `btree_insert`, whatever the keys and positions. -/
theorem insert_bal (t : BTreeNode K) (k : K) (v : Int) (hb : ∃ h, Bal h t) :
    ∃ h, Bal h (btree_insert t k v) := by
  obtain ⟨h, hb⟩ := hb
  unfold btree_insert
  split
  · exact ⟨h, (update_bal k v h t hb).1⟩
  · split
    · rename_i hfull
      have hfull3 : t.n = 3 := hfull
      have hs := bal_new_root h t hb (by omega)
      obtain ⟨m, hb1, hkeys, _, _, _⟩ :=
        split_child_spec h [] t null null null 0 hs (by simp) (by simp) hfull3
      have hn1 : (btree_split_child (node [] false t null null null) 0).n = 1 := by
        unfold BTreeNode.n
        rw [hkeys]; simp
      exact ⟨h + 1, (insert_nonfull_spec k v (h + 1) (t.height + 2) _ hb1 (by omega)
        (by rw [bal_height h t hb]; omega)).1⟩
    · rename_i hfull
      have hmk : max_keys = 3 := rfl
      have := bal_n_le h t hb
      exact ⟨h, (insert_nonfull_spec k v h (t.height + 1) t hb (by omega)
        (by rw [bal_height h t hb]; omega)).1⟩

theorem nonneg_ne (v : Int) (h : 0 ≤ v) : v ≠ -1 := by
  omega

theorem search_ne_iff (t : BTreeNode K) (k : K) (hok : IndexOK t) :
    btree_search t k ≠ -1 ↔ k ∈ (btree_entries t).map Prod.fst := by
  obtain ⟨⟨h, hb⟩, hs, hpos⟩ := hok
  rw [search_eq_find_pos k t (bal_smallNodes h t hb) hs]
  constructor
  · intro hne
    by_contra hk
    exact hne (find_pos_not_mem k _ hk)
  · intro hk hne
    exact hpos _ (find_pos_mem k _ hk) hne

/-- On an index as `btree_insert` keeps it, `btree_insert` puts the entry at its
place in the order, in place of the entry of the same key if there is one. -/
theorem insert_entries (t : BTreeNode K) (k : K) (v : Int) (hok : IndexOK t) :
    btree_entries (btree_insert t k v) = put_entry k v (btree_entries t) := by
  have hiff := search_ne_iff t k hok
  obtain ⟨⟨h, hb⟩, hs, hpos⟩ := hok
  unfold btree_insert
  split
  · rename_i hne
    rw [update_eq_map k v h t hb hs, entries_map, map_with_pos_eq_put k v _ hs (hiff.mp hne)]
  · rename_i hne
    have hk : k ∉ (btree_entries t).map Prod.fst := fun hk => hne (hiff.mpr hk)
    split
    · rename_i hfull
      have hfull3 : t.n = 3 := hfull
      have hb0 := bal_new_root h t hb (by omega)
      obtain ⟨m, hb1, hkeys, hent, _, _⟩ :=
        split_child_spec h [] t null null null 0 hb0 (by simp) (by simp) hfull3
      have hn1 : (btree_split_child (node [] false t null null null) 0).n = 1 := by
        unfold BTreeNode.n
        rw [hkeys]; simp
      have hroot : btree_entries (node [] false t null null null) = btree_entries t := by
        simp [btree_entries, interleave]
      rw [hroot] at hent
      have := (insert_nonfull_spec k v (h + 1) (t.height + 2) _ hb1 (by omega)
        (by rw [bal_height h t hb]; omega)).2.2
      rw [hent] at this
      exact this hs hk
    · rename_i hfull
      have hmk : max_keys = 3 := rfl
      have := bal_n_le h t hb
      exact (insert_nonfull_spec k v h (t.height + 1) t hb (by omega)
        (by rw [bal_height h t hb]; omega)).2.2 hs hk

theorem insert_ok (t : BTreeNode K) (k : K) (v : Int) (hok : IndexOK t) (hv : v ≠ -1) :
    IndexOK (btree_insert t k v) := by
  refine ⟨insert_bal t k v hok.1, ?_, ?_⟩
  · rw [insert_entries t k v hok]
    exact keySorted_put_entry k v _ hok.2.1
  · rw [insert_entries t k v hok]
    intro e he
    rcases (mem_put_entry k v _ e).mp he with rfl | ⟨h1, _⟩
    · exact hv
    · exact hok.2.2 e h1

theorem create_ok : IndexOK (btree_create : BTreeNode K) := by
  refine ⟨⟨0, ?_⟩, ?_, ?_⟩
  · simp [btree_create, Bal]
  · simp [btree_create, btree_entries, KeySorted]
  · simp [btree_create, btree_entries]

theorem build_snoc (ops : List (K × Int)) (op : K × Int) :
    btree_build (ops ++ [op]) = btree_insert (btree_build ops) op.1 op.2 := by
  simp [btree_build, List.foldl_append]

theorem build_ok (ops : List (K × Int)) (hpos : ∀ op ∈ ops, op.2 ≠ -1) :
    IndexOK (btree_build ops) := by
  induction ops using List.reverseRecOn with
  | nil => exact create_ok
  | append_singleton ops op ih =>
    rw [build_snoc]
    exact insert_ok _ _ _ (ih (fun o ho => hpos o (List.mem_append_left _ ho)))
      (hpos op (by simp))

theorem build_find_pos (ops : List (K × Int)) (hpos : ∀ op ∈ ops, op.2 ≠ -1) (k : K) :
    find_pos k (btree_entries (btree_build ops)) = find_pos k ops.reverse := by
  induction ops using List.reverseRecOn with
  | nil => rfl
  | append_singleton ops op ih =>
    have hpos1 : ∀ o ∈ ops, o.2 ≠ -1 := fun o ho => hpos o (List.mem_append_left _ ho)
    rw [build_snoc, insert_entries _ _ _ (build_ok ops hpos1), find_pos_put_entry,
      List.reverse_append, ih hpos1]
    simp only [List.reverse_cons, List.reverse_nil, List.nil_append, List.singleton_append,
      find_pos]
    by_cases h : k = op.1
    · simp [h]
    · have h1 : ¬ op.1 = k := fun h2 => h h2.symm
      simp [h, h1]

theorem build_mem (ops : List (K × Int)) (hpos : ∀ op ∈ ops, op.2 ≠ -1) (k : K) :
    k ∈ btree_list (btree_build ops) ↔ k ∈ ops.map Prod.fst := by
  induction ops using List.reverseRecOn with
  | nil => simp [btree_list, btree_build, btree_create, btree_entries]
  | append_singleton ops op ih =>
    have hpos1 : ∀ o ∈ ops, o.2 ≠ -1 := fun o ho => hpos o (List.mem_append_left _ ho)
    have ih1 := ih hpos1
    unfold btree_list at ih1 ⊢
    rw [build_snoc, insert_entries _ _ _ (build_ok ops hpos1)]
    simp only [List.mem_map, mem_put_entry, List.map_append, List.mem_append, List.map_cons,
      List.map_nil, List.mem_singleton] at ih1 ⊢
    constructor
    · rintro ⟨e, (rfl | ⟨he, hne⟩), rfl⟩
      · exact Or.inr rfl
      · exact Or.inl (ih1.mp ⟨e, he, rfl⟩)
    · rintro (h | h)
      · obtain ⟨e, he, hek⟩ := ih1.mpr h
        by_cases hk : k = op.1
        · exact ⟨(op.1, op.2), Or.inl rfl, hk.symm⟩
        · exact ⟨e, Or.inr ⟨he, by rw [hek]; exact hk⟩, hek⟩
      · exact ⟨(op.1, op.2), Or.inl rfl, h.symm⟩
end

/-! ## Index: insertion from an empty index -/

section
variable {K : Type} [LinearOrder K]

theorem build_pairwise (ops : List (K × Int)) (hpos : ∀ op ∈ ops, op.2 ≠ -1) :
    (btree_list (btree_build ops)).Pairwise (· < ·) := by
  obtain ⟨_, hs, _⟩ := build_ok ops hpos
  unfold btree_list
  rw [List.pairwise_map]
  exact hs

theorem build_nodup (ops : List (K × Int)) (hpos : ∀ op ∈ ops, op.2 ≠ -1) :
    (btree_list (btree_build ops)).Nodup :=
  (build_pairwise ops hpos).imp (fun h => ne_of_lt h)

theorem search_after_inserts (ops : List (K × Int)) (hpos : ∀ op ∈ ops, op.2 ≠ -1)
    (k : K) :
    (k ∉ ops.map Prod.fst → btree_search (btree_build ops) k = -1) ∧
      (∀ pre v post, ops = pre ++ (k, v) :: post → k ∉ post.map Prod.fst →
        btree_search (btree_build ops) k = v) := by
  obtain ⟨⟨h, hb⟩, hs, _⟩ := build_ok ops hpos
  have hsearch : btree_search (btree_build ops) k = find_pos k ops.reverse := by
    rw [search_eq_find_pos k _ (bal_smallNodes h _ hb) hs, build_find_pos ops hpos k]
  constructor
  · intro hk
    rw [hsearch]
    exact find_pos_not_mem k _ (by simpa using hk)
  · intro pre v post hops hk
    rw [hsearch, hops]
    simp only [List.reverse_append, List.reverse_cons, List.append_assoc, List.singleton_append]
    rw [find_pos_append, if_neg (by simpa using hk)]
    simp [find_pos]

theorem insert_existing (ops : List (K × Int)) (hpos : ∀ op ∈ ops, op.2 ≠ -1)
    (k : K) (v : Int) (hk : k ∈ btree_list (btree_build ops)) :
    btree_insert (btree_build ops) k v = map_entries (with_pos k v) (btree_build ops) ∧
      btree_list (btree_insert (btree_build ops) k v) = btree_list (btree_build ops) ∧
      (btree_list (btree_insert (btree_build ops) k v)).count k = 1 ∧
      ∀ e ∈ btree_entries (btree_insert (btree_build ops) k v), e.1 = k → e.2 = v := by
  have hok := build_ok ops hpos
  have hne := (search_ne_iff _ k hok).mpr hk
  obtain ⟨⟨h, hb⟩, hs, _⟩ := hok
  have heq : btree_insert (btree_build ops) k v =
      map_entries (with_pos k v) (btree_build ops) := by
    unfold btree_insert
    rw [if_pos hne, update_eq_map k v h _ hb hs]
  have hlist : btree_list (btree_insert (btree_build ops) k v) =
      btree_list (btree_build ops) := by
    unfold btree_list
    rw [heq, entries_map, List.map_map]
    apply List.map_congr_left
    intro e _
    simp only [Function.comp, with_pos]
    split <;> rfl
  refine ⟨heq, hlist, ?_, ?_⟩
  · rw [hlist]
    exact List.count_eq_one_of_mem (build_nodup ops hpos) hk
  · intro e he hek
    rw [heq, entries_map] at he
    obtain ⟨e0, _, rfl⟩ := List.mem_map.mp he
    unfold with_pos at hek ⊢
    split
    · rfl
    · rename_i hne0
      rw [if_neg hne0] at hek
      exact absurd hek hne0

end

/-! ## Index: `btree_delete` -/

section
variable {K : Type} [LinearOrder K]

theorem key_at_elim (ks : List (K × Int)) (i : Nat) (k : K) (h : key_at ks i k = true) :
    ∃ e, ks[i]? = some e ∧ e.1 = k := by
  unfold key_at at h
  cases hg : ks[i]? with
  | none => simp [hg] at h
  | some e =>
    simp only [hg, decide_eq_true_eq] at h
    exact ⟨e, rfl, h⟩

theorem stored_child (x : BTreeNode K) (j : Nat) :
    ∀ p ∈ stored_positions (x.child j), p ∈ stored_positions x := by
  intro p hp
  cases x with
  | null => cases j <;> exact hp
  | node ks l c0 c1 c2 c3 =>
    match j with
    | 0 => simp only [child] at hp; simp [stored_positions, hp]
    | 1 => simp only [child] at hp; simp [stored_positions, hp]
    | 2 => simp only [child] at hp; simp [stored_positions, hp]
    | 3 => simp only [child] at hp; simp [stored_positions, hp]
    | _ + 4 => simp [child, stored_positions] at hp

/-- C9 (as amended): on any index that stores the position -1 nowhere,
`btree_delete` of a key that `btree_search` does not find returns the index
unchanged: the same nodes, keys, positions and key counts. -/
theorem btree_delete_absent (k : K) :
    ∀ t : BTreeNode K, (∀ p ∈ stored_positions t, p ≠ -1) → btree_search t k = -1 →
      btree_delete t k = t := by
  apply child_induction
  · intro _ _; rfl
  · intro ks l c0 c1 c2 c3 ih hpos hsearch
    rw [search_node] at hsearch
    rw [delete_node]
    by_cases hk : key_at ks (scan_up k ks) k = true
    · exfalso
      rw [if_pos hk] at hsearch
      obtain ⟨e0, he0, _⟩ := key_at_elim _ _ _ hk
      have hp : e0.2 ≠ -1 := hpos e0.2 (by
        simp only [stored_positions, List.mem_append, List.mem_map]
        exact Or.inl (Or.inl (Or.inl (Or.inl ⟨e0, List.getElem?_mem he0, rfl⟩))))
      simp only [pos_at, he0] at hsearch
      exact hp hsearch
    · rw [if_neg hk] at hsearch ⊢
      cases l with
      | true => rfl
      | false =>
        simp only [Bool.false_eq_true, if_false] at hsearch ⊢
        rw [ih _ (fun p hp => hpos p (stored_child _ _ p hp)) hsearch, setChild_child]

theorem btree_delete_absent_witness :
    (∀ p ∈ stored_positions (btree_build [((1 : Nat), (10 : Int)), (2, 20)]), p ≠ -1) ∧
      btree_search (btree_build [((1 : Nat), (10 : Int)), (2, 20)]) 3 = -1 ∧
      btree_delete (btree_build [((1 : Nat), (10 : Int)), (2, 20)]) 3 =
        btree_build [((1 : Nat), (10 : Int)), (2, 20)] :=
  ⟨by decide, by decide,
    btree_delete_absent 3 (btree_build [((1 : Nat), (10 : Int)), (2, 20)]) (by decide)
      (by decide)⟩

/-- C9 as stated fails: the index that holds the key 1 with the position -1, as
`btree_insert(1, -1)` on the empty index leaves it, is one on which `btree_search`
does not find the key 1 (it returns the stored -1), and `btree_delete` of that
key takes it out. -/
theorem btree_delete_absent_fails_on_stored_not_found :
    btree_build [((1 : Nat), (-1 : Int))] = node [(1, -1)] true null null null null ∧
      btree_search (btree_build [((1 : Nat), (-1 : Int))]) 1 = -1 ∧
      btree_delete (btree_build [((1 : Nat), (-1 : Int))]) 1 =
        node [] true null null null null ∧
      btree_delete (btree_build [((1 : Nat), (-1 : Int))]) 1 ≠
        btree_build [((1 : Nat), (-1 : Int))] := by
  decide
end

section
variable {K : Type} [LinearOrder K]

end

/-! ## Storage engine -/

section
variable {K : Type} [LinearOrder K]

theorem save_eq_map (storage : List Byte) :
    ∀ t : BTreeNode K, save_btree_recursive t storage =
      (btree_entries t).map (fun e => MetaEntry.mk e.1 e.2 (stored_size storage e.2)) := by
  intro t
  induction t with
  | null => rfl
  | node ks l c0 c1 c2 c3 ih0 ih1 ih2 ih3 =>
    cases l with
    | true => simp [save_btree_recursive, btree_entries]
    | false =>
      simp only [save_btree_recursive, btree_entries, Bool.false_eq_true, if_false, ih0, ih1,
        ih2, ih3]
      rw [← interleave_map]
      simp

theorem load_save_index (fs : FileSystem K) (hlen : (btree_entries fs.index).length < 2 ^ 32) :
    (fs_load fs (fs_save fs)).index = btree_build (btree_entries fs.index) := by
  simp only [fs_load, fs_save, save_eq_map, List.length_map, Nat.mod_eq_of_lt hlen]
  rw [List.take_of_length_le (by simp), List.foldl_map]
  rfl

theorem build_sorted_id (E : List (K × Int)) (hs : KeySorted E) (hpos : ∀ e ∈ E, e.2 ≠ -1) :
    btree_entries (btree_build E) = E := by
  induction E using List.reverseRecOn with
  | nil => rfl
  | append_singleton E e ih =>
    have hpos1 : ∀ o ∈ E, o.2 ≠ -1 := fun o ho => hpos o (List.mem_append_left _ ho)
    have hs1 : KeySorted E := hs.sublist (List.sublist_append_left E [e])
    rw [build_snoc, insert_entries _ _ _ (build_ok E hpos1), ih hs1 hpos1]
    have hlt : ∀ x ∈ E, x.1 < e.1 := by
      intro x hx
      unfold KeySorted at hs
      rw [List.pairwise_append] at hs
      exact hs.2.2 x hx e (by simp)
    have := put_entry_middle e.1 e.2 E [] [] hlt (by simp)
    simp only [List.append_nil] at this
    rw [this]
    simp [put_entry]

theorem put_entry_length (k : K) (v : Int) (l : List (K × Int)) :
    (put_entry k v l).length ≤ l.length + 1 := by
  have h : ∀ l : List (K × Int),
      (l.filter (fun e => decide (e.1 < k))).length +
        (l.filter (fun e => decide (k < e.1))).length ≤ l.length := by
    intro l
    induction l with
    | nil => simp
    | cons a l ih =>
      simp only [List.filter_cons]
      by_cases h1 : a.1 < k
      · have h2 : ¬ k < a.1 := not_lt.mpr (le_of_lt h1)
        simp only [h1, h2, decide_True, decide_False, if_true, Bool.false_eq_true, if_false,
          List.length_cons]
        omega
      · by_cases h2 : k < a.1
        · simp only [h1, h2, decide_True, decide_False, if_true, Bool.false_eq_true, if_false,
            List.length_cons]
          omega
        · simp only [h1, h2, decide_False, Bool.false_eq_true, if_false, List.length_cons]
          omega
  have := h l
  simp only [put_entry, List.length_append, List.length_cons]
  omega

theorem lzw_compress_length (b : List Byte) :
    (lzw_compress b).length = 12 + 2 * (lzw_codes b).length := by
  simp only [lzw_compress, List.length_append, le_bytes_length, pack_codes_length]

end

section
variable {K : Type} [LinearOrder K]

theorem fs_read_length (fs : FileSystem K) (key : K) (out : List Byte)
    (h : fs_read fs key = ReadResult.content out) : out.length < 2 ^ 48 := by
  unfold fs_read at h
  split at h
  · simp at h
  · split at h
    · simp at h
    · split at h
      · simp at h
      · split at h
        · simp at h
        · simp at h
        · rename_i out1 hdec
          simp only [ReadResult.content.injEq] at h
          subst h
          exact lzw_decompress_length _ _ hdec

theorem read_long_content (fs : FileSystem K) (key : K) (n : Nat) (h : 2 ^ 48 ≤ n) :
    fs_read fs key ≠ ReadResult.content (List.replicate n 0) := by
  intro hr
  have := fs_read_length _ _ _ hr
  rw [List.length_replicate] at this
  omega

end

/-- C10: the sequence insert 1, 2, 3, 4, 5, 6, delete 2, insert 3 (offsets
non-negative) leaves the key 3 twice in the order of `btree_list`: the delete takes
the key 2 out of the root, which is not a leaf, and the search that precedes the
last insert then goes to the wrong subtree. -/
theorem btree_list_repeats_key_after_delete :
    btree_list (btree_insert (btree_delete
      (btree_build [((1 : Nat), (10 : Int)), (2, 20), (3, 30), (4, 40), (5, 50), (6, 60)]) 2)
      3 70) = [1, 3, 4, 3] := by
  decide

/-! ## Evaluations of the codec, the index and the store -/

theorem decompress_null_iff (input : List Byte) :
    lzw_decompress input = Decoded.null ↔ input.length < 12 := by
  unfold lzw_decompress
  by_cases h : input.length < 12
  · simp [h]
  · simp only [h, if_false, iff_false]
    split
    · simp
    · split <;> simp

/-- C13: `lzw_decompress` returns NULL exactly on the inputs shorter than the 12
bytes of the header, yet an input of 16 bytes, whose header announces the two
codes 300 and 256 that follow it, has no output: the second code is the next one
to assign while `seq[prev_code]` is NULL, and `seq[prev_code][0]` is read. -/
theorem lzw_decompress_faults_past_header :
    (∀ input, lzw_decompress input = Decoded.null ↔ input.length < 12) ∧
      lzw_decompress [0, 0, 0, 0, 0, 0, 0, 0, 2, 0, 0, 0, 44, 1, 0, 1] = Decoded.fault :=
  ⟨decompress_null_iff, by decide⟩

/-- C14: in the stream 97, 300, 256 the code 300 is neither in the table nor the
next code to assign: it adds no byte (the stream 97, 300 gives the one byte of
97) and no table entry (256 is still the next code to assign after it), and a
later code is read (97, 300, 98 gives two bytes); but the later code 256 reads
`seq[300][0]` through NULL and the decoding has no output. -/
theorem lzw_decompress_aborts_after_skipped_code :
    decode_entry [] (some 97) 300 = some none ∧
      lzw_decompress [0, 0, 0, 0, 0, 0, 0, 0, 2, 0, 0, 0, 97, 0, 44, 1] = Decoded.ok [97] ∧
      lzw_decompress [0, 0, 0, 0, 0, 0, 0, 0, 3, 0, 0, 0, 97, 0, 44, 1, 98, 0] =
        Decoded.ok [97, 98] ∧
      decode_entry [] (some 300) 256 = none ∧
      lzw_decompress [0, 0, 0, 0, 0, 0, 0, 0, 3, 0, 0, 0, 97, 0, 44, 1, 0, 1] =
        Decoded.fault := by
  decide

/-- C17: the 20 bytes of "ab" ten times compress to 8 codes, and the code count
in the header of the output is 8, less than 20. -/
theorem lzw_compress_ab_ten :
    ab_ten.length = 20 ∧ lzw_codes ab_ten = [97, 98, 256, 258, 257, 260, 259, 259] ∧
      le_value (((lzw_compress ab_ten).drop 8).take 4) = 8 ∧
      le_value (((lzw_compress ab_ten).drop 8).take 4) < 20 := by
  decide

/-- C16: a snapshot of a store holding one file, restored over an empty storage
file, leaves the key with the offset 0 at the end of the file; restored over the
first 10 bytes of the storage file, it leaves fewer bytes after the length field
than the 14 it announces.  In both `fs_read` goes on with what `fread` did not
fill and does not return its failure. -/
theorem fs_read_past_end_of_storage :
    btree_search (fs_load (fs_init []) (fs_save (fs_populate [] [((1 : Nat), [97])]))).index 1
        = 0 ∧
      fs_read (fs_load (fs_init []) (fs_save (fs_populate [] [((1 : Nat), [97])]))) 1 =
        ReadResult.undefined ∧
      (fs_populate [] [((1 : Nat), [97])]).storage.take 10 = [14, 0, 0, 0, 0, 0, 0, 0, 1, 0] ∧
      fs_read (fs_load (fs_init ((fs_populate [] [((1 : Nat), [97])]).storage.take 10))
          (fs_save (fs_populate [] [((1 : Nat), [97])]))) 1 = ReadResult.undefined := by
  decide

/-- C18: the inserts of 1 .. 6 put the key 2 in the root, which is not a leaf;
`btree_search` gives the key 3 its offset 30 before the key 2 is deleted and -1
after, and likewise -1 for the key 5. -/
theorem btree_search_misses_after_internal_delete :
    (btree_build [((1 : Nat), (10 : Int)), (2, 20), (3, 30), (4, 40), (5, 50), (6, 60)]).keys =
        [(2, 20), (4, 40)] ∧
      (btree_build [((1 : Nat), (10 : Int)), (2, 20), (3, 30), (4, 40), (5, 50), (6, 60)]).leaf =
        false ∧
      btree_search
        (btree_build [((1 : Nat), (10 : Int)), (2, 20), (3, 30), (4, 40), (5, 50), (6, 60)]) 3 =
        30 ∧
      btree_search (btree_delete
        (btree_build [((1 : Nat), (10 : Int)), (2, 20), (3, 30), (4, 40), (5, 50), (6, 60)]) 2) 3 =
        -1 ∧
      btree_search (btree_delete
        (btree_build [((1 : Nat), (10 : Int)), (2, 20), (3, 30), (4, 40), (5, 50), (6, 60)]) 2) 5 =
        -1 := by
  decide

/-! ## The layout of the compressed form and of the storage file -/

theorem compress_fields (b : List Byte) :
    (lzw_compress b).take 8 = le_bytes 8 (b.length % 2 ^ 64) ∧
      ((lzw_compress b).drop 8).take 4 = le_bytes 4 ((lzw_codes b).length % 2 ^ 32) ∧
      (lzw_compress b).drop 12 = pack_codes (lzw_codes b) := by
  have h8 : (le_bytes 8 (b.length % 2 ^ 64)).length = 8 := le_bytes_length _ _
  have h4 : (le_bytes 4 ((lzw_codes b).length % 2 ^ 32)).length = 4 := le_bytes_length _ _
  unfold lzw_compress
  refine ⟨?_, ?_, ?_⟩
  · rw [List.append_assoc, List.take_left' h8]
  · rw [List.append_assoc, List.drop_left' h8, List.take_left' h4]
  · rw [List.drop_left' (by rw [List.length_append, h8, h4])]

theorem compress_layout (b : List Byte) (hb : b.length < 2 ^ 64) :
    le_value ((lzw_compress b).take 8) = b.length ∧
      le_value (((lzw_compress b).drop 8).take 4) = (lzw_codes b).length % 2 ^ 32 ∧
      (lzw_compress b).drop 12 = pack_codes (lzw_codes b) ∧
      read_codes (lzw_codes b).length ((lzw_compress b).drop 12) = some (lzw_codes b) ∧
      (lzw_compress b).length = 12 + 2 * (lzw_codes b).length := by
  obtain ⟨h1, h2, h3⟩ := compress_fields b
  refine ⟨?_, ?_, h3, ?_, lzw_compress_length b⟩
  · rw [h1, le_value_le_bytes, Nat.mod_eq_of_lt hb]
    exact Nat.mod_eq_of_lt (by norm_num; exact hb)
  · rw [h2, le_value_le_bytes]
    exact Nat.mod_eq_of_lt (by norm_num; exact Nat.mod_lt _ (by norm_num))
  · rw [h3]
    exact read_codes_pack _ (lzw_codes_lt b)

theorem codes_of_long_input (b : List Byte) : b.length ≤ 65536 * (lzw_codes b).length :=
  decode_codes_length (lzw_codes b) [] none b (by simp) (by simp) (decode_lzw_codes b)

theorem count_field_wraps (b : List Byte) (hb : 2 ^ 48 ≤ b.length) :
    le_value (((lzw_compress b).drop 8).take 4) ≠ (lzw_codes b).length := by
  have h1 := codes_of_long_input b
  have h2 : le_value (((lzw_compress b).drop 8).take 4) < 2 ^ 32 := by
    have := le_value_lt (((lzw_compress b).drop 8).take 4)
    rw [(compress_fields b).2.1, le_bytes_length] at this
    exact lt_of_lt_of_le this (by norm_num)
  have h3 : 2 ^ 32 ≤ (lzw_codes b).length := by
    by_contra hc
    have : 65536 * (lzw_codes b).length < 65536 * 2 ^ 32 :=
      Nat.mul_lt_mul_of_pos_left (not_le.mp hc) (by norm_num)
    have h4 : (65536 : Nat) * 2 ^ 32 = 2 ^ 48 := by norm_num
    omega
  omega

/-- C12: for an input `b` whose length a `size_t` holds, the first 8 bytes of
`lzw_compress(b)` hold the length of `b`, the next 4 hold the number `c` of
emitted codes modulo 2^32, the rest are the `c` codes as 2-byte values in the
order of emission (reading `c` codes there gives them back), and the whole is
`12 + 2 * c` bytes long. -/
theorem lzw_compress_layout (b : List Byte) (hb : b.length < 2 ^ 64) :
    le_value ((lzw_compress b).take 8) = b.length ∧
      le_value (((lzw_compress b).drop 8).take 4) = (lzw_codes b).length % 2 ^ 32 ∧
      (lzw_compress b).drop 12 = pack_codes (lzw_codes b) ∧
      read_codes (lzw_codes b).length ((lzw_compress b).drop 12) = some (lzw_codes b) ∧
      (lzw_compress b).length = 12 + 2 * (lzw_codes b).length :=
  compress_layout b hb

theorem lzw_compress_layout_witness :
    le_value ((lzw_compress [97, 98, 97, 98, 97]).take 8) = [97, 98, 97, 98, (97 : Byte)].length ∧
      le_value (((lzw_compress [97, 98, 97, 98, 97]).drop 8).take 4) =
        (lzw_codes [97, 98, 97, 98, 97]).length % 2 ^ 32 ∧
      (lzw_compress [97, 98, 97, 98, 97]).drop 12 = pack_codes (lzw_codes [97, 98, 97, 98, 97]) ∧
      read_codes (lzw_codes [97, 98, 97, 98, 97]).length
          ((lzw_compress [97, 98, 97, 98, 97]).drop 12) =
        some (lzw_codes [97, 98, 97, 98, 97]) ∧
      (lzw_compress [97, 98, 97, 98, 97]).length =
        12 + 2 * (lzw_codes [97, 98, 97, 98, 97]).length :=
  lzw_compress_layout [97, 98, 97, 98, 97] (by decide)

/-- The input of 2^48 zero bytes, whose length a `size_t` holds, is emitted as
2^32 codes or more, and the 4 bytes of the count field do not hold their number. -/
theorem lzw_compress_count_field_wraps :
    (List.replicate (2 ^ 48) (0 : Byte)).length < 2 ^ 64 ∧
      le_value (((lzw_compress (List.replicate (2 ^ 48) 0)).drop 8).take 4) ≠
        (lzw_codes (List.replicate (2 ^ 48) 0)).length :=
  ⟨by rw [List.length_replicate]; norm_num,
    count_field_wraps _ (by rw [List.length_replicate])⟩

section
variable {K : Type} [LinearOrder K]

theorem create_storage (fs : FileSystem K) (key : K) (b : List Byte)
    (hc : (lzw_compress b).length < 2 ^ 64) :
    (fs_create fs key b).storage =
        fs.storage ++ le_bytes 8 (lzw_compress b).length ++ lzw_compress b ∧
      (fs_create fs key b).storage.take fs.storage.length = fs.storage ∧
      (∀ i, i < fs.storage.length → (fs_create fs key b).storage[i]? = fs.storage[i]?) ∧
      le_value (((fs_create fs key b).storage.drop fs.storage.length).take 8) =
        (lzw_compress b).length ∧
      (fs_create fs key b).storage.drop (fs.storage.length + 8) = lzw_compress b := by
  have h8 : (le_bytes 8 (lzw_compress b).length).length = 8 := le_bytes_length _ _
  refine ⟨rfl, ?_, ?_, ?_, ?_⟩
  · simp only [fs_create]
    rw [List.append_assoc, List.take_left' rfl]
  · intro i hi
    simp only [fs_create]
    rw [List.append_assoc, List.getElem?_append_left hi]
  · simp only [fs_create]
    rw [List.append_assoc, List.drop_left' rfl, List.take_left' h8, le_value_le_bytes]
    exact Nat.mod_eq_of_lt (by norm_num; exact hc)
  · simp only [fs_create]
    rw [List.drop_left' (by rw [List.length_append, h8])]

theorem create_index (fs : FileSystem K) (key : K) (b : List Byte) (hok : IndexOK fs.index) :
    btree_search (fs_create fs key b).index key = (fs.storage.length : Int) := by
  have hpos : (fs.storage.length : Int) ≠ -1 := by omega
  have hok1 := insert_ok fs.index key (fs.storage.length : Int) hok hpos
  obtain ⟨⟨h, hb⟩, hs, -⟩ := hok1
  simp only [fs_create]
  rw [search_eq_find_pos key _ (bal_smallNodes h _ hb) hs, insert_entries _ _ _ hok,
    find_pos_put_entry, if_pos rfl]

/-- C15: `fs_create` turns the storage file `old` into `old`, then the 8 bytes of
the length of the compressed content, then the compressed content (a length that
a `size_t` holds); the bytes of `old` stay where they were; the key enters the
index through `btree_insert` with the length of `old` as its position, which is
what `btree_search` then returns in an index kept by insertions; and `fs_delete`
leaves the storage file as it was. -/
theorem fs_storage_append_only (fs : FileSystem K) (key : K) (b : List Byte)
    (hc : (lzw_compress b).length < 2 ^ 64) :
    (fs_create fs key b).storage =
        fs.storage ++ le_bytes 8 (lzw_compress b).length ++ lzw_compress b ∧
      (fs_create fs key b).storage.take fs.storage.length = fs.storage ∧
      (∀ i, i < fs.storage.length → (fs_create fs key b).storage[i]? = fs.storage[i]?) ∧
      le_value (((fs_create fs key b).storage.drop fs.storage.length).take 8) =
        (lzw_compress b).length ∧
      (fs_create fs key b).storage.drop (fs.storage.length + 8) = lzw_compress b ∧
      (fs_create fs key b).index = btree_insert fs.index key (fs.storage.length : Int) ∧
      (IndexOK fs.index →
        btree_search (fs_create fs key b).index key = (fs.storage.length : Int)) ∧
      (fs_delete fs key).storage = fs.storage :=
  ⟨(create_storage fs key b hc).1, (create_storage fs key b hc).2.1,
    (create_storage fs key b hc).2.2.1, (create_storage fs key b hc).2.2.2.1,
    (create_storage fs key b hc).2.2.2.2, rfl, create_index fs key b, rfl⟩

end

theorem fs_storage_append_only_witness :
    (lzw_compress [97, 98]).length < 2 ^ 64 ∧
      (fs_create (fs_populate [7, 7, 7] [((1 : Nat), [97])]) 2 [97, 98]).storage =
        (fs_populate [7, 7, 7] [((1 : Nat), [97])]).storage ++
          le_bytes 8 (lzw_compress [97, 98]).length ++ lzw_compress [97, 98] ∧
      (fs_delete (fs_populate [7, 7, 7] [((1 : Nat), [97])]) 1).storage =
        (fs_populate [7, 7, 7] [((1 : Nat), [97])]).storage :=
  ⟨by decide,
    (fs_storage_append_only (fs_populate [7, 7, 7] [((1 : Nat), [97])]) 2 [97, 98]
      (by decide)).1,
    (fs_storage_append_only (fs_populate [7, 7, 7] [((1 : Nat), [97])]) 2 [97, 98]
      (by decide)).2.2.2.2.2.2.2⟩

/-! ## Snapshot and restore of the index -/

section
variable {K : Type} [LinearOrder K]

theorem puts_index (puts : List (K × List Byte)) :
    ∀ fs : FileSystem K, ∃ E : List (K × Int),
      (puts.foldl (fun fs p => fs_create fs p.1 p.2) fs).index =
          E.foldl (fun t op => btree_insert t op.1 op.2) fs.index ∧
        E.map Prod.fst = puts.map Prod.fst ∧ ∀ e ∈ E, e.2 ≠ -1 := by
  induction puts with
  | nil => intro fs; exact ⟨[], rfl, rfl, by simp⟩
  | cons p ps ih =>
    intro fs
    obtain ⟨E, h1, h2, h3⟩ := ih (fs_create fs p.1 p.2)
    refine ⟨(p.1, (fs.storage.length : Int)) :: E, ?_, ?_, ?_⟩
    · rw [List.foldl_cons, h1]
      rfl
    · rw [List.map_cons, List.map_cons, h2]
    · intro e he
      rcases List.mem_cons.mp he with rfl | he
      · show (fs.storage.length : Int) ≠ -1
        omega
      · exact h3 e he

theorem populate_build (blob : List Byte) (puts : List (K × List Byte)) :
    ∃ E : List (K × Int), (fs_populate blob puts).index = btree_build E ∧
      E.map Prod.fst = puts.map Prod.fst ∧ ∀ e ∈ E, e.2 ≠ -1 :=
  puts_index puts (fs_init blob)

theorem populate_ok (blob : List Byte) (puts : List (K × List Byte)) :
    IndexOK (fs_populate blob puts).index := by
  obtain ⟨E, h1, -, h3⟩ := populate_build (K := K) blob puts
  rw [h1]
  exact build_ok E h3

theorem save_names (fs : FileSystem K) :
    (fs_save fs).entries.map (fun e => (e.name, e.position)) = btree_entries fs.index ∧
      (fs_save fs).entries.map MetaEntry.name = btree_list fs.index ∧
      (fs_save fs).count = (btree_list fs.index).length % 2 ^ 32 := by
  simp only [fs_save, save_eq_map, List.map_map, btree_list, List.length_map]
  refine ⟨?_, ?_, trivial⟩
  · conv_rhs => rw [← List.map_id (btree_entries fs.index)]
    rfl
  · rfl

theorem restore_search (fs : FileSystem K) (hok : IndexOK fs.index)
    (hlen : (btree_entries fs.index).length < 2 ^ 32) (k : K) :
    btree_search (fs_load fs (fs_save fs)).index k = btree_search fs.index k := by
  obtain ⟨⟨h, hb⟩, hs, hpos⟩ := hok
  have hid := build_sorted_id _ hs hpos
  obtain ⟨⟨h1, hb1⟩, hs1, -⟩ := build_ok _ hpos
  rw [load_save_index fs hlen, search_eq_find_pos k _ (bal_smallNodes h1 _ hb1) hs1, hid,
    search_eq_find_pos k _ (bal_smallNodes h _ hb) hs]

theorem save_load_index (blob : List Byte) (puts : List (K × List Byte))
    (hlen : (btree_list (fs_populate blob puts).index).length < 2 ^ 32) :
    (fs_load (fs_init blob) (fs_save (fs_init blob))).index = (btree_create : BTreeNode K) ∧
      (fs_save (fs_populate blob puts)).entries.map MetaEntry.name =
        btree_list (fs_populate blob puts).index ∧
      ((fs_save (fs_populate blob puts)).entries.map MetaEntry.name).Pairwise (· < ·) ∧
      (fs_save (fs_populate blob puts)).count =
        (btree_list (fs_populate blob puts).index).length ∧
      ∀ k, btree_search
          (fs_load (fs_populate blob puts) (fs_save (fs_populate blob puts))).index k =
        btree_search (fs_populate blob puts).index k := by
  have hok := populate_ok (K := K) blob puts
  obtain ⟨-, h2, h3⟩ := save_names (fs_populate blob puts)
  refine ⟨rfl, h2, ?_, ?_, ?_⟩
  · rw [h2]
    obtain ⟨-, hs, -⟩ := hok
    unfold KeySorted at hs
    unfold btree_list
    exact List.pairwise_map.mpr hs
  · rw [h3, Nat.mod_eq_of_lt hlen]
  · intro k
    refine restore_search _ hok ?_ k
    simpa [btree_list] using hlen

theorem count_wraps (fs : FileSystem K) (keys : List K) (hn : keys.Nodup)
    (hsub : ∀ k ∈ keys, k ∈ btree_list fs.index) (hlen : 2 ^ 32 ≤ keys.length) :
    (fs_save fs).count ≠ (btree_list fs.index).length := by
  have h1 : keys.length ≤ (btree_list fs.index).length := by
    have : keys.Subperm (btree_list fs.index) := hn.subperm hsub
    exact this.length_le
  rw [(save_names fs).2.2]
  have := Nat.mod_lt (btree_list fs.index).length (show 0 < 2 ^ 32 by norm_num)
  omega

end

/-! ## Index: the ordering of the keys in every node -/

section
variable {K : Type} [LinearOrder K]

theorem subtree_keys_child (ks : List (K × Int)) (l : Bool) (c0 c1 c2 c3 : BTreeNode K) (k : K)
    (hk : k ∈ subtree_keys (node ks l c0 c1 c2 c3)) :
    k ∈ ks.map Prod.fst ∨ ∃ j, k ∈ subtree_keys ((node ks l c0 c1 c2 c3).child j) := by
  simp only [subtree_keys, List.mem_append] at hk
  rcases hk with h | h | h | h | h
  · exact Or.inl h
  · exact Or.inr ⟨0, h⟩
  · exact Or.inr ⟨1, h⟩
  · exact Or.inr ⟨2, h⟩
  · exact Or.inr ⟨3, h⟩

theorem subtree_keys_listed :
    ∀ (h : Nat) (t : BTreeNode K), Bal h t → ∀ k ∈ subtree_keys t, k ∈ btree_list t := by
  intro h
  induction h with
  | zero =>
    intro t hb k hk
    cases t with
    | null => exact absurd hb (bal_not_null 0)
    | node ks l c0 c1 c2 c3 =>
      obtain ⟨hl, -, rfl, rfl, rfl, rfl⟩ := (bal_zero_iff ks l c0 c1 c2 c3).mp hb
      subst hl
      simpa [subtree_keys, btree_list, btree_entries] using hk
  | succ h ih =>
    intro t hb k hk
    cases t with
    | null => exact absurd hb (bal_not_null _)
    | node ks l c0 c1 c2 c3 =>
      have hb1 := hb
      obtain ⟨hl, hn, hin, hout⟩ := hb1
      subst hl
      rcases subtree_keys_child ks false c0 c1 c2 c3 k hk with h1 | ⟨j, h1⟩
      · obtain ⟨e, he, rfl⟩ := List.mem_map.mp h1
        exact List.mem_map.mpr ⟨e, keys_subset_entries ks false c0 c1 c2 c3 hn e he, rfl⟩
      · by_cases hj : j ≤ ks.length
        · have h2 := ih _ (hin j hj).1 k h1
          obtain ⟨e, he, rfl⟩ := List.mem_map.mp h2
          exact List.mem_map.mpr
            ⟨e, (entries_child_sublist ks c0 c1 c2 c3 j hn hj).subset he, rfl⟩
        · rw [hout j (not_le.mp hj)] at h1
          simp [subtree_keys] at h1

theorem child_bounds (ks : List (K × Int)) (c0 c1 c2 c3 : BTreeNode K) (i : Nat)
    (hn : ks.length ≤ 3) (hi : i ≤ ks.length)
    (hs : KeySorted (btree_entries (node ks false c0 c1 c2 c3))) :
    ∀ e ∈ btree_entries ((node ks false c0 c1 c2 c3).child i),
      (∀ a, 1 ≤ i → ks[i - 1]? = some a → a.1 < e.1) ∧ (∀ b, ks[i]? = some b → e.1 < b.1) := by
  intro e he
  obtain ⟨L, R, hcut, -, hL, hR⟩ := node_cut ks c0 c1 c2 c3 i hi hn
  have hx := hcut ((node ks false c0 c1 c2 c3).child i)
  rw [setChild_child] at hx
  rw [hx] at hs
  unfold KeySorted at hs
  constructor
  · intro a h1 ha
    obtain ⟨i1, rfl⟩ : ∃ i1, i = i1 + 1 := ⟨i - 1, by omega⟩
    obtain ⟨B, a1, hB, ha1⟩ := hL i1 rfl
    rw [Nat.add_sub_cancel] at ha
    rw [ha] at ha1
    obtain rfl := Option.some.inj ha1
    rw [hB, List.append_assoc, List.pairwise_append] at hs
    exact hs.2.2 a (by simp) e (List.mem_append_left _ he)
  · intro b hb
    rw [hb] at hR
    obtain ⟨R1, rfl⟩ : ∃ R1, R = b :: R1 := by
      cases R with
      | nil => simp at hR
      | cons r R1 => exact ⟨R1, by simp at hR; rw [hR]⟩
    rw [List.pairwise_append] at hs
    exact hs.2.2 e (List.mem_append_right _ he) b (by simp)

theorem ordered_of_sorted :
    ∀ (h : Nat) (t : BTreeNode K), Bal h t → KeySorted (btree_entries t) → Ordered t := by
  intro h
  induction h with
  | zero =>
    intro t hb hs
    cases t with
    | null => exact absurd hb (bal_not_null 0)
    | node ks l c0 c1 c2 c3 =>
      obtain ⟨hl, -, rfl, rfl, rfl, rfl⟩ := (bal_zero_iff ks l c0 c1 c2 c3).mp hb
      subst hl
      simp only [btree_entries, if_true] at hs
      exact ⟨List.pairwise_map.mpr hs, fun hf => absurd hf (by simp), trivial, trivial, trivial,
        trivial⟩
  | succ h ih =>
    intro t hb hs
    cases t with
    | null => exact absurd hb (bal_not_null _)
    | node ks l c0 c1 c2 c3 =>
      have hb1 := hb
      obtain ⟨hl, hn, hin, hout⟩ := hb1
      subst hl
      have hch : ∀ j, Ordered ((node ks false c0 c1 c2 c3).child j) := by
        intro j
        by_cases hj : j ≤ ks.length
        · exact ih _ (hin j hj).1 (hs.sublist (entries_child_sublist ks c0 c1 c2 c3 j hn hj))
        · rw [hout j (not_le.mp hj)]
          trivial
      refine ⟨List.pairwise_map.mpr (keySorted_keys ks false c0 c1 c2 c3 hn hs), ?_, hch 0, hch 1,
        hch 2, hch 3⟩
      intro _ i hi k hk
      have h2 := subtree_keys_listed h _ (hin i hi).1 k hk
      obtain ⟨e, he, rfl⟩ := List.mem_map.mp h2
      exact child_bounds ks c0 c1 c2 c3 i hn hi hs e he

theorem build_ordered (ops : List (K × Int)) (hpos : ∀ op ∈ ops, op.2 ≠ -1) :
    Ordered (btree_build ops) := by
  obtain ⟨⟨h, hb⟩, hs, -⟩ := build_ok ops hpos
  exact ordered_of_sorted h _ hb hs

end

/-! ## Index: what the calls rely on, through inserts and deletes -/

section
variable {K : Type} [LinearOrder K]

theorem safe_child (x : BTreeNode K) (j : Nat) (h : Safe x) : Safe (x.child j) := by
  cases x with
  | null => trivial
  | node ks l c0 c1 c2 c3 =>
    obtain ⟨-, -, h0, h1, h2, h3⟩ := h
    rcases j with _ | _ | _ | _ | j
    · exact h0
    · exact h1
    · exact h2
    · exact h3
    · trivial

theorem safe_slots (f : Nat → BTreeNode K) (ks : List (K × Int)) (l : Bool)
    (hn : ks.length ≤ 3) (hs : ∀ j, Safe (f j))
    (hp : l = false → ∀ j, j ≤ ks.length → f j ≠ null) :
    Safe (node ks l (f 0) (f 1) (f 2) (f 3)) := by
  refine ⟨hn, ?_, hs 0, hs 1, hs 2, hs 3⟩
  intro hl j hj
  have := hp hl j hj
  rcases j with _ | _ | _ | _ | j
  · exact this
  · exact this
  · exact this
  · exact this
  · omega

theorem safe_setChild (x c : BTreeNode K) (j : Nat) (hx : Safe x) (hc : Safe c)
    (hcn : c ≠ null) : Safe (x.setChild j c) := by
  cases x with
  | null => exact hx
  | node ks l c0 c1 c2 c3 =>
    obtain ⟨hn, hp, h0, h1, h2, h3⟩ := hx
    have hslot : ∀ d0 d1 d2 d3 : BTreeNode K,
        (∀ j1, (node ks l c0 c1 c2 c3).child j1 ≠ null →
          (node ks l d0 d1 d2 d3).child j1 ≠ null) →
        Safe d0 → Safe d1 → Safe d2 → Safe d3 → Safe (node ks l d0 d1 d2 d3) :=
      fun d0 d1 d2 d3 hd s0 s1 s2 s3 =>
        ⟨hn, fun hl j1 hj1 => hd j1 (hp hl j1 hj1), s0, s1, s2, s3⟩
    match j with
    | 0 =>
      refine hslot c c1 c2 c3 ?_ hc h1 h2 h3
      intro j1 h
      match j1 with
      | 0 => exact hcn
      | 1 => exact h
      | 2 => exact h
      | 3 => exact h
      | _ + 4 => exact h
    | 1 =>
      refine hslot c0 c c2 c3 ?_ h0 hc h2 h3
      intro j1 h
      match j1 with
      | 0 => exact h
      | 1 => exact hcn
      | 2 => exact h
      | 3 => exact h
      | _ + 4 => exact h
    | 2 =>
      refine hslot c0 c1 c c3 ?_ h0 h1 hc h3
      intro j1 h
      match j1 with
      | 0 => exact h
      | 1 => exact h
      | 2 => exact hcn
      | 3 => exact h
      | _ + 4 => exact h
    | 3 =>
      refine hslot c0 c1 c2 c ?_ h0 h1 h2 hc
      intro j1 h
      match j1 with
      | 0 => exact h
      | 1 => exact h
      | 2 => exact h
      | 3 => exact hcn
      | _ + 4 => exact h
    | _ + 4 => exact ⟨hn, hp, h0, h1, h2, h3⟩

theorem safe_smallNodes : ∀ t : BTreeNode K, Safe t → SmallNodes t := by
  intro t
  induction t with
  | null => intro _; trivial
  | node ks l c0 c1 c2 c3 ih0 ih1 ih2 ih3 =>
    intro h
    exact ⟨h.1, ih0 h.2.2.1, ih1 h.2.2.2.1, ih2 h.2.2.2.2.1, ih3 h.2.2.2.2.2⟩

theorem setChild_ne_null (x c : BTreeNode K) (j : Nat) (hx : x ≠ null) :
    x.setChild j c ≠ null := by
  cases x with
  | null => exact absurd rfl hx
  | node ks l c0 c1 c2 c3 =>
    obtain ⟨d0, d1, d2, d3, hd⟩ := setChild_node ks l c0 c1 c2 c3 c j
    rw [hd]
    intro h
    cases h

theorem n_pos_ne_null (x : BTreeNode K) (h : 1 ≤ x.n) : x ≠ null := by
  intro hx
  rw [hx] at h
  exact absurd h (show ¬ 1 ≤ 0 by decide)

theorem descent_node (keys : List (K × Int)) (leaf : Bool) (c0 c1 c2 c3 : BTreeNode K) (k : K) :
    descent_present (node keys leaf c0 c1 c2 c3) k =
      if key_at keys (scan_up k keys) k then true
      else if leaf then true
      else descent_present ((node keys leaf c0 c1 c2 c3).child (scan_up k keys)) k := by
  rw [descent_present]
  generalize scan_up k keys = i
  split
  · rfl
  · split
    · rfl
    · match i with
      | 0 => rfl
      | 1 => rfl
      | 2 => rfl
      | 3 => rfl
      | _ + 4 => rfl

theorem descent_safe (k : K) :
    ∀ t : BTreeNode K, Safe t → t ≠ null → descent_present t k = true := by
  refine child_induction ?_ ?_
  · intro _ h
    exact absurd rfl h
  · intro ks l c0 c1 c2 c3 ih hs _
    rw [descent_node]
    split
    · rfl
    · split
      · rfl
      · rename_i hl
        have hl1 : l = false := by simpa using hl
        exact ih _ (safe_child _ _ hs) (hs.2.1 hl1 _ (scan_up_le k ks))

theorem shifted_slot_cases (P : BTreeNode K → Prop) (old : Nat → BTreeNode K) (n i : Nat)
    (z : BTreeNode K) (j : Nat) (hold : ∀ j, P (old j)) (hz : P z) :
    P (shifted_slot old n i z j) := by
  unfold shifted_slot
  split
  · exact hold j
  · split
    · exact hz
    · split
      · exact hold (j - 1)
      · exact hold j

theorem shifted_slot_ne_null (old : Nat → BTreeNode K) (n i : Nat) (z : BTreeNode K) (j : Nat)
    (hi : i ≤ n) (hj : j ≤ n + 1) (hold : ∀ j, j ≤ n → old j ≠ null) (hz : z ≠ null) :
    shifted_slot old n i z j ≠ null := by
  unfold shifted_slot
  by_cases h1 : j ≤ i
  · rw [if_pos h1]
    exact hold j (by omega)
  · rw [if_neg h1]
    by_cases h2 : j = i + 1
    · rw [if_pos h2]
      exact hz
    · rw [if_neg h2, if_pos hj]
      exact hold (j - 1) (by omega)

theorem split_child_form (ks : List (K × Int)) (l : Bool) (c0 c1 c2 c3 : BTreeNode K) (i : Nat)
    (yks : List (K × Int)) (yl : Bool) (y0 y1 y2 y3 : BTreeNode K) (m : K × Int)
    (hy : (node ks l c0 c1 c2 c3).child i = node yks yl y0 y1 y2 y3)
    (hm : yks[BTREE_T - 1]? = some m) :
    btree_split_child (node ks l c0 c1 c2 c3) i =
      node (ks.take i ++ m :: ks.drop i) l
        (shifted_slot ((setChild (node ks l c0 c1 c2 c3) i
          (node (yks.take (BTREE_T - 1)) yl y0 y1 (if yl then y2 else null)
            (if yl then y3 else null))).child) ks.length i
          (node ((yks.drop BTREE_T).take (BTREE_T - 1)) yl
            (if yl then null else y2) (if yl then null else y3) null null) 0)
        (shifted_slot ((setChild (node ks l c0 c1 c2 c3) i
          (node (yks.take (BTREE_T - 1)) yl y0 y1 (if yl then y2 else null)
            (if yl then y3 else null))).child) ks.length i
          (node ((yks.drop BTREE_T).take (BTREE_T - 1)) yl
            (if yl then null else y2) (if yl then null else y3) null null) 1)
        (shifted_slot ((setChild (node ks l c0 c1 c2 c3) i
          (node (yks.take (BTREE_T - 1)) yl y0 y1 (if yl then y2 else null)
            (if yl then y3 else null))).child) ks.length i
          (node ((yks.drop BTREE_T).take (BTREE_T - 1)) yl
            (if yl then null else y2) (if yl then null else y3) null null) 2)
        (shifted_slot ((setChild (node ks l c0 c1 c2 c3) i
          (node (yks.take (BTREE_T - 1)) yl y0 y1 (if yl then y2 else null)
            (if yl then y3 else null))).child) ks.length i
          (node ((yks.drop BTREE_T).take (BTREE_T - 1)) yl
            (if yl then null else y2) (if yl then null else y3) null null) 3) := by
  unfold btree_split_child
  rw [hy]
  simp only [hm]

theorem full_node (y : BTreeNode K) (hn : y.n = 3) :
    ∃ yks yl y0 y1 y2 y3 m, y = node yks yl y0 y1 y2 y3 ∧ yks.length = 3 ∧
      yks[BTREE_T - 1]? = some m := by
  cases y with
  | null => exact absurd hn (show ¬ 0 = 3 by decide)
  | node yks yl y0 y1 y2 y3 =>
    rw [n_node] at hn
    rcases yks with _ | ⟨p, _ | ⟨m, _ | ⟨q, _ | ⟨r, t⟩⟩⟩⟩ <;> simp at hn
    exact ⟨[p, m, q], yl, y0, y1, y2, y3, m, rfl, rfl, rfl⟩

theorem split_halves_safe (yks : List (K × Int)) (yl : Bool) (y0 y1 y2 y3 : BTreeNode K)
    (hlen : yks.length = 3) (hs : Safe (node yks yl y0 y1 y2 y3)) :
    Safe (node (yks.take (BTREE_T - 1)) yl y0 y1 (if yl then y2 else null)
        (if yl then y3 else null)) ∧
      Safe (node ((yks.drop BTREE_T).take (BTREE_T - 1)) yl
        (if yl then null else y2) (if yl then null else y3) null null) := by
  obtain ⟨-, hp, h0, h1, h2, h3⟩ := hs
  rcases yks with _ | ⟨p, _ | ⟨m, _ | ⟨q, _ | ⟨r, t⟩⟩⟩⟩ <;> simp at hlen
  cases yl with
  | true =>
    refine ⟨⟨by simp [BTREE_T], fun h => absurd h (by simp), h0, h1, h2, h3⟩,
      ⟨by simp [BTREE_T], fun h => absurd h (by simp), trivial, trivial, trivial, trivial⟩⟩
  | false =>
    have q0 := hp rfl 0 (by simp)
    have q1 := hp rfl 1 (by simp)
    have q2 := hp rfl 2 (by simp)
    have q3 := hp rfl 3 (by simp)
    simp only [child] at q0 q1 q2 q3
    refine ⟨⟨by simp [BTREE_T], ?_, h0, h1, trivial, trivial⟩,
      ⟨by simp [BTREE_T], ?_, h2, h3, trivial, trivial⟩⟩
    · intro _ j hj
      simp only [BTREE_T, List.take, List.length_cons, List.length_nil] at hj
      rcases j with _ | _ | j
      · exact q0
      · exact q1
      · omega
    · intro _ j hj
      simp only [BTREE_T, List.drop, List.take, List.length_cons, List.length_nil] at hj
      rcases j with _ | _ | j
      · exact q2
      · exact q3
      · omega

theorem split_safe (ks : List (K × Int)) (c0 c1 c2 c3 : BTreeNode K) (i : Nat)
    (hs : Safe (node ks false c0 c1 c2 c3)) (hn : ks.length ≤ 2) (hi : i ≤ ks.length)
    (hfull : ((node ks false c0 c1 c2 c3).child i).n = 3) :
    Safe (btree_split_child (node ks false c0 c1 c2 c3) i) ∧
      (btree_split_child (node ks false c0 c1 c2 c3) i).n = ks.length + 1 ∧
      ((btree_split_child (node ks false c0 c1 c2 c3) i).child i).n = 1 ∧
      ((btree_split_child (node ks false c0 c1 c2 c3) i).child (i + 1)).n = 1 := by
  obtain ⟨yks, yl, y0, y1, y2, y3, m, hy, hlen, hm⟩ := full_node _ hfull
  obtain ⟨hy1, hz⟩ := split_halves_safe yks yl y0 y1 y2 y3 hlen (hy ▸ safe_child _ i hs)
  rw [split_child_form ks false c0 c1 c2 c3 i yks yl y0 y1 y2 y3 m hy hm]
  have hi4 : i < 4 := by omega
  have hold : ∀ j, Safe ((setChild (node ks false c0 c1 c2 c3) i
      (node (yks.take (BTREE_T - 1)) yl y0 y1 (if yl then y2 else null)
        (if yl then y3 else null))).child j) :=
    fun j => safe_child _ j (safe_setChild _ _ i hs hy1 (by intro h; cases h))
  have holdn : ∀ j, j ≤ ks.length → (setChild (node ks false c0 c1 c2 c3) i
      (node (yks.take (BTREE_T - 1)) yl y0 y1 (if yl then y2 else null)
        (if yl then y3 else null))).child j ≠ null := by
    intro j hj
    by_cases hji : j = i
    · subst hji
      rw [child_setChild _ _ _ _ _ _ _ _ hi4]
      intro h
      cases h
    · rw [child_setChild_ne _ _ _ _ hji]
      exact hs.2.1 rfl j hj
  have hlen1 : (ks.take i ++ m :: ks.drop i).length = ks.length + 1 := by
    simp only [List.length_append, List.length_take, List.length_cons, List.length_drop]
    omega
  refine ⟨?_, ?_, ?_, ?_⟩
  · refine safe_slots _ _ _ (by omega) ?_ ?_
    · intro j
      exact shifted_slot_cases Safe _ _ _ _ j hold hz
    · intro _ j hj
      rw [hlen1] at hj
      exact shifted_slot_ne_null _ _ _ _ j hi hj holdn (by intro h; cases h)
  · rw [n_node, hlen1]
  · have : i = 0 ∨ i = 1 ∨ i = 2 := by omega
    rcases this with rfl | rfl | rfl <;>
      simp [child, shifted_slot, setChild, n_node, BTREE_T, hlen]
  · have : i = 0 ∨ i = 1 ∨ i = 2 := by omega
    rcases this with rfl | rfl | rfl <;>
      simp [child, shifted_slot, n_node, BTREE_T, hlen]

end

section
variable {K : Type} [LinearOrder K]

theorem safe_n_le (x : BTreeNode K) (h : Safe x) : x.n ≤ 3 := by
  cases x with
  | null => exact Nat.zero_le 3
  | node ks l c0 c1 c2 c3 => exact h.1

theorem child_other_keys (ks ks1 : List (K × Int)) (l l1 : Bool) (c0 c1 c2 c3 : BTreeNode K)
    (j : Nat) : (node ks l c0 c1 c2 c3).child j = (node ks1 l1 c0 c1 c2 c3).child j := by
  rcases j with _ | _ | _ | _ | j <;> rfl

theorem safe_fewer_keys (ks ks1 : List (K × Int)) (l : Bool) (c0 c1 c2 c3 : BTreeNode K)
    (h : Safe (node ks l c0 c1 c2 c3)) (hlen : ks1.length ≤ ks.length) :
    Safe (node ks1 l c0 c1 c2 c3) := by
  obtain ⟨hn, hp, h0, h1, h2, h3⟩ := h
  refine ⟨le_trans hlen hn, ?_, h0, h1, h2, h3⟩
  intro hl j hj
  rw [child_other_keys ks1 ks l l]
  exact hp hl j (le_trans hj hlen)

theorem height_lt_of_children (x : BTreeNode K) (b : Nat)
    (h : ∀ j, (x.child j).height < b) : x.height < b + 1 := by
  cases x with
  | null => simp [height]
  | node ks l c0 c1 c2 c3 =>
    have h0 := h 0
    have h1 := h 1
    have h2 := h 2
    have h3 := h 3
    simp only [child] at h0 h1 h2 h3
    simp only [height]
    omega

theorem insert_nonfull_safe_node (f : Nat) (ks : List (K × Int)) (c0 c1 c2 c3 : BTreeNode K)
    (k : K) :
    insert_nonfull_safe (f + 1) (node ks false c0 c1 c2 c3) k =
      (decide (ks.length < max_keys) &&
        if ((node ks false c0 c1 c2 c3).child (scan_down k ks)).n = max_keys then
          split_guard (node ks false c0 c1 c2 c3) (scan_down k ks) &&
            insert_nonfull_safe f
              ((btree_split_child (node ks false c0 c1 c2 c3) (scan_down k ks)).child
                (if key_below (btree_split_child (node ks false c0 c1 c2 c3)
                    (scan_down k ks)).keys (scan_down k ks) k
                  then scan_down k ks + 1 else scan_down k ks)) k
        else insert_nonfull_safe f ((node ks false c0 c1 c2 c3).child (scan_down k ks)) k) := by
  rw [insert_nonfull_safe]
  simp only [Bool.false_eq_true, if_false]

theorem insert_nonfull_safe_ok (k : K) :
    ∀ (f : Nat) (x : BTreeNode K), Safe x → x ≠ null → x.n < 3 → x.height < f →
      insert_nonfull_safe f x k = true := by
  intro f
  induction f with
  | zero =>
    intro x _ _ _ h
    exact absurd h (Nat.not_lt_zero _)
  | succ f ih =>
    intro x hs hx hn hh
    cases x with
    | null => exact absurd rfl hx
    | node ks l c0 c1 c2 c3 =>
      rw [n_node] at hn
      have hm : max_keys = 3 := rfl
      cases l with
      | true => simp [insert_nonfull_safe, hm, hn]
      | false =>
        rw [insert_nonfull_safe_node]
        have hi := scan_down_le k ks
        have hc := hs.2.1 rfl _ hi
        have hcs := safe_child _ (scan_down k ks) hs
        have hch := height_child ks false c0 c1 c2 c3 (scan_down k ks)
        rw [hm, decide_eq_true hn, Bool.true_and]
        by_cases hfull : ((node ks false c0 c1 c2 c3).child (scan_down k ks)).n = 3
        · rw [if_pos hfull]
          obtain ⟨hs1, hn1, hl, hr⟩ := split_safe ks c0 c1 c2 c3 _ hs (by omega) hi hfull
          have hg : split_guard (node ks false c0 c1 c2 c3) (scan_down k ks) = true := by
            simp [split_guard, n_node, hm, hn, hfull]
          rw [hg, Bool.true_and]
          have hone : ((btree_split_child (node ks false c0 c1 c2 c3) (scan_down k ks)).child
              (if key_below (btree_split_child (node ks false c0 c1 c2 c3)
                  (scan_down k ks)).keys (scan_down k ks) k
                then scan_down k ks + 1 else scan_down k ks)).n = 1 := by
            split
            · exact hr
            · exact hl
          refine ih _ (safe_child _ _ hs1) (n_pos_ne_null _ (by omega)) (by omega) ?_
          have := height_split_child ks false c0 c1 c2 c3 (scan_down k ks)
            (if key_below (btree_split_child (node ks false c0 c1 c2 c3)
                (scan_down k ks)).keys (scan_down k ks) k
              then scan_down k ks + 1 else scan_down k ks)
          omega
        · rw [if_neg hfull]
          have := safe_n_le _ hcs
          exact ih _ hcs hc (by omega) (by omega)

theorem insert_nonfull_keeps_safe (k : K) (v : Int) :
    ∀ (f : Nat) (x : BTreeNode K), Safe x → x ≠ null → x.n < 3 →
      Safe (btree_insert_nonfull f x k v) ∧ btree_insert_nonfull f x k v ≠ null := by
  intro f
  induction f with
  | zero =>
    intro x hs hx _
    exact ⟨hs, hx⟩
  | succ f ih =>
    intro x hs hx hn
    cases x with
    | null => exact absurd rfl hx
    | node ks l c0 c1 c2 c3 =>
      rw [n_node] at hn
      cases l with
      | true =>
        simp only [btree_insert_nonfull, if_true]
        refine ⟨⟨?_, fun h => absurd h (by simp), hs.2.2.1, hs.2.2.2.1, hs.2.2.2.2.1,
          hs.2.2.2.2.2⟩, by intro h; cases h⟩
        rw [leaf_place_length]
        omega
      | false =>
        rw [insert_nonfull_node]
        have hm : max_keys = 3 := rfl
        have hi := scan_down_le k ks
        have hc := hs.2.1 rfl _ hi
        have hcs := safe_child _ (scan_down k ks) hs
        rw [hm]
        by_cases hfull : ((node ks false c0 c1 c2 c3).child (scan_down k ks)).n = 3
        · rw [if_pos hfull]
          obtain ⟨hs1, hn1, hl, hr⟩ := split_safe ks c0 c1 c2 c3 _ hs (by omega) hi hfull
          have hone : ((btree_split_child (node ks false c0 c1 c2 c3) (scan_down k ks)).child
              (if key_below (btree_split_child (node ks false c0 c1 c2 c3)
                  (scan_down k ks)).keys (scan_down k ks) k
                then scan_down k ks + 1 else scan_down k ks)).n = 1 := by
            split
            · exact hr
            · exact hl
          generalize (if key_below (btree_split_child (node ks false c0 c1 c2 c3)
              (scan_down k ks)).keys (scan_down k ks) k
            then scan_down k ks + 1 else scan_down k ks) = i1 at hone ⊢
          have hx1 : btree_split_child (node ks false c0 c1 c2 c3) (scan_down k ks) ≠ null :=
            n_pos_ne_null _ (by omega)
          have hc1 : (btree_split_child (node ks false c0 c1 c2 c3) (scan_down k ks)).child i1 ≠
              null := n_pos_ne_null _ (by omega)
          obtain ⟨r1, r2⟩ := ih _ (safe_child _ i1 hs1) hc1 (by omega)
          exact ⟨safe_setChild _ _ _ hs1 r1 r2, setChild_ne_null _ _ _ hx1⟩
        · rw [if_neg hfull]
          have := safe_n_le _ hcs
          obtain ⟨r1, r2⟩ := ih _ hcs hc (by omega)
          exact ⟨safe_setChild _ _ _ hs r1 r2, setChild_ne_null _ _ _ hx⟩

theorem update_keeps_safe (k : K) (v : Int) :
    ∀ t : BTreeNode K, Safe t →
      Safe (btree_update t k v) ∧ (t ≠ null → btree_update t k v ≠ null) := by
  refine child_induction ?_ ?_
  · intro _
    exact ⟨trivial, fun h => absurd rfl h⟩
  · intro ks l c0 c1 c2 c3 ih hs
    rw [update_node]
    split
    · exact ⟨safe_fewer_keys ks _ l c0 c1 c2 c3 hs (by rw [List.length_modify]),
        fun _ h => by cases h⟩
    · split
      · exact ⟨hs, fun h => h⟩
      · rename_i hl
        have hl1 : l = false := by simpa using hl
        obtain ⟨r1, r2⟩ := ih (scan_up k ks) (safe_child _ _ hs)
        have hc := hs.2.1 hl1 _ (scan_up_le k ks)
        exact ⟨safe_setChild _ _ _ hs r1 (r2 hc),
          fun h => setChild_ne_null _ _ _ h⟩

theorem delete_keeps_safe (k : K) :
    ∀ t : BTreeNode K, Safe t →
      Safe (btree_delete t k) ∧ (t ≠ null → btree_delete t k ≠ null) := by
  refine child_induction ?_ ?_
  · intro _
    exact ⟨trivial, fun h => absurd rfl h⟩
  · intro ks l c0 c1 c2 c3 ih hs
    rw [delete_node]
    split
    · refine ⟨safe_fewer_keys ks _ l c0 c1 c2 c3 hs ?_, fun _ h => by cases h⟩
      rw [List.length_eraseIdx]
      split <;> omega
    · split
      · exact ⟨hs, fun h => h⟩
      · rename_i hl
        have hl1 : l = false := by simpa using hl
        obtain ⟨r1, r2⟩ := ih (scan_up k ks) (safe_child _ _ hs)
        have hc := hs.2.1 hl1 _ (scan_up_le k ks)
        exact ⟨safe_setChild _ _ _ hs r1 (r2 hc),
          fun h => setChild_ne_null _ _ _ h⟩

theorem new_root_safe (r : BTreeNode K) (hs : Safe r) (hr : r ≠ null) (hfull : r.n = 3) :
    Safe (btree_split_child (node [] false r null null null) 0) ∧
      (btree_split_child (node [] false r null null null) 0).n = 1 ∧
      (btree_split_child (node [] false r null null null) 0).height < r.height + 2 := by
  have hs0 : Safe (node ([] : List (K × Int)) false r null null null) := by
    refine ⟨by simp, ?_, hs, trivial, trivial, trivial⟩
    intro _ j hj
    have : j = 0 := by simpa using hj
    subst this
    exact hr
  obtain ⟨hs1, hn1, -, -⟩ := split_safe [] r null null null 0 hs0 (by simp) (by simp) hfull
  refine ⟨hs1, by simpa using hn1, ?_⟩
  have hh : (node ([] : List (K × Int)) false r null null null).height = r.height + 1 := by
    simp only [height]
    omega
  have := height_lt_of_children _ (r.height + 1)
    (fun j => hh ▸ height_split_child [] false r null null null 0 j)
  omega

theorem insert_keeps_safe (r : BTreeNode K) (k : K) (v : Int) (hs : Safe r) (hr : r ≠ null) :
    Safe (btree_insert r k v) ∧ btree_insert r k v ≠ null := by
  unfold btree_insert
  have hm : max_keys = 3 := rfl
  rw [hm]
  by_cases h1 : btree_search r k ≠ -1
  · rw [if_pos h1]
    exact ⟨(update_keeps_safe k v r hs).1, (update_keeps_safe k v r hs).2 hr⟩
  · rw [if_neg h1]
    by_cases hfull : r.n = 3
    · rw [if_pos hfull]
      obtain ⟨hs1, hn1, -⟩ := new_root_safe r hs hr hfull
      exact insert_nonfull_keeps_safe k v _ _ hs1 (n_pos_ne_null _ (by omega)) (by omega)
    · rw [if_neg hfull]
      have := safe_n_le r hs
      exact insert_nonfull_keeps_safe k v _ _ hs hr (by omega)

theorem insert_safe_ok (r : BTreeNode K) (k : K) (hs : Safe r) (hr : r ≠ null) :
    btree_insert_safe r k = true := by
  unfold btree_insert_safe
  have hm : max_keys = 3 := rfl
  rw [descent_safe k r hs hr, Bool.true_and, hm]
  by_cases h1 : btree_search r k ≠ -1
  · rw [if_pos h1]
  · rw [if_neg h1]
    by_cases hfull : r.n = 3
    · rw [if_pos hfull]
      obtain ⟨hs1, hn1, hh⟩ := new_root_safe r hs hr hfull
      have hg : split_guard (node ([] : List (K × Int)) false r null null null) 0 = true := by
        simp [split_guard, n_node, hm, child, hfull]
      rw [hg, Bool.true_and]
      exact insert_nonfull_safe_ok k _ _ hs1 (n_pos_ne_null _ (by omega)) (by omega) hh
    · rw [if_neg hfull]
      have := safe_n_le r hs
      exact insert_nonfull_safe_ok k _ _ hs hr (by omega) (by omega)

end

/-! ## Codec: the dictionary of the compressor step by step -/

theorem dict_find_from_none (i : Nat) (D : List DictEntry) (p : Nat) (ch : Byte)
    (h : dict_find_from i D p ch = none) : (⟨p, ch⟩ : DictEntry) ∉ D := by
  induction D generalizing i with
  | nil => simp
  | cons e es ih =>
    simp only [dict_find_from] at h
    split at h
    · simp at h
    · rename_i he
      intro hm
      rcases List.mem_cons.mp hm with h1 | h1
      · apply he
        rw [← h1]
        exact ⟨rfl, rfl⟩
      · exact ih (i + 1) h h1

theorem dict_find_slot (D : List DictEntry) (p : Nat) (ch : Byte) (c : Nat)
    (h : dict_find D p ch = some c) : 256 ≤ c ∧ D[c - 256]? = some ⟨p, ch⟩ := by
  obtain ⟨D0, D1, h1, h2⟩ := dict_find_from_spec 256 D p ch c h
  subst h1 h2
  refine ⟨Nat.le_add_right _ _, ?_⟩
  rw [Nat.add_sub_cancel_left, List.getElem?_append_right (le_refl _)]
  simp

theorem nodup_slot_unique (D : List DictEntry) (hn : D.Nodup) (e : DictEntry) (i j : Nat)
    (hi : D[i]? = some e) (hj : D[j]? = some e) : i = j := by
  obtain ⟨hi1, hi2⟩ := List.getElem?_eq_some.mp hi
  obtain ⟨hj1, hj2⟩ := List.getElem?_eq_some.mp hj
  exact (List.Nodup.getElem_inj_iff hn).mp (hi2.trans hj2.symm)

theorem dict_find_only (D : List DictEntry) (hn : D.Nodup) (p : Nat) (ch : Byte) (c : Nat)
    (h : dict_find D p ch = some c) :
    256 ≤ c ∧ D[c - 256]? = some ⟨p, ch⟩ ∧ ∀ i, D[i]? = some ⟨p, ch⟩ → c = 256 + i := by
  obtain ⟨h1, h2⟩ := dict_find_slot D p ch c h
  refine ⟨h1, h2, ?_⟩
  intro i hi
  have := nodup_slot_unique D hn _ _ _ h2 hi
  omega

theorem pairLookup_dict_find : PairLookup dict_find := by
  intro D p ch
  exact ⟨fun c h => dict_find_slot D p ch c h, fun h => dict_find_from_none 256 D p ch h⟩

theorem lookup_agrees (find : List DictEntry → Nat → Byte → Option Nat)
    (hfind : PairLookup find) (D : List DictEntry) (hn : D.Nodup) (p : Nat) (ch : Byte) :
    find D p ch = dict_find D p ch := by
  obtain ⟨f1, f2⟩ := hfind D p ch
  cases hd : dict_find D p ch with
  | none =>
    have hno := dict_find_from_none 256 D p ch hd
    cases hf : find D p ch with
    | none => rfl
    | some c =>
      exact absurd (List.getElem?_mem (f1 c hf).2) hno
  | some c =>
    obtain ⟨h1, h2, h3⟩ := dict_find_only D hn p ch c hd
    cases hf : find D p ch with
    | none => exact absurd (List.getElem?_mem h2) (f2 hf)
    | some c1 =>
      obtain ⟨g1, g2⟩ := f1 c1 hf
      have := h3 _ g2
      congr 1
      omega

theorem nodup_after_miss (D : List DictEntry) (hn : D.Nodup) (p : Nat) (ch : Byte)
    (h : dict_find D p ch = none) :
    (if 256 + D.length < 65536 then D ++ [⟨p, ch⟩] else D).Nodup := by
  split
  · refine List.Nodup.append hn (List.nodup_singleton _) ?_
    intro a ha hb
    rw [List.mem_singleton] at hb
    subst hb
    exact dict_find_from_none 256 D p ch h ha
  · exact hn

theorem scan_with_eq (find : List DictEntry → Nat → Byte → Option Nat)
    (hfind : PairLookup find) (rest : List Byte) :
    ∀ (D : List DictEntry) (p : Nat), D.Nodup →
      compress_scan_with find D p rest = compress_scan D p rest := by
  induction rest with
  | nil => intro D p _; rfl
  | cons ch rest ih =>
    intro D p hn
    rw [compress_scan_with, compress_scan, lookup_agrees find hfind D hn p ch]
    cases hd : dict_find D p ch with
    | none =>
      simp only
      rw [ih _ _ (nodup_after_miss D hn p ch hd)]
    | some c =>
      simp only
      exact ih _ _ hn

theorem codes_with_eq (find : List DictEntry → Nat → Byte → Option Nat)
    (hfind : PairLookup find) (input : List Byte) :
    lzw_codes_with find input = lzw_codes input := by
  cases input with
  | nil => rfl
  | cons ch rest => exact scan_with_eq find hfind rest [] ch.val List.nodup_nil

theorem step_cases (s : CompressState) (ch : Byte) :
    (s.has_pfx = false ∧ compress_step s ch = { s with pfx := ch.val, has_pfx := true }) ∨
      (s.has_pfx = true ∧ ∃ c, dict_find s.dict s.pfx ch = some c ∧
        compress_step s ch = { s with pfx := c % 65536 }) ∨
      (s.has_pfx = true ∧ dict_find s.dict s.pfx ch = none ∧
        compress_step s ch =
          { push_code s s.pfx with
            dict := if 256 + s.dict.length < 65536 then s.dict ++ [⟨s.pfx, ch⟩] else s.dict,
            pfx := ch.val }) := by
  unfold compress_step
  cases hp : s.has_pfx with
  | false => exact Or.inl ⟨rfl, by simp⟩
  | true =>
    cases hd : dict_find s.dict s.pfx ch with
    | none => exact Or.inr (Or.inr ⟨rfl, rfl, by simp⟩)
    | some c => exact Or.inr (Or.inl ⟨rfl, c, rfl, by simp⟩)

theorem step_dict (s : CompressState) (ch : Byte) (hn : s.dict.Nodup)
    (hl : s.dict.length = min s.codes.length 65280) :
    (compress_step s ch).dict.Nodup ∧
      (compress_step s ch).dict.length = min (compress_step s ch).codes.length 65280 ∧
      (compress_step s ch).has_pfx = true := by
  rcases step_cases s ch with ⟨h1, h2⟩ | ⟨h1, c, h2, h3⟩ | ⟨h1, h2, h3⟩
  · rw [h2]
    exact ⟨hn, hl, rfl⟩
  · rw [h3]
    exact ⟨hn, hl, h1⟩
  · rw [h3]
    refine ⟨nodup_after_miss _ hn _ _ h2, ?_, h1⟩
    simp only [push_code, List.length_append, List.length_singleton]
    split
    · rw [List.length_append, List.length_singleton]
      omega
    · omega

theorem fold_dict (l : List Byte) :
    ∀ s : CompressState, s.dict.Nodup → s.dict.length = min s.codes.length 65280 →
      (l.foldl compress_step s).dict.Nodup ∧
        (l.foldl compress_step s).dict.length =
          min (l.foldl compress_step s).codes.length 65280 := by
  induction l with
  | nil => intro s hn hl; exact ⟨hn, hl⟩
  | cons ch l ih =>
    intro s hn hl
    rw [List.foldl_cons]
    exact ih _ (step_dict s ch hn hl).1 (step_dict s ch hn hl).2.1

theorem after_dict (input : List Byte) (j : Nat) :
    (compress_after input j).dict.Nodup ∧
      (compress_after input j).dict.length = min (compress_after input j).codes.length 65280 :=
  fold_dict _ _ List.nodup_nil rfl

theorem after_succ (input : List Byte) (j : Nat) (ch : Byte) (h : input[j]? = some ch) :
    compress_after input (j + 1) = compress_step (compress_after input j) ch := by
  unfold compress_after
  rw [List.take_succ, h, List.foldl_append]
  rfl

theorem after_past (input : List Byte) (j : Nat) (h : input.length ≤ j) :
    compress_after input (j + 1) = compress_after input j := by
  unfold compress_after
  rw [List.take_of_length_le h, List.take_of_length_le (Nat.le_succ_of_le h)]

theorem after_has_pfx (input : List Byte) (j : Nat) (hj : 0 < j) (hn : 0 < input.length) :
    (compress_after input j).has_pfx = true := by
  obtain ⟨j, rfl⟩ : ∃ i, j = i + 1 := ⟨j - 1, by omega⟩
  induction j with
  | zero =>
    cases input with
    | nil => simp at hn
    | cons ch rest =>
      rw [after_succ _ 0 ch (by simp)]
      exact (step_dict _ ch (after_dict _ 0).1 (after_dict _ 0).2).2.2
  | succ j ih =>
    by_cases h : j + 1 < input.length
    · rw [after_succ _ (j + 1) (input.get ⟨j + 1, h⟩) (List.getElem?_eq_getElem h)]
      exact (step_dict _ _ (after_dict _ _).1 (after_dict _ _).2).2.2
    · rw [after_past _ _ (by omega)]
      exact ih (by omega)

theorem step_extends (s : CompressState) (ch : Byte) :
    ∃ t, (compress_step s ch).dict = s.dict ++ t ∧
      (256 + s.dict.length = 65536 → t = []) := by
  rcases step_cases s ch with ⟨h1, h2⟩ | ⟨h1, c, h2, h3⟩ | ⟨h1, h2, h3⟩
  · rw [h2]
    exact ⟨[], by simp, fun _ => rfl⟩
  · rw [h3]
    exact ⟨[], by simp, fun _ => rfl⟩
  · rw [h3]
    by_cases hlt : 256 + s.dict.length < 65536
    · refine ⟨[⟨s.pfx, ch⟩], by simp [push_code, hlt], ?_⟩
      intro hf
      omega
    · exact ⟨[], by simp [push_code, hlt], fun _ => rfl⟩

theorem after_extends (input : List Byte) (j d : Nat) :
    ∃ t, (compress_after input (j + d)).dict = (compress_after input j).dict ++ t ∧
      (256 + (compress_after input j).dict.length = 65536 → t = []) := by
  induction d with
  | zero => exact ⟨[], by simp, fun _ => rfl⟩
  | succ d ih =>
    obtain ⟨t, h1, h2⟩ := ih
    by_cases h : j + d < input.length
    · rw [← Nat.add_assoc,
        after_succ _ (j + d) (input.get ⟨j + d, h⟩) (List.getElem?_eq_getElem h)]
      obtain ⟨t1, g1, g2⟩ := step_extends (compress_after input (j + d))
        (input.get ⟨j + d, h⟩)
      refine ⟨t ++ t1, by rw [g1, h1, List.append_assoc], ?_⟩
      intro hf
      have ht := h2 hf
      subst ht
      rw [List.append_nil] at h1
      rw [g2 (by rw [h1]; exact hf)]
      rfl
    · rw [← Nat.add_assoc, after_past _ _ (by omega)]
      exact ⟨t, h1, h2⟩

theorem find_last_slot (D : List DictEntry) (p : Nat) (ch : Byte) :
    ∀ (i c : Nat), dict_find_last_from i D p ch = some c →
      i ≤ c ∧ D[c - i]? = some ⟨p, ch⟩ := by
  induction D with
  | nil => intro i c h; simp [dict_find_last_from] at h
  | cons e es ih =>
    intro i c h
    simp only [dict_find_last_from] at h
    cases hr : dict_find_last_from (i + 1) es p ch with
    | some c1 =>
      rw [hr] at h
      simp only [Option.some.injEq] at h
      subst h
      obtain ⟨h1, h2⟩ := ih (i + 1) c1 hr
      refine ⟨by omega, ?_⟩
      obtain ⟨d, hd⟩ : ∃ d, c1 - i = d + 1 := ⟨c1 - i - 1, by omega⟩
      rw [hd, List.getElem?_cons_succ]
      have : c1 - (i + 1) = d := by omega
      rw [← this]
      exact h2
    | none =>
      rw [hr] at h
      simp only at h
      split at h
      · rename_i he
        simp only [Option.some.injEq] at h
        subst h
        refine ⟨le_refl _, ?_⟩
        rw [Nat.sub_self, List.getElem?_cons_zero]
        obtain ⟨h1, h2⟩ := he
        cases e
        simp_all
      · simp at h

theorem find_last_none (D : List DictEntry) (p : Nat) (ch : Byte) :
    ∀ i : Nat, dict_find_last_from i D p ch = none → (⟨p, ch⟩ : DictEntry) ∉ D := by
  induction D with
  | nil => intro i _; simp
  | cons e es ih =>
    intro i h
    simp only [dict_find_last_from] at h
    cases hr : dict_find_last_from (i + 1) es p ch with
    | some c1 =>
      rw [hr] at h
      simp at h
    | none =>
      rw [hr] at h
      simp only at h
      split at h
      · simp at h
      · rename_i he
        intro hm
        rcases List.mem_cons.mp hm with h1 | h1
        · apply he
          rw [← h1]
          exact ⟨rfl, rfl⟩
        · exact ih (i + 1) hr h1

theorem pairLookup_find_last : PairLookup dict_find_last := by
  intro D p ch
  exact ⟨fun c h => find_last_slot D p ch 256 c h, fun h => find_last_none D p ch 256 h⟩

theorem compress_scan_pos (rest : List Byte) :
    ∀ (D : List DictEntry) (p : Nat), 1 ≤ (compress_scan D p rest).length := by
  induction rest with
  | nil => intro D p; simp [compress_scan]
  | cons ch rest ih =>
    intro D p
    rw [compress_scan]
    split
    · exact ih _ _
    · simp

theorem fold_codes (rest : List Byte) :
    ∀ s : CompressState, s.has_pfx = true →
      (compress_flush (rest.foldl compress_step s)).codes =
        s.codes ++ compress_scan s.dict s.pfx rest := by
  induction rest with
  | nil =>
    intro s hp
    simp [compress_flush, hp, push_code, compress_scan]
  | cons ch rest ih =>
    intro s hp
    rw [List.foldl_cons, compress_scan]
    rcases step_cases s ch with ⟨h1, h2⟩ | ⟨h1, c, h2, h3⟩ | ⟨h1, h2, h3⟩
    · rw [hp] at h1
      cases h1
    · rw [h3, h2]
      exact ih _ hp
    · rw [h3, h2]
      have := ih { push_code s s.pfx with
        dict := if 256 + s.dict.length < 65536 then s.dict ++ [⟨s.pfx, ch⟩] else s.dict,
        pfx := ch.val } hp
      rw [this]
      simp [push_code]

theorem flush_codes (input : List Byte) :
    (compress_flush (compress_after input input.length)).codes = lzw_codes input := by
  unfold compress_after
  rw [List.take_length]
  cases input with
  | nil => rfl
  | cons ch rest =>
    rw [List.foldl_cons]
    have h := fold_codes rest
      (compress_step (compress_init (ch :: rest).length) ch) rfl
    rw [h]
    rfl

theorem step_cap (N : Nat) (s : CompressState) (ch : Byte) (k : Nat)
    (hk : s.codes.length + (if s.has_pfx then 1 else 0) ≤ k) (hc : s.codes_cap = N)
    (hN : k < N) :
    (compress_step s ch).codes.length + (if (compress_step s ch).has_pfx then 1 else 0) ≤
        k + 1 ∧ (compress_step s ch).codes_cap = N := by
  rcases step_cases s ch with ⟨h1, h2⟩ | ⟨h1, c, h2, h3⟩ | ⟨h1, h2, h3⟩
  · rw [h2]
    rw [h1] at hk
    simp only [Bool.false_eq_true, if_false, if_true] at hk ⊢
    exact ⟨by omega, hc⟩
  · rw [h3]
    simp only [h1, if_true] at hk ⊢
    exact ⟨by omega, hc⟩
  · rw [h3]
    simp only [h1, if_true] at hk
    simp only [push_code, h1, if_true, List.length_append, List.length_singleton]
    have : ¬ s.codes_cap ≤ s.codes.length := by omega
    rw [if_neg this]
    exact ⟨by omega, hc⟩

theorem fold_cap (N : Nat) (l : List Byte) :
    ∀ (s : CompressState) (k : Nat),
      s.codes.length + (if s.has_pfx then 1 else 0) ≤ k → s.codes_cap = N →
      k + l.length ≤ N →
      (l.foldl compress_step s).codes.length +
          (if (l.foldl compress_step s).has_pfx then 1 else 0) ≤ k + l.length ∧
        (l.foldl compress_step s).codes_cap = N := by
  induction l with
  | nil => intro s k hk hc _; exact ⟨hk, hc⟩
  | cons ch l ih =>
    intro s k hk hc hN
    rw [List.foldl_cons, List.length_cons]
    rw [List.length_cons] at hN
    obtain ⟨h1, h2⟩ := step_cap N s ch k hk hc (by omega)
    have := ih _ (k + 1) h1 h2 (by omega)
    have e : k + (l.length + 1) = k + 1 + l.length := by omega
    rw [e]
    exact this

theorem after_cap (input : List Byte) (hsize : input.length + 16 < 2 ^ 64) (j : Nat) :
    (compress_after input j).codes.length +
        (if (compress_after input j).has_pfx then 1 else 0) ≤ input.length ∧
      (compress_after input j).codes.length < (compress_after input j).codes_cap ∧
      (compress_after input j).codes_cap = input.length + 16 := by
  have hinit : (compress_init input.length).codes_cap = input.length + 16 :=
    Nat.mod_eq_of_lt hsize
  have hlen : (input.take j).length ≤ input.length := by
    rw [List.length_take]
    exact Nat.min_le_right _ _
  obtain ⟨h1, h2⟩ := fold_cap (input.length + 16) (input.take j) (compress_init input.length) 0
    (by simp [compress_init]) hinit (by omega)
  unfold compress_after
  refine ⟨by omega, by omega, h2⟩

theorem flush_cap (input : List Byte) (hsize : input.length + 16 < 2 ^ 64) :
    (compress_flush (compress_after input input.length)).codes_cap = input.length + 16 := by
  obtain ⟨h1, h2, h3⟩ := after_cap input hsize input.length
  unfold compress_flush
  split
  · simp only [push_code]
    rw [if_neg (by omega)]
    exact h3
  · exact h3

theorem codes_bounds (input : List Byte) :
    (lzw_codes input).length ≤ input.length ∧
      (input.length = 0 → (lzw_codes input).length = 0) ∧
      (0 < input.length → 1 ≤ (lzw_codes input).length) ∧
      (lzw_compress input).length ≤ 12 + 2 * input.length := by
  have h1 := lzw_codes_length_le input
  refine ⟨h1, fun h => by omega, ?_, ?_⟩
  · intro h
    cases input with
    | nil => simp at h
    | cons ch rest => exact compress_scan_pos rest [] ch.val
  · rw [lzw_compress_length]
    omega

theorem dict_find_from_append (D : List DictEntry) (p : Nat) (ch : Byte) :
    ∀ i : Nat, dict_find_from i D p ch = none →
      dict_find_from i (D ++ [⟨p, ch⟩]) p ch = some (i + D.length) := by
  induction D with
  | nil => intro i _; simp [dict_find_from]
  | cons e es ih =>
    intro i h
    simp only [dict_find_from] at h
    rw [List.cons_append]
    simp only [dict_find_from]
    split at h
    · simp at h
    · rename_i he
      rw [if_neg he, ih (i + 1) h, List.length_cons]
      congr 1
      omega

theorem step_emits (input : List Byte) (j : Nat) (ch : Byte) (hch : input[j]? = some ch) :
    ((compress_after input (j + 1)).codes = (compress_after input j).codes ∧
        (compress_after input (j + 1)).dict = (compress_after input j).dict) ∨
      ((compress_after input (j + 1)).codes =
          (compress_after input j).codes ++ [(compress_after input j).pfx] ∧
        (255 + (compress_after input (j + 1)).codes.length < 65536 →
          (compress_after input (j + 1)).dict =
              (compress_after input j).dict ++ [⟨(compress_after input j).pfx, ch⟩] ∧
            (compress_after input (j + 1)).dict[
                255 + (compress_after input (j + 1)).codes.length - 256]? =
              some ⟨(compress_after input j).pfx, ch⟩ ∧
            dict_find (compress_after input (j + 1)).dict (compress_after input j).pfx ch =
              some (255 + (compress_after input (j + 1)).codes.length)) ∧
        (¬ 255 + (compress_after input (j + 1)).codes.length < 65536 →
          (compress_after input (j + 1)).dict = (compress_after input j).dict)) := by
  obtain ⟨-, hl⟩ := after_dict input j
  rw [after_succ input j ch hch]
  generalize compress_after input j = s at hl ⊢
  rcases step_cases s ch with ⟨h1, h2⟩ | ⟨h1, c, h2, h3⟩ | ⟨h1, h2, h3⟩
  · rw [h2]
    exact Or.inl ⟨rfl, rfl⟩
  · rw [h3]
    exact Or.inl ⟨rfl, rfl⟩
  · rw [h3]
    refine Or.inr ⟨rfl, ?_, ?_⟩
    · simp only [push_code, List.length_append, List.length_singleton]
      intro hlt
      have h4 : 256 + s.dict.length < 65536 := by omega
      have h5 : s.dict.length = s.codes.length := by omega
      rw [if_pos h4]
      refine ⟨rfl, ?_, ?_⟩
      · have h6 : 255 + (s.codes.length + 1) - 256 = s.dict.length := by omega
        rw [h6, List.getElem?_append_right (le_refl _)]
        simp
      · unfold dict_find at h2 ⊢
        rw [dict_find_from_append _ _ _ 256 h2]
        congr 1
        omega
    · simp only [push_code, List.length_append, List.length_singleton]
      intro hlt
      have h4 : ¬ 256 + s.dict.length < 65536 := by omega
      rw [if_neg h4]

theorem dict_pairs_unique (input : List Byte) (j : Nat)
    (find : List DictEntry → Nat → Byte → Option Nat) (hfind : PairLookup find) :
    (∀ (a b : Nat) (ea eb : DictEntry), (compress_after input j).dict[a]? = some ea →
        (compress_after input j).dict[b]? = some eb →
        ea.pfx = eb.pfx → ea.character = eb.character → a = b) ∧
      (∀ p ch c, dict_find (compress_after input j).dict p ch = some c →
        256 ≤ c ∧ (compress_after input j).dict[c - 256]? = some ⟨p, ch⟩ ∧
          ∀ i, (compress_after input j).dict[i]? = some ⟨p, ch⟩ → c = 256 + i) ∧
      (∀ p ch, dict_find (compress_after input j).dict p ch = none →
        (⟨p, ch⟩ : DictEntry) ∉ (compress_after input j).dict) ∧
      lzw_codes_with find input = lzw_codes input ∧
      (compress_flush (compress_after input input.length)).codes = lzw_codes input := by
  obtain ⟨hn, -⟩ := after_dict input j
  refine ⟨?_, fun p ch c h => dict_find_only _ hn p ch c h,
    fun p ch h => dict_find_from_none 256 _ p ch h, codes_with_eq find hfind input,
    flush_codes input⟩
  intro a b ea eb ha hb h1 h2
  have : ea = eb := by
    cases ea
    cases eb
    simp_all
  subst this
  exact nodup_slot_unique _ hn ea a b ha hb

/-- C22: after any number `j` of iterations of the loop of `lzw_compress`, on any
input, no two slots of the dictionary from 256 on hold the same pair (prefix,
character); so the code that `dict_find` returns is the only one whose slot
holds the pair, `dict_find` returns -1 only when no slot holds it, and with any
lookup keyed by the pair in place of `dict_find` the code stream is the same. -/
theorem lzw_dictionary_pairs_unique (input : List Byte) (j : Nat)
    (find : List DictEntry → Nat → Byte → Option Nat) (hfind : PairLookup find) :
    (∀ (a b : Nat) (ea eb : DictEntry), (compress_after input j).dict[a]? = some ea →
        (compress_after input j).dict[b]? = some eb →
        ea.pfx = eb.pfx → ea.character = eb.character → a = b) ∧
      (∀ p ch c, dict_find (compress_after input j).dict p ch = some c →
        256 ≤ c ∧ (compress_after input j).dict[c - 256]? = some ⟨p, ch⟩ ∧
          ∀ i, (compress_after input j).dict[i]? = some ⟨p, ch⟩ → c = 256 + i) ∧
      (∀ p ch, dict_find (compress_after input j).dict p ch = none →
        (⟨p, ch⟩ : DictEntry) ∉ (compress_after input j).dict) ∧
      lzw_codes_with find input = lzw_codes input ∧
      (compress_flush (compress_after input input.length)).codes = lzw_codes input :=
  dict_pairs_unique input j find hfind

theorem lzw_dictionary_pairs_unique_witness :
    PairLookup dict_find_last ∧ lzw_codes_with dict_find_last ab_ten = lzw_codes ab_ten ∧
      (compress_flush (compress_after ab_ten ab_ten.length)).codes = lzw_codes ab_ten :=
  ⟨pairLookup_find_last,
    (lzw_dictionary_pairs_unique ab_ten 7 dict_find_last pairLookup_find_last).2.2.2.1,
    (lzw_dictionary_pairs_unique ab_ten 7 dict_find_last pairLookup_find_last).2.2.2.2⟩

theorem codes_in_sequence (input : List Byte) (j : Nat) (ch : Byte)
    (hch : input[j]? = some ch) :
    (((compress_after input (j + 1)).codes = (compress_after input j).codes ∧
        (compress_after input (j + 1)).dict = (compress_after input j).dict) ∨
      ((compress_after input (j + 1)).codes =
          (compress_after input j).codes ++ [(compress_after input j).pfx] ∧
        (255 + (compress_after input (j + 1)).codes.length < 65536 →
          (compress_after input (j + 1)).dict =
              (compress_after input j).dict ++ [⟨(compress_after input j).pfx, ch⟩] ∧
            (compress_after input (j + 1)).dict[
                255 + (compress_after input (j + 1)).codes.length - 256]? =
              some ⟨(compress_after input j).pfx, ch⟩ ∧
            dict_find (compress_after input (j + 1)).dict (compress_after input j).pfx ch =
              some (255 + (compress_after input (j + 1)).codes.length)) ∧
        (¬ 255 + (compress_after input (j + 1)).codes.length < 65536 →
          (compress_after input (j + 1)).dict = (compress_after input j).dict))) ∧
      (∀ i, 256 + (compress_after input i).dict.length ≤ 65536) ∧
      (∀ d, ∃ t, (compress_after input (j + d)).dict = (compress_after input j).dict ++ t ∧
        (256 + (compress_after input j).dict.length = 65536 → t = [])) ∧
      (compress_flush (compress_after input input.length)).codes = lzw_codes input ∧
      decode_codes [] none (lzw_codes input) = some input := by
  refine ⟨step_emits input j ch hch, ?_, after_extends input j, flush_codes input,
    decode_lzw_codes input⟩
  intro i
  have := (after_dict input i).2
  omega

/-- C23: the iteration of the loop of `lzw_compress` on the byte `ch = input[j]`
either emits nothing and leaves the dictionary as it is, or emits `prefix` as the
code number `k` of the scan; then, when `255 + k < 65536`, the pair (`prefix`,
`ch`) enters the dictionary as its last slot, which is the slot of the code
`255 + k`, the code that `dict_find` then returns for the pair, and otherwise the
dictionary stays as it is.  At every point the
dictionary holds at most 65536 codes; later iterations only append to it, and
append nothing once it holds 65536; the loop and the flush give the code stream of
`lzw_codes`, which decodes to the whole input. -/
theorem lzw_codes_assigned_in_sequence (input : List Byte) (j : Nat) (ch : Byte)
    (hch : input[j]? = some ch) :
    (((compress_after input (j + 1)).codes = (compress_after input j).codes ∧
        (compress_after input (j + 1)).dict = (compress_after input j).dict) ∨
      ((compress_after input (j + 1)).codes =
          (compress_after input j).codes ++ [(compress_after input j).pfx] ∧
        (255 + (compress_after input (j + 1)).codes.length < 65536 →
          (compress_after input (j + 1)).dict =
              (compress_after input j).dict ++ [⟨(compress_after input j).pfx, ch⟩] ∧
            (compress_after input (j + 1)).dict[
                255 + (compress_after input (j + 1)).codes.length - 256]? =
              some ⟨(compress_after input j).pfx, ch⟩ ∧
            dict_find (compress_after input (j + 1)).dict (compress_after input j).pfx ch =
              some (255 + (compress_after input (j + 1)).codes.length)) ∧
        (¬ 255 + (compress_after input (j + 1)).codes.length < 65536 →
          (compress_after input (j + 1)).dict = (compress_after input j).dict))) ∧
      (∀ i, 256 + (compress_after input i).dict.length ≤ 65536) ∧
      (∀ d, ∃ t, (compress_after input (j + d)).dict = (compress_after input j).dict ++ t ∧
        (256 + (compress_after input j).dict.length = 65536 → t = [])) ∧
      (compress_flush (compress_after input input.length)).codes = lzw_codes input ∧
      decode_codes [] none (lzw_codes input) = some input :=
  codes_in_sequence input j ch hch

theorem lzw_codes_assigned_in_sequence_witness :
    ab_ten[4]? = some 97 ∧
      (compress_after ab_ten 4).codes = [97, 98] ∧ (compress_after ab_ten 4).pfx = 256 ∧
      (compress_after ab_ten 5).codes = [97, 98, 256] ∧
      (compress_after ab_ten 5).dict[255 + 3 - 256]? = some ⟨256, 97⟩ ∧
      (∀ i, 256 + (compress_after ab_ten i).dict.length ≤ 65536) ∧
      decode_codes [] none (lzw_codes ab_ten) = some ab_ten :=
  ⟨by decide, by decide, by decide, by decide, by decide,
    (lzw_codes_assigned_in_sequence ab_ten 4 97 (by decide)).2.1,
    (lzw_codes_assigned_in_sequence ab_ten 4 97 (by decide)).2.2.2.2⟩

theorem codes_buffer_bound (input : List Byte) (hsize : input.length + 16 < 2 ^ 64) :
    (lzw_codes input).length ≤ input.length ∧
      (input.length = 0 → (lzw_codes input).length = 0) ∧
      (0 < input.length → 1 ≤ (lzw_codes input).length) ∧
      (∀ j, (compress_after input j).codes.length < (compress_after input j).codes_cap ∧
        (compress_after input j).codes_cap = input.length + 16) ∧
      (compress_flush (compress_after input input.length)).codes = lzw_codes input ∧
      (compress_flush (compress_after input input.length)).codes_cap = input.length + 16 ∧
      (lzw_compress input).length ≤ 12 + 2 * input.length := by
  obtain ⟨h1, h2, h3, h4⟩ := codes_bounds input
  exact ⟨h1, h2, h3, fun j => (after_cap input hsize j).2, flush_codes input,
    flush_cap input hsize, h4⟩

/-- C24: for an input of `n` bytes (with `n + 16` a `size_t`), `lzw_compress`
emits at most `n` codes, none when `n = 0` and at least one when `n > 0`; before
every write to `codes` the number of codes is below `codes_cap`, which stays
`n + 16` from the allocation to the last write (the doubling never runs); and
the output is at most `12 + 2 * n` bytes long. -/
theorem lzw_compress_codes_bound (input : List Byte) (hsize : input.length + 16 < 2 ^ 64) :
    (lzw_codes input).length ≤ input.length ∧
      (input.length = 0 → (lzw_codes input).length = 0) ∧
      (0 < input.length → 1 ≤ (lzw_codes input).length) ∧
      (∀ j, (compress_after input j).codes.length < (compress_after input j).codes_cap ∧
        (compress_after input j).codes_cap = input.length + 16) ∧
      (compress_flush (compress_after input input.length)).codes = lzw_codes input ∧
      (compress_flush (compress_after input input.length)).codes_cap = input.length + 16 ∧
      (lzw_compress input).length ≤ 12 + 2 * input.length :=
  codes_buffer_bound input hsize

theorem lzw_compress_codes_bound_witness :
    ab_ten.length + 16 < 2 ^ 64 ∧ (lzw_codes ab_ten).length ≤ ab_ten.length ∧
      (compress_flush (compress_after ab_ten ab_ten.length)).codes_cap = ab_ten.length + 16 ∧
      (lzw_compress ab_ten).length ≤ 12 + 2 * ab_ten.length :=
  ⟨by decide, (lzw_compress_codes_bound ab_ten (by decide)).1,
    (lzw_compress_codes_bound ab_ten (by decide)).2.2.2.2.2.1,
    (lzw_compress_codes_bound ab_ten (by decide)).2.2.2.2.2.2⟩

/-! ## Index: what `btree_split_child` does to a parent and its full child -/

section
variable {K : Type} [LinearOrder K]

theorem child_slots (f : Nat → BTreeNode K) (ks : List (K × Int)) (l : Bool) (j : Nat)
    (hj : j < 4) : (node ks l (f 0) (f 1) (f 2) (f 3)).child j = f j := by
  rcases j with _ | _ | _ | _ | j
  · rfl
  · rfl
  · rfl
  · rfl
  · omega

theorem split_child_slots (ks : List (K × Int)) (l : Bool) (c0 c1 c2 c3 : BTreeNode K) (i : Nat)
    (yks : List (K × Int)) (yl : Bool) (y0 y1 y2 y3 : BTreeNode K) (m : K × Int)
    (hy : (node ks l c0 c1 c2 c3).child i = node yks yl y0 y1 y2 y3)
    (hm : yks[BTREE_T - 1]? = some m) (j : Nat) (hj : j < 4) :
    (btree_split_child (node ks l c0 c1 c2 c3) i).child j =
      shifted_slot ((setChild (node ks l c0 c1 c2 c3) i
          (node (yks.take (BTREE_T - 1)) yl y0 y1 (if yl then y2 else null)
            (if yl then y3 else null))).child) ks.length i
        (node ((yks.drop BTREE_T).take (BTREE_T - 1)) yl
          (if yl then null else y2) (if yl then null else y3) null null) j := by
  rw [split_child_form ks l c0 c1 c2 c3 i yks yl y0 y1 y2 y3 m hy hm]
  exact child_slots (fun j => shifted_slot ((setChild (node ks l c0 c1 c2 c3) i
      (node (yks.take (BTREE_T - 1)) yl y0 y1 (if yl then y2 else null)
        (if yl then y3 else null))).child) ks.length i
    (node ((yks.drop BTREE_T).take (BTREE_T - 1)) yl
      (if yl then null else y2) (if yl then null else y3) null null) j) _ l j hj

theorem split_child_keys (ks : List (K × Int)) (m : K × Int) (i : Nat) (hi : i ≤ ks.length) :
    (ks.take i ++ m :: ks.drop i)[i]? = some m ∧
      (∀ j, j < i → (ks.take i ++ m :: ks.drop i)[j]? = ks[j]?) ∧
      (∀ j, i ≤ j → (ks.take i ++ m :: ks.drop i)[j + 1]? = ks[j]?) := by
  have hlen : (ks.take i).length = i := by
    rw [List.length_take]
    exact Nat.min_eq_left hi
  refine ⟨?_, ?_, ?_⟩
  · rw [List.getElem?_append_right (by omega), hlen, Nat.sub_self, List.getElem?_cons_zero]
  · intro j hj
    rw [List.getElem?_append_left (by omega), List.getElem?_take_of_lt hj]
  · intro j hj
    rw [List.getElem?_append_right (by omega), hlen]
    have : j + 1 - i = (j - i) + 1 := by omega
    rw [this, List.getElem?_cons_succ, List.getElem?_drop]
    congr 1
    omega

theorem split_child_entries (ks : List (K × Int)) (c0 c1 c2 c3 : BTreeNode K) (i : Nat)
    (p m q : K × Int) (yl : Bool) (y0 y1 y2 y3 : BTreeNode K)
    (hn : ks.length ≤ 2) (hi : i ≤ ks.length)
    (hy : (node ks false c0 c1 c2 c3).child i = node [p, m, q] yl y0 y1 y2 y3) :
    btree_entries (btree_split_child (node ks false c0 c1 c2 c3) i) =
      btree_entries (node ks false c0 c1 c2 c3) := by
  have hi1 : i = 0 ∨ i = 1 ∨ i = 2 := by omega
  rcases ks with _ | ⟨a, _ | ⟨b, _ | ⟨c, t⟩⟩⟩
  · rcases hi1 with rfl | rfl | rfl
    · simp only [child] at hy
      subst hy
      cases yl <;>
        simp [btree_split_child, child, setChild, shifted_slot, BTREE_T, btree_entries,
          interleave]
    · simp at hi
    · simp at hi
  · rcases hi1 with rfl | rfl | rfl
    · simp only [child] at hy
      subst hy
      cases yl <;>
        simp [btree_split_child, child, setChild, shifted_slot, BTREE_T, btree_entries,
          interleave]
    · simp only [child] at hy
      subst hy
      cases yl <;>
        simp [btree_split_child, child, setChild, shifted_slot, BTREE_T, btree_entries,
          interleave]
    · simp at hi
  · rcases hi1 with rfl | rfl | rfl
    · simp only [child] at hy
      subst hy
      cases yl <;>
        simp [btree_split_child, child, setChild, shifted_slot, BTREE_T, btree_entries,
          interleave]
    · simp only [child] at hy
      subst hy
      cases yl <;>
        simp [btree_split_child, child, setChild, shifted_slot, BTREE_T, btree_entries,
          interleave]
    · simp only [child] at hy
      subst hy
      cases yl <;>
        simp [btree_split_child, child, setChild, shifted_slot, BTREE_T, btree_entries,
          interleave]
  · simp at hn

theorem split_child_effect (ks : List (K × Int)) (c0 c1 c2 c3 : BTreeNode K) (i : Nat)
    (p m q : K × Int) (yl : Bool) (y0 y1 y2 y3 : BTreeNode K)
    (hn : ks.length < max_keys) (hi : i ≤ ks.length)
    (hy : (node ks false c0 c1 c2 c3).child i = node [p, m, q] yl y0 y1 y2 y3) :
    (btree_split_child (node ks false c0 c1 c2 c3) i).child i =
        node [p] yl y0 y1 (if yl then y2 else null) (if yl then y3 else null) ∧
      (btree_split_child (node ks false c0 c1 c2 c3) i).child (i + 1) =
        node [q] yl (if yl then null else y2) (if yl then null else y3) null null ∧
      (btree_split_child (node ks false c0 c1 c2 c3) i).keys[i]? = some m ∧
      (btree_split_child (node ks false c0 c1 c2 c3) i).n = ks.length + 1 ∧
      (btree_split_child (node ks false c0 c1 c2 c3) i).leaf = false ∧
      (∀ j, j < i →
        (btree_split_child (node ks false c0 c1 c2 c3) i).keys[j]? = ks[j]?) ∧
      (∀ j, i ≤ j →
        (btree_split_child (node ks false c0 c1 c2 c3) i).keys[j + 1]? = ks[j]?) ∧
      (∀ j, j < i →
        (btree_split_child (node ks false c0 c1 c2 c3) i).child j =
          (node ks false c0 c1 c2 c3).child j) ∧
      (∀ j, i < j → j ≤ ks.length →
        (btree_split_child (node ks false c0 c1 c2 c3) i).child (j + 1) =
          (node ks false c0 c1 c2 c3).child j) ∧
      btree_entries (btree_split_child (node ks false c0 c1 c2 c3) i) =
        btree_entries (node ks false c0 c1 c2 c3) := by
  have hmk : max_keys = 3 := rfl
  rw [hmk] at hn
  have hm : [p, m, q][BTREE_T - 1]? = some m := rfl
  have hslot := split_child_slots ks false c0 c1 c2 c3 i [p, m, q] yl y0 y1 y2 y3 m hy hm
  have hform := split_child_form ks false c0 c1 c2 c3 i [p, m, q] yl y0 y1 y2 y3 m hy hm
  obtain ⟨k1, k2, k3⟩ := split_child_keys ks m i hi
  have hkeys : (btree_split_child (node ks false c0 c1 c2 c3) i).keys =
      ks.take i ++ m :: ks.drop i := by
    rw [hform]
    rfl
  have hlen1 : (ks.take i ++ m :: ks.drop i).length = ks.length + 1 := by
    simp only [List.length_append, List.length_take, List.length_cons, List.length_drop]
    omega
  refine ⟨?_, ?_, ?_, ?_, ?_, ?_, ?_, ?_, ?_, ?_⟩
  · rw [hslot i (by omega)]
    unfold shifted_slot
    rw [if_pos (le_refl i), child_setChild _ _ _ _ _ _ _ _ (by omega)]
    rfl
  · rw [hslot (i + 1) (by omega)]
    unfold shifted_slot
    rw [if_neg (by omega), if_pos rfl]
    rfl
  · rw [hkeys]
    exact k1
  · unfold BTreeNode.n
    rw [hkeys, hlen1]
  · rw [hform]
    rfl
  · intro j hj
    rw [hkeys]
    exact k2 j hj
  · intro j hj
    rw [hkeys]
    exact k3 j hj
  · intro j hj
    rw [hslot j (by omega)]
    unfold shifted_slot
    rw [if_pos (by omega), child_setChild_ne _ _ _ _ (by omega)]
  · intro j hj1 hj2
    rw [hslot (j + 1) (by omega)]
    unfold shifted_slot
    rw [if_neg (by omega), if_neg (by omega), if_pos (by omega), Nat.add_sub_cancel,
      child_setChild_ne _ _ _ _ (by omega)]
  · exact split_child_entries ks c0 c1 c2 c3 i p m q yl y0 y1 y2 y3 (by omega) hi hy

/-- C21: `btree_split_child(x, i, y)` on a parent `x` that is not a leaf and holds
fewer than `2t - 1 = 3` keys, with `y = x->C[i]` holding the three entries `p`,
`m`, `q`: the slot `i` of `x` holds `y` with the entry `p` and its slots 0 and 1
(all its slots when `y` is a leaf), the slot `i + 1` holds a new node with the
entry `q`, the leaf flag of `y` and, when `y` is not a leaf, the slots 2 and 3
of `y`; the entry `m` is at key slot `i` of `x`, which has one more key and is
still not a leaf; the keys of `x` below `i` stay and those from `i` on move up by
one, the slots below `i` stay and those above `i` move up by one; and the
entries of the subtree of `x` in the order of `btree_list` are the same. -/
theorem btree_split_child_effect (ks : List (K × Int)) (c0 c1 c2 c3 : BTreeNode K) (i : Nat)
    (p m q : K × Int) (yl : Bool) (y0 y1 y2 y3 : BTreeNode K)
    (hn : ks.length < max_keys) (hi : i ≤ ks.length)
    (hy : (node ks false c0 c1 c2 c3).child i = node [p, m, q] yl y0 y1 y2 y3) :
    (btree_split_child (node ks false c0 c1 c2 c3) i).child i =
        node [p] yl y0 y1 (if yl then y2 else null) (if yl then y3 else null) ∧
      (btree_split_child (node ks false c0 c1 c2 c3) i).child (i + 1) =
        node [q] yl (if yl then null else y2) (if yl then null else y3) null null ∧
      (btree_split_child (node ks false c0 c1 c2 c3) i).keys[i]? = some m ∧
      (btree_split_child (node ks false c0 c1 c2 c3) i).n = ks.length + 1 ∧
      (btree_split_child (node ks false c0 c1 c2 c3) i).leaf = false ∧
      (∀ j, j < i →
        (btree_split_child (node ks false c0 c1 c2 c3) i).keys[j]? = ks[j]?) ∧
      (∀ j, i ≤ j →
        (btree_split_child (node ks false c0 c1 c2 c3) i).keys[j + 1]? = ks[j]?) ∧
      (∀ j, j < i →
        (btree_split_child (node ks false c0 c1 c2 c3) i).child j =
          (node ks false c0 c1 c2 c3).child j) ∧
      (∀ j, i < j → j ≤ ks.length →
        (btree_split_child (node ks false c0 c1 c2 c3) i).child (j + 1) =
          (node ks false c0 c1 c2 c3).child j) ∧
      btree_entries (btree_split_child (node ks false c0 c1 c2 c3) i) =
        btree_entries (node ks false c0 c1 c2 c3) :=
  split_child_effect ks c0 c1 c2 c3 i p m q yl y0 y1 y2 y3 hn hi hy

end

theorem btree_split_child_effect_witness :
    [((5 : Nat), (50 : Int))].length < max_keys ∧
      btree_split_child (node [((5 : Nat), (50 : Int))] false
          (node [(1, 10), (2, 20), (3, 30)] true null null null null)
          (node [(7, 70)] true null null null null) null null) 0 =
        node [(2, 20), (5, 50)] false (node [(1, 10)] true null null null null)
          (node [(3, 30)] true null null null null)
          (node [(7, 70)] true null null null null) null ∧
      btree_entries (btree_split_child (node [((5 : Nat), (50 : Int))] false
          (node [(1, 10), (2, 20), (3, 30)] true null null null null)
          (node [(7, 70)] true null null null null) null null) 0) =
        btree_entries (node [((5 : Nat), (50 : Int))] false
          (node [(1, 10), (2, 20), (3, 30)] true null null null null)
          (node [(7, 70)] true null null null null) null null) :=
  ⟨by decide, by decide,
    (btree_split_child_effect [((5 : Nat), (50 : Int))]
      (node [(1, 10), (2, 20), (3, 30)] true null null null null)
      (node [(7, 70)] true null null null null) null null 0 (1, 10) (2, 20) (3, 30) true
      null null null null (by decide) (by decide) rfl).2.2.2.2.2.2.2.2.2⟩

/-! ## Index: insertion into a search tree that need not be balanced -/

section
variable {K : Type} [LinearOrder K]

theorem entries_map_keys (f : K × Int → K × Int) (ks : List (K × Int))
    (c0 c1 c2 c3 : BTreeNode K) (hn : ks.length ≤ 3)
    (h : ∀ j, j ≤ ks.length →
      (btree_entries ((node ks false c0 c1 c2 c3).child j)).map f =
        btree_entries ((node ks false c0 c1 c2 c3).child j)) :
    btree_entries (node (ks.map f) false c0 c1 c2 c3) =
      (btree_entries (node ks false c0 c1 c2 c3)).map f := by
  rcases ks with _ | ⟨a, _ | ⟨b, _ | ⟨c, _ | ⟨d, t⟩⟩⟩⟩
  · have h0 := h 0 (by simp)
    simp only [child] at h0
    simp [btree_entries, interleave, h0]
  · have h0 := h 0 (by simp)
    have h1 := h 1 (by simp)
    simp only [child] at h0 h1
    simp [btree_entries, interleave, h0, h1]
  · have h0 := h 0 (by simp)
    have h1 := h 1 (by simp)
    have h2 := h 2 (by simp)
    simp only [child] at h0 h1 h2
    simp [btree_entries, interleave, h0, h1, h2]
  · have h0 := h 0 (by simp)
    have h1 := h 1 (by simp)
    have h2 := h 2 (by simp)
    have h3 := h 3 (by simp)
    simp only [child] at h0 h1 h2 h3
    simp [btree_entries, interleave, h0, h1, h2, h3]
  · simp at hn

/-- On a tree with at most 3 keys in a node and ascending entries, the update
loop of `btree_insert` changes the position stored with the key and no other
entry. -/
theorem update_entries (k : K) (v : Int) :
    ∀ t : BTreeNode K, SmallNodes t → KeySorted (btree_entries t) →
      btree_entries (btree_update t k v) = (btree_entries t).map (with_pos k v) := by
  apply child_induction
  · intro _ _; rfl
  · intro ks l c0 c1 c2 c3 ih hsm hs
    have hn : ks.length ≤ 3 := hsm.1
    have hsk := keySorted_keys ks l c0 c1 c2 c3 hn hs
    rw [update_node]
    by_cases hk : key_at ks (scan_up k ks) k = true
    · rw [if_pos hk, modify_eq_map k v ks hsk hk]
      cases l with
      | true => simp [btree_entries]
      | false =>
        obtain ⟨e, he, hek⟩ : ∃ e, e ∈ ks ∧ e.1 = k := by
          unfold key_at at hk
          cases hg : ks[scan_up k ks]? with
          | none => simp [hg] at hk
          | some e =>
            simp only [hg, decide_eq_true_eq] at hk
            exact ⟨e, List.getElem?_mem hg, hk⟩
        apply entries_map_keys _ ks c0 c1 c2 c3 hn
        intro j hj
        apply map_with_pos_id
        intro m hm hmk
        exact child_keys_ne ks c0 c1 c2 c3 j hj hn hs e he m hm (by rw [hmk, hek])
    · rw [if_neg hk]
      cases l with
      | true =>
        simp only [if_true, btree_entries]
        exact (map_with_pos_id k v ks (not_key_at k ks hsk hk)).symm
      | false =>
        simp only [Bool.false_eq_true, if_false]
        obtain ⟨L, R, hcut, hL, hR, -, -⟩ := route_up k ks c0 c1 c2 c3 hn hs hk
        have hx := hcut ((node ks false c0 c1 c2 c3).child (scan_up k ks))
        rw [setChild_child] at hx
        have hsc : KeySorted (btree_entries ((node ks false c0 c1 c2 c3).child (scan_up k ks))) := by
          rw [hx] at hs
          exact keySorted_middle L _ R hs
        rw [hcut, ih _ (smallNodes_child _ _ hsm) hsc, hx, List.map_append, List.map_append,
          map_with_pos_id k v L (fun e he => ne_of_lt (hL e he)),
          map_with_pos_id k v R (fun e he => ne_of_gt (hR e he))]

/-- Below a node that is not full, on a tree whose nodes hold at most 3 keys
and have their slots `C[0] .. C[n]` filled, with ascending entries,
`btree_insert_nonfull` puts a new key at its place in the order. -/
theorem insert_nonfull_entries (k : K) (v : Int) :
    ∀ (f : Nat) (x : BTreeNode K), Safe x → x ≠ null → x.n < 3 → x.height ≤ f →
      KeySorted (btree_entries x) → k ∉ (btree_entries x).map Prod.fst →
      btree_entries (btree_insert_nonfull f x k v) = put_entry k v (btree_entries x) := by
  intro f
  induction f with
  | zero =>
    intro x _ hx _ hh _ _
    cases x with
    | null => exact absurd rfl hx
    | node ks l c0 c1 c2 c3 =>
      simp only [height] at hh
      omega
  | succ f ih =>
    intro x hsafe hx hn hh hs hk
    cases x with
    | null => exact absurd rfl hx
    | node ks l c0 c1 c2 c3 =>
      rw [n_node] at hn
      cases l with
      | true =>
        simp only [btree_insert_nonfull, if_true, btree_entries] at hs hk ⊢
        exact leaf_place_eq k v ks hs hk
      | false =>
        rw [insert_nonfull_node]
        have hm : max_keys = 3 := rfl
        have hi := scan_down_le k ks
        have hc := hsafe.2.1 rfl _ hi
        have hcs := safe_child _ (scan_down k ks) hsafe
        have hmem : ∀ e ∈ ks, e.1 ≠ k := by
          intro e he heq
          apply hk
          rw [← heq]
          exact List.mem_map_of_mem _ (keys_subset_entries ks false c0 c1 c2 c3 (by omega) e he)
        rw [hm]
        by_cases hfull : ((node ks false c0 c1 c2 c3).child (scan_down k ks)).n = 3
        · rw [if_pos hfull]
          obtain ⟨yks, yl, y0, y1, y2, y3, m0, hy, hlen, -⟩ := full_node _ hfull
          obtain ⟨p, m, q, rfl⟩ := List.length_eq_three.mp hlen
          obtain ⟨-, -, hki, hn1, hleaf, hklo, hkhi, -, -, hent⟩ :=
            split_child_effect ks c0 c1 c2 c3 (scan_down k ks) p m q yl y0 y1 y2 y3
              (by rw [hm]; omega) hi hy
          obtain ⟨hs1, -, hl, hr⟩ := split_safe ks c0 c1 c2 c3 _ hsafe (by omega) hi hfull
          have hheight := height_split_child ks false c0 c1 c2 c3 (scan_down k ks)
          generalize btree_split_child (node ks false c0 c1 c2 c3) (scan_down k ks) = x1
            at hki hn1 hleaf hklo hkhi hent hs1 hl hr hheight ⊢
          cases x1 with
          | null => simp [BTreeNode.n, BTreeNode.keys] at hn1
          | node ks1 l1 d0 d1 d2 d3 =>
            have hl1 : l1 = false := hleaf
            subst hl1
            rw [n_node] at hn1
            rw [keys_node] at hki hklo hkhi ⊢
            have hki1 : ks1[scan_down k ks + 1]? = ks[scan_down k ks]? := hkhi _ (le_refl _)
            rw [← hent] at hs hk ⊢
            have hmem1 : ∀ e ∈ ks1, e.1 ≠ k := by
              intro e he heq
              apply hk
              rw [← heq]
              exact List.mem_map_of_mem _
                (keys_subset_entries ks1 false d0 d1 d2 d3 (by omega) e he)
            by_cases hkb : key_below ks1 (scan_down k ks) k = true
            · simp only [hkb, if_true]
              have hmk : m.1 < k := by simpa [key_below, hki] using hkb
              have hsub := entries_child_sublist ks1 d0 d1 d2 d3 (scan_down k ks + 1) (by omega)
                (by omega)
              apply descend_entries k v ks1 d0 d1 d2 d3 _ _ (by omega) (by omega) hs
              · intro i e hie he
                have : i = scan_down k ks := by omega
                subst this
                rw [hki] at he
                simp only [Option.some.injEq] at he
                rw [← he]; exact hmk
              · intro e he
                rw [hki1] at he
                exact scan_down_at k ks e he
              · have hh1 := hheight (scan_down k ks + 1)
                simp only [height] at hh hh1 ⊢
                exact ih _ (safe_child _ _ hs1) (n_pos_ne_null _ (by omega)) (by omega)
                  (by omega) (hs.sublist hsub)
                  (fun hm1 => hk (List.Sublist.subset (hsub.map _) hm1))
            · simp only [hkb, Bool.false_eq_true, if_false]
              have hsub := entries_child_sublist ks1 d0 d1 d2 d3 (scan_down k ks) (by omega)
                (by omega)
              apply descend_entries k v ks1 d0 d1 d2 d3 _ _ (by omega) (by omega) hs
              · intro i e hie he
                have he0 := he
                rw [hklo i (by omega)] at he
                have hle := scan_down_before k ks e (by omega) (by rw [hie]; simpa using he)
                exact lt_of_le_of_ne hle (hmem1 e (List.getElem?_mem he0))
              · intro e he
                rw [hki] at he
                simp only [Option.some.injEq] at he
                subst he
                have hnlt : ¬ m.1 < k := by simpa [key_below, hki] using hkb
                exact lt_of_le_of_ne (not_lt.mp hnlt)
                  (fun heq => hmem1 m (List.getElem?_mem hki) heq.symm)
              · have hh1 := hheight (scan_down k ks)
                simp only [height] at hh hh1 ⊢
                exact ih _ (safe_child _ _ hs1) (n_pos_ne_null _ (by omega)) (by omega)
                  (by omega) (hs.sublist hsub)
                  (fun hm1 => hk (List.Sublist.subset (hsub.map _) hm1))
        · rw [if_neg hfull]
          have hc3 := safe_n_le _ hcs
          have hsub := entries_child_sublist ks c0 c1 c2 c3 (scan_down k ks) (by omega) hi
          apply descend_entries k v ks c0 c1 c2 c3 _ _ (by omega) hi hs
          · intro i e hie he
            have hle := scan_down_before k ks e (by omega) (by rw [hie]; simpa using he)
            exact lt_of_le_of_ne hle (hmem e (List.getElem?_mem he))
          · intro e he
            exact scan_down_at k ks e he
          · have hh1 := height_child ks false c0 c1 c2 c3 (scan_down k ks)
            exact ih _ hcs hc (by omega) (by omega) (hs.sublist hsub)
              (fun hm1 => hk (List.Sublist.subset (hsub.map _) hm1))

theorem tree_search (t : BTreeNode K) (k : K) (hok : TreeOK t) :
    btree_search t k = find_pos k (btree_entries t) :=
  search_eq_find_pos k t (safe_smallNodes t hok.2.1) hok.2.2.1

theorem tree_search_ne_iff (t : BTreeNode K) (k : K) (hok : TreeOK t) :
    btree_search t k ≠ -1 ↔ k ∈ (btree_entries t).map Prod.fst := by
  rw [tree_search t k hok]
  constructor
  · intro hne
    by_contra hk
    exact hne (find_pos_not_mem k _ hk)
  · intro hk hne
    exact hok.2.2.2 _ (find_pos_mem k _ hk) hne

/-- On a search tree that every call can walk, `btree_insert` puts the entry at
its place in the order, in place of the entry of the same key if there is one. -/
theorem tree_insert_entries (t : BTreeNode K) (k : K) (v : Int) (hok : TreeOK t) :
    btree_entries (btree_insert t k v) = put_entry k v (btree_entries t) := by
  have hiff := tree_search_ne_iff t k hok
  obtain ⟨hnull, hsafe, hs, hpos⟩ := hok
  unfold btree_insert
  split
  · rename_i hne
    rw [update_entries k v t (safe_smallNodes t hsafe) hs,
      map_with_pos_eq_put k v _ hs (hiff.mp hne)]
  · rename_i hne
    have hk : k ∉ (btree_entries t).map Prod.fst := fun hk => hne (hiff.mpr hk)
    have hm : max_keys = 3 := rfl
    rw [hm]
    split
    · rename_i hfull
      obtain ⟨hs1, hn1, hh⟩ := new_root_safe t hsafe hnull hfull
      obtain ⟨yks, yl, y0, y1, y2, y3, m0, hy, hlen, -⟩ := full_node _ hfull
      obtain ⟨p, m, q, rfl⟩ := List.length_eq_three.mp hlen
      have hent := (split_child_effect [] t null null null 0 p m q yl y0 y1 y2 y3
        (by rw [hm]; simp) (by simp) hy).2.2.2.2.2.2.2.2.2
      have hroot : btree_entries (node [] false t null null null) = btree_entries t := by
        simp [btree_entries, interleave]
      rw [hroot] at hent
      have := insert_nonfull_entries k v (t.height + 2) _ hs1 (n_pos_ne_null _ (by omega))
        (by omega) (by omega) (by rw [hent]; exact hs) (by rw [hent]; exact hk)
      rw [hent] at this
      exact this
    · rename_i hfull
      have := safe_n_le t hsafe
      exact insert_nonfull_entries k v (t.height + 1) t hsafe hnull (by omega) (by omega) hs hk

theorem tree_insert_ok (t : BTreeNode K) (k : K) (v : Int) (hok : TreeOK t) (hv : v ≠ -1) :
    TreeOK (btree_insert t k v) := by
  have hi := insert_keeps_safe t k v hok.2.1 hok.1
  refine ⟨hi.2, hi.1, ?_, ?_⟩
  · rw [tree_insert_entries t k v hok]
    exact keySorted_put_entry k v _ hok.2.2.1
  · rw [tree_insert_entries t k v hok]
    intro e he
    rcases (mem_put_entry k v _ e).mp he with rfl | ⟨h1, _⟩
    · exact hv
    · exact hok.2.2.2 e h1

theorem bal_safe (h : Nat) : ∀ x : BTreeNode K, Bal h x → Safe x := by
  induction h with
  | zero =>
    intro x hb
    cases x with
    | null => trivial
    | node ks l c0 c1 c2 c3 =>
      obtain ⟨rfl, hn, rfl, rfl, rfl, rfl⟩ := (bal_zero_iff _ _ _ _ _ _).mp hb
      exact ⟨hn, fun h => absurd h (by simp), trivial, trivial, trivial, trivial⟩
  | succ h ih =>
    intro x hb
    obtain ⟨ks, c0, c1, c2, c3, rfl⟩ := node_of_bal_succ h x hb
    have hch : ∀ j, Safe ((node ks false c0 c1 c2 c3).child j) := by
      intro j
      by_cases hj : j ≤ ks.length
      · exact ih _ (bal_child h _ j hb hj).1
      · rw [hb.2.2.2 j (by omega)]
        trivial
    refine ⟨hb.2.1, ?_, hch 0, hch 1, hch 2, hch 3⟩
    intro _ j hj
    exact n_pos_ne_null _ (bal_child h _ j hb hj).2

theorem indexOK_treeOK (t : BTreeNode K) (hok : IndexOK t) : TreeOK t := by
  obtain ⟨⟨h, hb⟩, hs, hpos⟩ := hok
  refine ⟨?_, bal_safe h t hb, hs, hpos⟩
  rintro rfl
  exact bal_not_null h hb

end

/-! ## Keys as C strings: the calls that stay inside the slots -/

theorem create_safe : Safe (btree_create : BTreeNode (List Byte)) ∧
    (btree_create : BTreeNode (List Byte)) ≠ null :=
  ⟨⟨Nat.zero_le 3, fun h => absurd h (by simp), trivial, trivial, trivial, trivial⟩,
    by intro h; cases h⟩

theorem insert_str_fits (r : BTreeNode (List Byte)) (key : List Byte) (v : Int)
    (hs : Safe r) (hr : r ≠ null) (h : key_fits key = true) :
    btree_insert_str r key v = some (btree_insert r key v) := by
  unfold btree_insert_str
  rw [insert_safe_ok r key hs hr, h]
  split <;> rfl

theorem insert_str_found (r : BTreeNode (List Byte)) (key : List Byte) (v : Int)
    (h : btree_search r key ≠ -1) : btree_insert_str r key v = some (btree_insert r key v) := by
  unfold btree_insert_str
  rw [if_pos h]

theorem insert_str_long (r : BTreeNode (List Byte)) (key : List Byte) (v : Int)
    (hs : btree_search r key = -1) (h : key_fits key = false) :
    btree_insert_str r key v = none := by
  unfold btree_insert_str
  rw [if_neg (by simp [hs]), h, Bool.and_false]
  rfl

theorem key_fits_long : key_fits long_key = false := by
  simp only [key_fits, long_key, List.length_replicate]
  decide

theorem meta_name_fits (key : List Byte) (h : key_fits key = true) : meta_name key = key := by
  unfold key_fits at h
  unfold meta_name
  exact List.take_of_length_le (by simpa using Nat.le_of_lt_succ (by simpa using h))

theorem fold_str_fits (ops : List (List Byte × Int))
    (hfit : ∀ op ∈ ops, key_fits op.1 = true) :
    ∀ t : BTreeNode (List Byte), Safe t → t ≠ null →
      ops.foldl (fun t op => t.bind (fun r => btree_insert_str r op.1 op.2)) (some t) =
        some (ops.foldl (fun t op => btree_insert t op.1 op.2) t) := by
  induction ops with
  | nil => intro t _ _; rfl
  | cons op ops ih =>
    intro t hs hr
    rw [List.foldl_cons, List.foldl_cons, Option.some_bind,
      insert_str_fits t op.1 op.2 hs hr (hfit op (List.mem_cons_self _ _))]
    exact ih (fun o ho => hfit o (List.mem_cons_of_mem _ ho)) _
      (insert_keeps_safe t op.1 op.2 hs hr).1 (insert_keeps_safe t op.1 op.2 hs hr).2

theorem build_str_fits (ops : List (List Byte × Int))
    (hfit : ∀ op ∈ ops, key_fits op.1 = true) :
    btree_build_str ops = some (btree_build ops) :=
  fold_str_fits ops hfit btree_create create_safe.1 create_safe.2

theorem fold_str_none (ops : List (List Byte × Int)) :
    ops.foldl (fun t op => t.bind (fun r => btree_insert_str r op.1 op.2)) none = none := by
  induction ops with
  | nil => rfl
  | cons op ops ih => rw [List.foldl_cons, Option.none_bind, ih]

theorem create_str_fits (fs : FileSystem (List Byte)) (key content : List Byte)
    (hs : Safe fs.index) (hr : fs.index ≠ null) (h : key_fits key = true) :
    fs_create_str fs key content = some (fs_create fs key content) := by
  unfold fs_create_str
  rw [insert_str_fits _ _ _ hs hr h]
  rfl

theorem create_str_long (fs : FileSystem (List Byte)) (key content : List Byte)
    (hs : btree_search fs.index key = -1) (h : key_fits key = false) :
    fs_create_str fs key content = none := by
  unfold fs_create_str
  rw [insert_str_long _ _ _ hs h]
  rfl

theorem populate_fold_fits (puts : List (List Byte × List Byte))
    (hfit : ∀ p ∈ puts, key_fits p.1 = true) :
    ∀ fs : FileSystem (List Byte), Safe fs.index → fs.index ≠ null →
      puts.foldl (fun s p => s.bind (fun f => fs_create_str f p.1 p.2)) (some fs) =
        some (puts.foldl (fun fs p => fs_create fs p.1 p.2) fs) := by
  induction puts with
  | nil => intro fs _ _; rfl
  | cons p ps ih =>
    intro fs hs hr
    rw [List.foldl_cons, List.foldl_cons, Option.some_bind,
      create_str_fits fs p.1 p.2 hs hr (hfit p (List.mem_cons_self _ _))]
    exact ih (fun o ho => hfit o (List.mem_cons_of_mem _ ho)) _
      (insert_keeps_safe fs.index p.1 _ hs hr).1 (insert_keeps_safe fs.index p.1 _ hs hr).2

theorem populate_str_fits (blob : List Byte) (puts : List (List Byte × List Byte))
    (hfit : ∀ p ∈ puts, key_fits p.1 = true) :
    fs_populate_str blob puts = some (fs_populate blob puts) :=
  populate_fold_fits puts hfit (fs_init blob) create_safe.1 create_safe.2

theorem save_str_fits (fs : FileSystem (List Byte))
    (hfit : ∀ k ∈ btree_list fs.index, key_fits k = true) : fs_save_str fs = fs_save fs := by
  have hn := (save_names fs).2.1
  have hmap : (fs_save fs).entries.map
      (fun e => ({ name := meta_name e.name, position := e.position, comp_size := e.comp_size } :
        MetaEntry (List Byte))) = (fs_save fs).entries := by
    conv_rhs => rw [← List.map_id (fs_save fs).entries]
    apply List.map_congr_left
    intro e he
    have : e.name ∈ btree_list fs.index := by
      rw [← hn]
      exact List.mem_map_of_mem _ he
    rw [meta_name_fits e.name (hfit _ this)]
    rfl
  unfold fs_save_str
  rw [hmap]

theorem load_fold_fits (es : List (MetaEntry (List Byte)))
    (hfit : ∀ e ∈ es, key_fits e.name = true) :
    ∀ t : BTreeNode (List Byte), Safe t → t ≠ null →
      es.foldl (fun t e => t.bind (fun r => btree_insert_str r e.name e.position)) (some t) =
        some (es.foldl (fun t e => btree_insert t e.name e.position) t) := by
  induction es with
  | nil => intro t _ _; rfl
  | cons e es ih =>
    intro t hs hr
    rw [List.foldl_cons, List.foldl_cons, Option.some_bind,
      insert_str_fits t e.name e.position hs hr (hfit e (List.mem_cons_self _ _))]
    exact ih (fun o ho => hfit o (List.mem_cons_of_mem _ ho)) _
      (insert_keeps_safe t e.name e.position hs hr).1
      (insert_keeps_safe t e.name e.position hs hr).2

theorem load_str_fits (fs : FileSystem (List Byte)) (m : MetaFile (List Byte))
    (hfit : ∀ e ∈ m.entries.take m.count, key_fits e.name = true) :
    fs_load_str fs m = some (fs_load fs m) := by
  unfold fs_load_str
  rw [load_fold_fits _ hfit btree_create create_safe.1 create_safe.2]
  rfl

theorem restore_str_fits (fs : FileSystem (List Byte))
    (hfit : ∀ k ∈ btree_list fs.index, key_fits k = true) :
    fs_load_str fs (fs_save_str fs) = some (fs_load fs (fs_save fs)) := by
  rw [save_str_fits fs hfit]
  apply load_str_fits
  intro e he
  have : e.name ∈ btree_list fs.index := by
    rw [← (save_names fs).2.1]
    exact List.mem_map_of_mem _ (List.mem_of_mem_take he)
  exact hfit _ this

theorem run_ops_str_cons (fs f1 : FileSystem (List Byte)) (op : StoreOp (List Byte))
    (later : List (StoreOp (List Byte))) (h : apply_op_str fs op = some f1) :
    run_ops_str fs (op :: later) = run_ops_str f1 later := by
  unfold run_ops_str
  rw [List.foldl_cons, Option.some_bind, h]

theorem run_ops_str_none (ops : List (StoreOp (List Byte))) :
    ops.foldl (fun s op => s.bind (fun f => apply_op_str f op)) none = none := by
  induction ops with
  | nil => rfl
  | cons op ops ih => rw [List.foldl_cons, Option.none_bind, ih]

/-! ## Index: the claims on inserts with keys given as C strings -/

/-- C2 (as amended): after any sequence of `btree_insert` calls on
`btree_create()` with keys shorter than 256 bytes and non-negative offsets, every
call has a defined result, and `btree_search` returns for every key the offset of
the last insert made for that key, and -1 for a key that was never inserted. -/
theorem btree_search_after_inserts (ops : List (List Byte × Int))
    (hfit : ∀ op ∈ ops, key_fits op.1 = true) (hpos : ∀ op ∈ ops, 0 ≤ op.2)
    (k : List Byte) :
    btree_build_str ops = some (btree_build ops) ∧
      (k ∉ ops.map Prod.fst → btree_search (btree_build ops) k = -1) ∧
      (∀ pre v post, ops = pre ++ (k, v) :: post → k ∉ post.map Prod.fst →
        btree_search (btree_build ops) k = v) :=
  ⟨build_str_fits ops hfit,
    search_after_inserts ops (fun op ho => nonneg_ne _ (hpos op ho)) k⟩

theorem btree_search_after_inserts_witness :
    (∀ op ∈ [(([97] : List Byte), (10 : Int)), ([98], 20), ([97], 30)],
        key_fits op.1 = true) ∧
      (∀ op ∈ [(([97] : List Byte), (10 : Int)), ([98], 20), ([97], 30)], 0 ≤ op.2) ∧
      btree_build_str [([97], 10), ([98], 20), ([97], 30)] =
        some (btree_build [([97], 10), ([98], 20), ([97], 30)]) ∧
      btree_search (btree_build [(([97] : List Byte), (10 : Int)), ([98], 20), ([97], 30)])
        [97] = 30 ∧
      btree_search (btree_build [(([97] : List Byte), (10 : Int)), ([98], 20), ([97], 30)])
        [99] = -1 :=
  ⟨by decide, by decide,
    (btree_search_after_inserts [([97], 10), ([98], 20), ([97], 30)] (by decide) (by decide)
      [97]).1,
    (btree_search_after_inserts [([97], 10), ([98], 20), ([97], 30)] (by decide) (by decide)
      [97]).2.2 [([97], 10), ([98], 20)] 30 [] rfl (by decide),
    (btree_search_after_inserts [([97], 10), ([98], 20), ([97], 30)] (by decide) (by decide)
      [99]).2.1 (by decide)⟩

/-- C2 as stated fails: the key of 256 bytes `a` does not fit a slot of 256
bytes with its NUL, and the insert of that key with the offset 10 on
`btree_create()`, where `strcpy` writes 257 bytes into the slot, has no defined
result, so that no search after it and after the insert of `b` is bound to
return 10. -/
theorem btree_search_after_inserts_fails_on_long_key :
    key_fits long_key = false ∧
      (∀ op ∈ [(long_key, (10 : Int)), ([98], 20)], 0 ≤ op.2) ∧
      btree_insert_str btree_create long_key 10 = none ∧
      btree_build_str [(long_key, 10), ([98], 20)] = none := by
  have h := insert_str_long btree_create long_key 10 rfl key_fits_long
  refine ⟨key_fits_long, by decide, h, ?_⟩
  unfold btree_build_str
  rw [List.foldl_cons, Option.some_bind, h]
  exact fold_str_none _

/-- C3 (as amended): after any sequence of `btree_insert` calls on
`btree_create()` with keys shorter than 256 bytes and offsets other than -1, every
call has a defined result, and the keys in the order of `btree_list` are strictly
ascending for `strcmp`, none appears twice, and they are exactly the inserted
keys. -/
theorem btree_list_after_inserts (ops : List (List Byte × Int))
    (hfit : ∀ op ∈ ops, key_fits op.1 = true) (hpos : ∀ op ∈ ops, op.2 ≠ -1) :
    btree_build_str ops = some (btree_build ops) ∧
      (btree_list (btree_build ops)).Pairwise (fun a b => strcmp a b < 0) ∧
      (btree_list (btree_build ops)).Nodup ∧
      ∀ k, k ∈ btree_list (btree_build ops) ↔ k ∈ ops.map Prod.fst :=
  ⟨build_str_fits ops hfit,
    (build_pairwise ops hpos).imp (fun h => (strcmp_sign _ _).1.mpr h), build_nodup ops hpos,
    build_mem ops hpos⟩

theorem btree_list_after_inserts_witness :
    (∀ op ∈ [(([99] : List Byte), (10 : Int)), ([97, 98], 20), ([98], 30), ([97, 98], 40),
        ([97], 50)], key_fits op.1 = true) ∧
      (∀ op ∈ [(([99] : List Byte), (10 : Int)), ([97, 98], 20), ([98], 30), ([97, 98], 40),
        ([97], 50)], op.2 ≠ -1) ∧
      (btree_build_str [([99], 10), ([97, 98], 20), ([98], 30), ([97, 98], 40), ([97], 50)] =
          some (btree_build [([99], 10), ([97, 98], 20), ([98], 30), ([97, 98], 40),
            ([97], 50)]) ∧
        (btree_list (btree_build [(([99] : List Byte), (10 : Int)), ([97, 98], 20), ([98], 30),
          ([97, 98], 40), ([97], 50)])).Pairwise (fun a b => strcmp a b < 0) ∧
        (btree_list (btree_build [(([99] : List Byte), (10 : Int)), ([97, 98], 20), ([98], 30),
          ([97, 98], 40), ([97], 50)])).Nodup ∧
        ∀ k, k ∈ btree_list (btree_build [(([99] : List Byte), (10 : Int)), ([97, 98], 20),
            ([98], 30), ([97, 98], 40), ([97], 50)]) ↔
          k ∈ [(([99] : List Byte), (10 : Int)), ([97, 98], 20), ([98], 30), ([97, 98], 40),
            ([97], 50)].map Prod.fst) :=
  ⟨by decide, by decide,
    btree_list_after_inserts [(([99] : List Byte), (10 : Int)), ([97, 98], 20), ([98], 30),
      ([97, 98], 40), ([97], 50)] (by decide) (by decide)⟩

/-- C3 as stated fails, in two ways.  After the inserts of the key `a` with the
offset -1 and then with the offset 5, both with defined results, `btree_list`
gives the key twice: the search made by the second insert returns the -1 stored
with the key, which is also the answer for a missing key.  And the insert of the
key of 256 bytes `a` has no defined result. -/
theorem btree_list_after_inserts_fails :
    btree_build_str [([97], -1), ([97], 5)] = some (btree_build [([97], -1), ([97], 5)]) ∧
      btree_list (btree_build [(([97] : List Byte), (-1 : Int)), ([97], 5)]) = [[97], [97]] ∧
      key_fits long_key = false ∧
      btree_build_str [(long_key, 10), ([98], 20)] = none := by
  have h := insert_str_long btree_create long_key 10 rfl key_fits_long
  refine ⟨build_str_fits _ (by decide), by decide, key_fits_long, ?_⟩
  unfold btree_build_str
  rw [List.foldl_cons, Option.some_bind, h]
  exact fold_str_none _

/-- C4 (as amended): on an index built by `btree_insert` calls with keys shorter
than 256 bytes and offsets other than -1, the insert of a key that is already
there has a defined result, which is the same tree, node by node and key by key,
with the new offset stored for that key and every other offset as it was; the key
is listed once and carries the new offset. -/
theorem btree_insert_existing (ops : List (List Byte × Int))
    (hfit : ∀ op ∈ ops, key_fits op.1 = true) (hpos : ∀ op ∈ ops, op.2 ≠ -1)
    (k : List Byte) (v : Int) (hk : k ∈ btree_list (btree_build ops)) :
    btree_build_str ops = some (btree_build ops) ∧
      btree_insert_str (btree_build ops) k v = some (btree_insert (btree_build ops) k v) ∧
      btree_insert (btree_build ops) k v = map_entries (with_pos k v) (btree_build ops) ∧
      btree_list (btree_insert (btree_build ops) k v) = btree_list (btree_build ops) ∧
      (btree_list (btree_insert (btree_build ops) k v)).count k = 1 ∧
      ∀ e ∈ btree_entries (btree_insert (btree_build ops) k v), e.1 = k → e.2 = v := by
  obtain ⟨h1, h2, -, h4⟩ := insert_existing ops hpos k v hk
  refine ⟨build_str_fits ops hfit,
    insert_str_found _ k v ((search_ne_iff _ k (build_ok ops hpos)).mpr hk), h1, h2, ?_, h4⟩
  rw [h2]
  have hc := List.count_eq_one_of_mem (build_nodup ops hpos) hk
  rw [← hc]
  unfold List.count
  apply List.countP_congr
  intro x _
  simp only [beq_iff_eq]

theorem btree_insert_existing_witness :
    (∀ op ∈ [(([97] : List Byte), (10 : Int)), ([98], 20)], key_fits op.1 = true) ∧
      (∀ op ∈ [(([97] : List Byte), (10 : Int)), ([98], 20)], op.2 ≠ -1) ∧
      [97] ∈ btree_list (btree_build [(([97] : List Byte), (10 : Int)), ([98], 20)]) ∧
      (btree_build_str [([97], 10), ([98], 20)] = some (btree_build [([97], 10), ([98], 20)]) ∧
        btree_insert_str (btree_build [([97], 10), ([98], 20)]) [97] 35 =
          some (btree_insert (btree_build [([97], 10), ([98], 20)]) [97] 35) ∧
        btree_insert (btree_build [(([97] : List Byte), (10 : Int)), ([98], 20)]) [97] 35 =
          map_entries (with_pos [97] 35) (btree_build [([97], 10), ([98], 20)]) ∧
        btree_list (btree_insert (btree_build [(([97] : List Byte), (10 : Int)), ([98], 20)])
            [97] 35) =
          btree_list (btree_build [([97], 10), ([98], 20)]) ∧
        (btree_list (btree_insert (btree_build [(([97] : List Byte), (10 : Int)), ([98], 20)])
          [97] 35)).count [97] = 1 ∧
        ∀ e ∈ btree_entries (btree_insert (btree_build [(([97] : List Byte), (10 : Int)),
            ([98], 20)]) [97] 35),
          e.1 = [97] → e.2 = 35) :=
  ⟨by decide, by decide, by decide,
    btree_insert_existing [([97], 10), ([98], 20)] (by decide) (by decide) [97] 35
      (by decide)⟩

/-- C4 as stated fails, in two ways.  On the index that holds the key `a` with
the offset -1, the insert of `a` with the offset 5 has a defined result in which
the key has two entries: the search made by the insert returns the -1 stored with
the key, which is also the answer for a missing key.  And no index holds the key
of 256 bytes `a`, whose insert has no defined result. -/
theorem btree_insert_existing_fails :
    btree_build_str [([97], -1)] = some (btree_build [([97], -1)]) ∧
      [97] ∈ btree_list (btree_build [(([97] : List Byte), (-1 : Int))]) ∧
      btree_insert_str (btree_build [([97], -1)]) [97] 5 =
        some (btree_insert (btree_build [([97], -1)]) [97] 5) ∧
      btree_entries (btree_insert (btree_build [(([97] : List Byte), (-1 : Int))]) [97] 5) =
        [([97], -1), ([97], 5)] ∧
      (btree_list (btree_insert (btree_build [(([97] : List Byte), (-1 : Int))]) [97]
        5)).count [97] = 2 ∧
      key_fits long_key = false ∧
      btree_build_str [(long_key, 10)] = none := by
  have h := insert_str_long btree_create long_key 10 rfl key_fits_long
  refine ⟨build_str_fits _ (by decide), by decide, by decide,
    by decide, by decide, key_fits_long, ?_⟩
  unfold btree_build_str
  rw [List.foldl_cons, Option.some_bind, h]
  rfl

/-- C19 (as amended): after any sequence of inserts into the empty index with
keys shorter than 256 bytes and offsets other than -1, every insert has a defined
result, every node has its keys strictly ascending, and in a node that is not a
leaf every key under the slot `C[i]` is above the key `i - 1` of the node and
below its key `i`. -/
theorem btree_build_ordered (ops : List (List Byte × Int))
    (hfit : ∀ op ∈ ops, key_fits op.1 = true) (hpos : ∀ op ∈ ops, op.2 ≠ -1) :
    btree_build_str ops = some (btree_build ops) ∧ Ordered (btree_build ops) :=
  ⟨build_str_fits ops hfit, build_ordered ops hpos⟩

theorem btree_build_ordered_witness :
    (∀ op ∈ [(([53] : List Byte), (0 : Int)), ([51], 26), ([56], 40), ([49], 66), ([52], 80),
        ([51], 94)], key_fits op.1 = true) ∧
      (∀ op ∈ [(([53] : List Byte), (0 : Int)), ([51], 26), ([56], 40), ([49], 66), ([52], 80),
        ([51], 94)], op.2 ≠ -1) ∧
      btree_build_str [([53], 0), ([51], 26), ([56], 40), ([49], 66), ([52], 80), ([51], 94)] =
        some (btree_build [([53], 0), ([51], 26), ([56], 40), ([49], 66), ([52], 80),
          ([51], 94)]) ∧
      Ordered (btree_build [(([53] : List Byte), (0 : Int)), ([51], 26), ([56], 40), ([49], 66),
        ([52], 80), ([51], 94)]) := by
  refine ⟨by decide, by decide, ?_⟩
  apply btree_build_ordered
  · decide
  · decide

/-- C19 as stated fails, in two ways.  After the inserts of the key `a` with the
offset -1 and then with the offset 5 the root holds the key twice, so its keys
are not strictly ascending.  And after the insert of `b`, the insert of the key
of 256 bytes `a` has no defined result. -/
theorem btree_build_ordered_fails :
    btree_build_str [([97], -1), ([97], 5)] = some (btree_build [([97], -1), ([97], 5)]) ∧
      btree_build [(([97] : List Byte), (-1 : Int)), ([97], 5)] =
        node [([97], -1), ([97], 5)] true null null null null ∧
      ¬ Ordered (btree_build [(([97] : List Byte), (-1 : Int)), ([97], 5)]) ∧
      key_fits long_key = false ∧
      btree_build_str [([98], 1), (long_key, 2)] = none := by
  have hb : btree_build [(([97] : List Byte), (-1 : Int)), ([97], 5)] =
      node [([97], -1), ([97], 5)] true null null null null := by decide
  refine ⟨build_str_fits _ (by decide), hb, ?_, key_fits_long, ?_⟩
  · rw [hb]
    intro h
    exact absurd h.1 (by decide)
  · have h1 : btree_insert_str btree_create [98] 1 =
        some (btree_insert btree_create [98] 1) := by decide
    have h2 : btree_search (btree_insert btree_create ([98] : List Byte) 1) long_key = -1 := by
      decide
    unfold btree_build_str
    rw [List.foldl_cons, Option.some_bind, h1, List.foldl_cons, Option.some_bind,
      insert_str_long _ _ _ h2 key_fits_long]
    rfl

/-! ## Storage engine: a record stays readable -/

section
variable {K : Type} [LinearOrder K]

theorem held_create (fs : FileSystem K) (key : K) (b : List Byte) (hok : TreeOK fs.index) :
    RecordHeld key (fs.storage.length : Int)
      (fs.storage ++ le_bytes 8 (lzw_compress b).length ++ lzw_compress b)
      (fs_create fs key b) := by
  have hpos : (fs.storage.length : Int) ≠ -1 := by omega
  refine ⟨tree_insert_ok _ _ _ hok hpos, ?_, ⟨[], by simp [fs_create]⟩⟩
  simp only [fs_create]
  rw [tree_insert_entries _ _ _ hok, find_pos_put_entry, if_pos rfl]

theorem held_put (key : K) (pos : Int) (head : List Byte) (fs : FileSystem K) (k1 : K)
    (b1 : List Byte) (hne : k1 ≠ key) (h : RecordHeld key pos head fs) :
    RecordHeld key pos head (fs_create fs k1 b1) := by
  obtain ⟨hok, hfind, extra, hst⟩ := h
  have hpos : (fs.storage.length : Int) ≠ -1 := by omega
  refine ⟨tree_insert_ok _ _ _ hok hpos, ?_, ?_⟩
  · simp only [fs_create]
    rw [tree_insert_entries _ _ _ hok, find_pos_put_entry, if_neg (fun h => hne h.symm), hfind]
  · exact ⟨extra ++ le_bytes 8 (lzw_compress b1).length ++ lzw_compress b1, by
      simp [fs_create, hst]⟩

theorem restore_entries (fs : FileSystem K) (hok : TreeOK fs.index)
    (hlen : (btree_list fs.index).length < 2 ^ 32) :
    IndexOK (fs_load fs (fs_save fs)).index ∧
      btree_entries (fs_load fs (fs_save fs)).index = btree_entries fs.index := by
  have hl : (btree_entries fs.index).length < 2 ^ 32 := by simpa [btree_list] using hlen
  rw [load_save_index fs hl]
  exact ⟨build_ok _ hok.2.2.2, build_sorted_id _ hok.2.2.1 hok.2.2.2⟩

theorem held_restore (key : K) (pos : Int) (head : List Byte) (fs : FileSystem K)
    (h : RecordHeld key pos head fs) (hlen : (btree_list fs.index).length < 2 ^ 32) :
    RecordHeld key pos head (fs_load fs (fs_save fs)) := by
  obtain ⟨hok, hfind, extra, hst⟩ := h
  obtain ⟨h1, h2⟩ := restore_entries fs hok hlen
  exact ⟨indexOK_treeOK _ h1, by rw [h2, hfind], ⟨extra, by simp [fs_load, hst]⟩⟩

theorem fs_read_held (fs : FileSystem K) (key : K) (old : List Byte) (b : List Byte)
    (hb : (lzw_codes b).length < 2 ^ 32)
    (h : RecordHeld key (old.length : Int)
      (old ++ le_bytes 8 (lzw_compress b).length ++ lzw_compress b) fs) :
    fs_read fs key = ReadResult.content b := by
  obtain ⟨hok, hfind, extra, hst⟩ := h
  have hsearch : btree_search fs.index key = (old.length : Int) := by
    rw [tree_search _ key hok, hfind]
  have hseek : seek_set (old.length : Int) = old.length := by
    simp [seek_set]
  have hdrop : fs.storage.drop old.length =
      le_bytes 8 (lzw_compress b).length ++ (lzw_compress b ++ extra) := by
    rw [hst, List.append_assoc, List.append_assoc, List.drop_left' rfl]
  have h8 : (le_bytes 8 (lzw_compress b).length).length = 8 := le_bytes_length _ _
  have htake : (le_bytes 8 (lzw_compress b).length ++ (lzw_compress b ++ extra)).take 8 =
      le_bytes 8 (lzw_compress b).length := List.take_left' h8
  have hdrop8 : (le_bytes 8 (lzw_compress b).length ++ (lzw_compress b ++ extra)).drop 8 =
      lzw_compress b ++ extra := List.drop_left' h8
  have hval : le_value (le_bytes 8 (lzw_compress b).length) = (lzw_compress b).length := by
    rw [le_value_le_bytes, Nat.mod_eq_of_lt]
    rw [lzw_compress_length]
    have : (2 : Nat) ^ 32 = 4294967296 := by norm_num
    have : (256 : Nat) ^ 8 = 18446744073709551616 := by norm_num
    omega
  unfold fs_read
  rw [hsearch, hseek, hdrop, htake, hdrop8, hval]
  rw [if_neg (by omega), if_neg (by simp [h8]), if_neg (by simp), List.take_left' rfl,
    decompress_compress b hb]

theorem list_insert_mem (t : BTreeNode K) (k1 : K) (v : Int) (hok : TreeOK t) (k : K)
    (hk : k ∈ btree_list (btree_insert t k1 v)) : k = k1 ∨ k ∈ btree_list t := by
  unfold btree_list at hk ⊢
  rw [tree_insert_entries t k1 v hok] at hk
  obtain ⟨e, he, rfl⟩ := List.mem_map.mp hk
  rcases (mem_put_entry k1 v _ e).mp he with rfl | ⟨h1, _⟩
  · exact Or.inl rfl
  · exact Or.inr (List.mem_map_of_mem _ h1)

end

/-- The record written by `fs_create` stays in place through later puts of
other keys that fit a slot and through snapshots taken while the index holds
fewer than 2^32 keys, and every one of these calls has a defined result. -/
theorem run_held (key : List Byte) (pos : Int) (head : List Byte) :
    ∀ (later : List (StoreOp (List Byte))) (fs : FileSystem (List Byte)),
      RecordHeld key pos head fs → (∀ k ∈ btree_list fs.index, key_fits k = true) →
      (∀ op ∈ later, ∀ k c, op = StoreOp.put k c → k ≠ key ∧ key_fits k = true) →
      (∀ pre post, later = pre ++ StoreOp.snapshot_restore :: post →
        ∀ s, run_ops_str fs pre = some s → (btree_list s.index).length < 2 ^ 32) →
      run_ops_str fs later = some (run_ops fs later) ∧
        RecordHeld key pos head (run_ops fs later) := by
  intro later
  induction later with
  | nil => intro fs h _ _ _; exact ⟨rfl, h⟩
  | cons op later ih =>
    intro fs h hfit hlater hcount
    have hstep : apply_op_str fs op = some (apply_op fs op) ∧
        RecordHeld key pos head (apply_op fs op) ∧
        ∀ k ∈ btree_list (apply_op fs op).index, key_fits k = true := by
      cases op with
      | put k1 b1 =>
        obtain ⟨hne, hk1⟩ := hlater _ (List.mem_cons_self _ _) k1 b1 rfl
        refine ⟨create_str_fits fs k1 b1 h.1.2.1 h.1.1 hk1, held_put key pos head fs k1 b1 hne h, ?_⟩
        intro k hk
        rcases list_insert_mem fs.index k1 _ h.1 k hk with rfl | hk
        · exact hk1
        · exact hfit k hk
      | snapshot_restore =>
        have hlen := hcount [] later rfl fs rfl
        refine ⟨restore_str_fits fs hfit, held_restore key pos head fs h hlen, ?_⟩
        intro k hk
        apply hfit
        have hk1 : k ∈ btree_list (fs_load fs (fs_save fs)).index := hk
        unfold btree_list at hk1 ⊢
        rw [(restore_entries fs h.1 hlen).2] at hk1
        exact hk1
    obtain ⟨h1, h2, h3⟩ := hstep
    have := ih (apply_op fs op) h2 h3
      (fun o ho => hlater o (List.mem_cons_of_mem _ ho))
      (fun pre post hl s hs => hcount (op :: pre) post (by rw [hl]; rfl) s
        (by rw [run_ops_str_cons fs _ op pre h1]; exact hs))
    rw [run_ops_str_cons fs _ op later h1]
    exact this

theorem read_after_create_str (fs : FileSystem (List Byte)) (key b : List Byte)
    (later : List (StoreOp (List Byte))) (hok : TreeOK fs.index)
    (hfit : ∀ k ∈ btree_list fs.index, key_fits k = true) (hkey : key_fits key = true)
    (hb : (lzw_codes b).length < 2 ^ 32)
    (hlater : ∀ op ∈ later, ∀ k c, op = StoreOp.put k c → k ≠ key ∧ key_fits k = true)
    (hcount : ∀ pre post, later = pre ++ StoreOp.snapshot_restore :: post →
      ∀ s, run_ops_str fs (StoreOp.put key b :: pre) = some s →
        (btree_list s.index).length < 2 ^ 32) :
    run_ops_str fs (StoreOp.put key b :: later) =
        some (run_ops (fs_create fs key b) later) ∧
      fs_read (run_ops (fs_create fs key b) later) key = ReadResult.content b := by
  have h0 : apply_op_str fs (StoreOp.put key b) = some (fs_create fs key b) :=
    create_str_fits fs key b hok.2.1 hok.1 hkey
  have hfit1 : ∀ k ∈ btree_list (fs_create fs key b).index, key_fits k = true := by
    intro k hk
    rcases list_insert_mem fs.index key _ hok k hk with rfl | hk
    · exact hkey
    · exact hfit k hk
  obtain ⟨h1, h2⟩ := run_held key _ _ later (fs_create fs key b) (held_create fs key b hok) hfit1
    hlater (fun pre post hl s hs => hcount pre post hl s
      (by rw [run_ops_str_cons fs _ _ pre h0]; exact hs))
  rw [run_ops_str_cons fs _ _ later h0]
  exact ⟨h1, fs_read_held _ key fs.storage b hb h2⟩

/-! ## Storage engine: a snapshot of an index of 2^32 keys or more -/

section
variable {K : Type} [LinearOrder K]

theorem load_save_take (fs : FileSystem K) :
    (fs_load fs (fs_save fs)).index =
      btree_build ((btree_entries fs.index).take ((btree_entries fs.index).length % 2 ^ 32)) := by
  simp only [fs_load, fs_save, save_eq_map, List.length_map]
  rw [← List.map_take, List.foldl_map]
  rfl

/-- The key that comes last in an index of 2^32 keys or more is not in the index
that `fs_load` builds from the file written by `fs_save`. -/
theorem restore_loses_last (fs : FileSystem K) (key : K)
    (hs : KeySorted (btree_entries fs.index)) (hpos : ∀ e ∈ btree_entries fs.index, e.2 ≠ -1)
    (hbig : 2 ^ 32 ≤ (btree_entries fs.index).length)
    (hlast : ∀ e ∈ btree_entries fs.index, e.1 ≤ key) :
    btree_search (fs_load fs (fs_save fs)).index key = -1 := by
  rw [load_save_take]
  generalize hE : btree_entries fs.index = E at hs hpos hbig hlast
  have hc : E.length % 2 ^ 32 < E.length :=
    lt_of_lt_of_le (Nat.mod_lt _ (by norm_num)) hbig
  generalize E.length % 2 ^ 32 = c at hc
  have hsplit : E.take c ++ E.drop c = E := List.take_append_drop c E
  have hsT : KeySorted (E.take c) := hs.sublist (List.take_sublist c E)
  have hposT : ∀ e ∈ E.take c, e.2 ≠ -1 := fun e he => hpos e (List.mem_of_mem_take he)
  obtain ⟨⟨h1, hb1⟩, hs1, -⟩ := build_ok (E.take c) hposT
  rw [search_eq_find_pos key _ (bal_smallNodes h1 _ hb1) hs1, build_sorted_id _ hsT hposT]
  apply find_pos_not_mem
  intro hm
  obtain ⟨e, he, hek⟩ := List.mem_map.mp hm
  have hne : E.drop c ≠ [] := by
    intro h0
    have := congrArg List.length h0
    simp only [List.length_drop, List.length_nil] at this
    omega
  obtain ⟨e2, he2⟩ := List.exists_mem_of_ne_nil _ hne
  have hlt : e.1 < e2.1 := by
    unfold KeySorted at hs
    rw [← hsplit, List.pairwise_append] at hs
    exact hs.2.2 e he e2 he2
  have := hlast e2 (List.mem_of_mem_drop he2)
  rw [hek] at hlt
  exact absurd hlt (not_lt.mpr this)

theorem populate_list_mem (blob : List Byte) (puts : List (K × List Byte)) (k : K) :
    k ∈ btree_list (fs_populate blob puts).index ↔ k ∈ puts.map Prod.fst := by
  obtain ⟨E, h1, h2, h3⟩ := populate_build (K := K) blob puts
  rw [h1, build_mem E h3, h2]

theorem put_last_entries (fs : FileSystem K) (key : K) (b : List Byte) (hok : TreeOK fs.index)
    (hlt : ∀ k ∈ btree_list fs.index, k < key) :
    btree_entries (fs_create fs key b).index =
      btree_entries fs.index ++ [(key, (fs.storage.length : Int))] := by
  simp only [fs_create]
  rw [tree_insert_entries _ _ _ hok]
  have := put_entry_middle key (fs.storage.length : Int) (btree_entries fs.index) [] []
    (fun e he => hlt e.1 (List.mem_map_of_mem _ he)) (by simp)
  simp only [List.append_nil] at this
  rw [this]
  simp [put_entry]

end

theorem decimal_name_fits (i : Nat) (h : i ≤ 2 ^ 32) : key_fits (decimal_name i) = true := by
  unfold key_fits decimal_name
  rw [List.length_map]
  by_cases h0 : i = 0
  · subst h0
    simp
  · rw [Nat.digits_len 10 i (by norm_num) h0]
    have : Nat.log 10 i < 255 :=
      Nat.log_lt_of_lt_pow h0 (lt_of_le_of_lt h (by norm_num))
    simp only [decide_eq_true_eq]
    omega

theorem decimal_name_injective (i j : Nat) (h : decimal_name i = decimal_name j) : i = j := by
  apply Nat.digits.injective 10
  have hback : ∀ n : Nat, (decimal_name n).map (fun x : Byte => x.val - 48) = Nat.digits 10 n := by
    intro n
    unfold decimal_name
    rw [List.map_map]
    conv_rhs => rw [← List.map_id (Nat.digits 10 n)]
    apply List.map_congr_left
    intro d hd
    have := Nat.digits_lt_base (by norm_num : 1 < 10) hd
    simp only [Function.comp, Fin.ofNat, id]
    omega
  rw [← hback i, ← hback j, h]

theorem decimal_name_lt (i : Nat) : decimal_name i < [97] := by
  rw [← (strcmp_sign _ _).1]
  unfold decimal_name
  cases hd : Nat.digits 10 i with
  | nil => simp [strcmp]
  | cons d ds =>
    have : d < 10 := Nat.digits_lt_base (by norm_num : 1 < 10) (by rw [hd]; simp)
    have hlt : (Fin.ofNat (d + 48) : Byte) < 97 := by
      rw [Fin.lt_def]
      simp only [Fin.ofNat]
      show (d + 48) % 256 < 97
      omega
    simp [strcmp, hlt]

theorem many_puts_fit : ∀ p ∈ many_puts, key_fits p.1 = true := by
  intro p hp
  unfold many_puts at hp
  obtain ⟨i, hi, rfl⟩ := List.mem_map.mp hp
  exact decimal_name_fits (i + 1) (by
    have := List.mem_range.mp hi
    omega)

theorem many_puts_length :
    2 ^ 32 ≤ (btree_list (fs_populate [] many_puts : FileSystem (List Byte)).index).length := by
  have hn : ((List.range (2 ^ 32)).map (fun i => decimal_name (i + 1))).Nodup := by
    apply (List.nodup_range _).map
    intro a b hab
    have := decimal_name_injective _ _ hab
    omega
  have hsub : ∀ k ∈ (List.range (2 ^ 32)).map (fun i => decimal_name (i + 1)),
      k ∈ btree_list (fs_populate [] many_puts : FileSystem (List Byte)).index := by
    intro k hk
    rw [populate_list_mem]
    unfold many_puts
    rw [List.map_map]
    exact hk
  have := (hn.subperm hsub).length_le
  rw [List.length_map, List.length_range] at this
  exact this

theorem many_puts_below (k : List Byte)
    (hk : k ∈ btree_list (fs_populate [] many_puts : FileSystem (List Byte)).index) :
    k < [97] := by
  rw [populate_list_mem] at hk
  unfold many_puts at hk
  rw [List.map_map] at hk
  obtain ⟨i, -, rfl⟩ := List.mem_map.mp hk
  exact decimal_name_lt _

/-- On a store whose index holds 2^32 - 1 keys or more, all of them below `key`,
the put of `key` and a snapshot followed by restore have defined results, and
the key is not found afterwards. -/
theorem snapshot_loses_key (fs : FileSystem (List Byte)) (key b : List Byte)
    (hok : TreeOK fs.index) (hfit : ∀ k ∈ btree_list fs.index, key_fits k = true)
    (hkey : key_fits key = true) (hlt : ∀ k ∈ btree_list fs.index, k < key)
    (hbig : 2 ^ 32 ≤ (btree_list fs.index).length + 1) :
    run_ops_str fs [StoreOp.put key b, StoreOp.snapshot_restore] =
        some (run_ops fs [StoreOp.put key b, StoreOp.snapshot_restore]) ∧
      fs_read (run_ops fs [StoreOp.put key b, StoreOp.snapshot_restore]) key =
        ReadResult.not_found := by
  have hent := put_last_entries fs key b hok hlt
  have hok1 : TreeOK (fs_create fs key b).index :=
    tree_insert_ok fs.index key (fs.storage.length : Int) hok (by omega)
  have hfit1 : ∀ k ∈ btree_list (fs_create fs key b).index, key_fits k = true := by
    intro k hk
    rcases list_insert_mem fs.index key _ hok k hk with rfl | hk
    · exact hkey
    · exact hfit k hk
  have h1 : apply_op_str fs (StoreOp.put key b) = some (fs_create fs key b) :=
    create_str_fits _ _ _ hok.2.1 hok.1 hkey
  have h2 : apply_op_str (fs_create fs key b) StoreOp.snapshot_restore =
      some (fs_load (fs_create fs key b) (fs_save (fs_create fs key b))) :=
    restore_str_fits _ hfit1
  constructor
  · rw [run_ops_str_cons _ _ _ _ h1, run_ops_str_cons _ _ _ _ h2]
    rfl
  · have hsearch := restore_loses_last (fs_create fs key b) key hok1.2.2.1 hok1.2.2.2
      (by
        rw [hent, List.length_append]
        unfold btree_list at hbig
        rw [List.length_map] at hbig
        exact hbig)
      (by
        rw [hent]
        intro e he
        rcases List.mem_append.mp he with he | he
        · exact le_of_lt (hlt e.1 (List.mem_map_of_mem _ he))
        · simp only [List.mem_singleton] at he
          rw [he])
    show fs_read (fs_load (fs_create fs key b) (fs_save (fs_create fs key b))) key =
      ReadResult.not_found
    unfold fs_read
    rw [if_pos hsearch]

theorem many_puts_stored_fit :
    ∀ k ∈ btree_list (fs_populate [] many_puts : FileSystem (List Byte)).index,
      key_fits k = true := by
  intro k hk
  rw [populate_list_mem] at hk
  obtain ⟨p, hp, rfl⟩ := List.mem_map.mp hk
  exact many_puts_fit p hp

theorem save_str_count_wraps (fs : FileSystem (List Byte))
    (h : 2 ^ 32 ≤ (btree_list fs.index).length) :
    (fs_save_str fs).count ≠ (btree_list fs.index).length := by
  have hc : (fs_save_str fs).count = (btree_list fs.index).length % 2 ^ 32 :=
    (save_names fs).2.2
  rw [hc]
  have := Nat.mod_lt (btree_list fs.index).length (show 0 < 2 ^ 32 by norm_num)
  omega

theorem populate_str_long (c : List Byte) : fs_populate_str [] [(long_key, c)] = none := by
  unfold fs_populate_str
  rw [List.foldl_cons, Option.some_bind]
  show List.foldl _ (fs_create_str (fs_init []) long_key c) [] = none
  rw [create_str_long (fs_init []) long_key c rfl key_fits_long]
  rfl

theorem put_str_fits (fs : FileSystem (List Byte)) (key c : List Byte)
    (hs : Safe fs.index) (hr : fs.index ≠ null) (h : key_fits key = true) :
    run_ops_str fs [StoreOp.put key c] = some (fs_create fs key c) := by
  have h1 : apply_op_str fs (StoreOp.put key c) = some (fs_create fs key c) :=
    create_str_fits fs key c hs hr h
  rw [run_ops_str_cons fs (fs_create fs key c) (StoreOp.put key c) [] h1]
  rfl

theorem put_str_long (fs : FileSystem (List Byte)) (c : List Byte)
    (later : List (StoreOp (List Byte))) (h : btree_search fs.index long_key = -1) :
    run_ops_str fs (StoreOp.put long_key c :: later) = none := by
  unfold run_ops_str
  rw [List.foldl_cons, Option.some_bind]
  show List.foldl _ (fs_create_str fs long_key c) later = none
  rw [create_str_long fs long_key c h key_fits_long]
  exact run_ops_str_none later

set_option maxRecDepth 100000 in
theorem long_name_cut :
    btree_search (fs_create (fs_init []) long_key [120]).index long_key = 0 ∧
      (fs_load_str (fs_create (fs_init []) long_key [120])
        (fs_save_str (fs_create (fs_init []) long_key [120]))).map
          (fun s => btree_search s.index long_key) = some (-1) := by
  decide

set_option maxRecDepth 100000 in
theorem long_name_stored_read :
    (run_ops_str (fs_create (fs_init []) long_key [120])
      [StoreOp.put (List.replicate 255 97) [121], StoreOp.snapshot_restore]).map
        (fun s => fs_read s (List.replicate 255 97)) = some (ReadResult.content [120]) := by
  decide

/-! ## Storage engine: the claims on puts with names given as C strings -/

/-- C5 (as amended): on a store whose index is a search tree that every call can
walk (a root, at most 3 keys in a node, the slots `C[0] .. C[n]` of a node that
is not a leaf filled, keys strictly ascending in the order of `btree_list`, no
stored offset -1) with keys shorter than 256 bytes, for every key shorter than
256 bytes and every content whose compression emits fewer than 2^32 codes,
`fs_create` has a defined result and `fs_read` of the key right after it gives
back the content; and after later `fs_create` calls for other keys shorter than
256 bytes and `fs_save` / `fs_load` round trips made while the index holds fewer
than 2^32 keys, all with defined results, `fs_read` still gives back the
content. -/
theorem fs_read_after_create (fs : FileSystem (List Byte)) (key b : List Byte)
    (later : List (StoreOp (List Byte))) (hok : TreeOK fs.index)
    (hfit : ∀ k ∈ btree_list fs.index, key_fits k = true) (hkey : key_fits key = true)
    (hb : (lzw_codes b).length < 2 ^ 32)
    (hlater : ∀ op ∈ later, ∀ k c, op = StoreOp.put k c → k ≠ key ∧ key_fits k = true)
    (hcount : ∀ pre post, later = pre ++ StoreOp.snapshot_restore :: post →
      ∀ s, run_ops_str fs (StoreOp.put key b :: pre) = some s →
        (btree_list s.index).length < 2 ^ 32) :
    run_ops_str fs (StoreOp.put key b :: later) =
        some (run_ops (fs_create fs key b) later) ∧
      fs_read (run_ops (fs_create fs key b) later) key = ReadResult.content b :=
  read_after_create_str fs key b later hok hfit hkey hb hlater hcount

theorem fs_read_after_create_witness :
    TreeOK store_after_delete.index ∧
      (∀ k ∈ btree_list store_after_delete.index, key_fits k = true) ∧
      key_fits [99] = true ∧
      (lzw_codes [120, 121]).length < 2 ^ 32 ∧
      (∀ op ∈ [StoreOp.put ([100] : List Byte) [122], StoreOp.snapshot_restore],
        ∀ k c, op = StoreOp.put k c → k ≠ [99] ∧ key_fits k = true) ∧
      (∀ pre post,
        [StoreOp.put ([100] : List Byte) [122], StoreOp.snapshot_restore] =
          pre ++ StoreOp.snapshot_restore :: post →
        ∀ s, run_ops_str store_after_delete (StoreOp.put [99] [120, 121] :: pre) = some s →
          (btree_list s.index).length < 2 ^ 32) ∧
      run_ops_str store_after_delete
          [StoreOp.put [99] [120, 121], StoreOp.put [100] [122], StoreOp.snapshot_restore] =
        some (run_ops (fs_create store_after_delete [99] [120, 121])
          [StoreOp.put [100] [122], StoreOp.snapshot_restore]) ∧
      fs_read (run_ops (fs_create store_after_delete [99] [120, 121])
        [StoreOp.put [100] [122], StoreOp.snapshot_restore]) [99] =
        ReadResult.content [120, 121] := by
  have hok : TreeOK store_after_delete.index :=
    ⟨by decide, (delete_keeps_safe _ _ (indexOK_treeOK _ (populate_ok _ _)).2.1).1,
      by unfold KeySorted; decide, by decide⟩
  have hlater : ∀ op ∈ [StoreOp.put ([100] : List Byte) [122], StoreOp.snapshot_restore],
      ∀ k c, op = StoreOp.put k c → k ≠ [99] ∧ key_fits k = true := by
    simp [key_fits]
  have hcount : ∀ pre post,
      [StoreOp.put ([100] : List Byte) [122], StoreOp.snapshot_restore] =
        pre ++ StoreOp.snapshot_restore :: post →
      ∀ s, run_ops_str store_after_delete (StoreOp.put [99] [120, 121] :: pre) = some s →
        (btree_list s.index).length < 2 ^ 32 := by
    intro pre post h s hs
    match pre, h with
    | [], h => simp at h
    | [_], h =>
      simp only [List.singleton_append, List.cons.injEq] at h
      obtain ⟨rfl, -, -⟩ := h
      have e : run_ops_str store_after_delete
          [StoreOp.put [99] [120, 121], StoreOp.put [100] [122]] =
          some (run_ops store_after_delete
            [StoreOp.put [99] [120, 121], StoreOp.put [100] [122]]) := rfl
      rw [e] at hs
      cases hs
      decide
    | _ :: _ :: _, h => simp at h
  exact ⟨hok, by decide, by decide, by decide, hlater, hcount,
    fs_read_after_create store_after_delete [99] [120, 121]
      [StoreOp.put [100] [122], StoreOp.snapshot_restore] hok (by decide) (by decide)
      (by decide) hlater hcount⟩

/-- C5 as stated fails, on each of these inputs; the calls up to the read have
results unless said otherwise.
* A content of 2^48 zero bytes put on the empty store is not read back.
* The put of the key of 256 bytes `a` has no result, on the empty store and
  after the put of `a`.
* On a store without a root, and on a store whose root is not a leaf and has
  no child in slot 0, the put of `a` reads through a NULL pointer and has no
  result.
* On the store `damaged_store`, whose keys `btree_list` does not give in
  ascending order, the key `g` is not found right after its put.
* On the store restored from the snapshot file `stale_meta`, which gives the key
  `a` the offset -1, the key `a` is not found right after its put.
* After 2^32 puts, the put of the key `a` and a snapshot followed by restore,
  the key `a` is not found.
* On a store whose index holds the key of 256 bytes `a`, which no call with a
  result leaves there, after the put of the key of 255 bytes `a` with the content
  `y` and a snapshot followed by restore, which cuts the longer key to the
  shorter one, the read of the shorter key gives the content `x` of the longer
  one. -/
theorem fs_read_after_create_fails :
    (run_ops_str (fs_init []) [StoreOp.put [97] (List.replicate (2 ^ 48) 0)] =
        some (fs_create (fs_init []) [97] (List.replicate (2 ^ 48) 0)) ∧
      fs_read (fs_create (fs_init []) ([97] : List Byte) (List.replicate (2 ^ 48) 0)) [97] ≠
        ReadResult.content (List.replicate (2 ^ 48) 0)) ∧
      (key_fits long_key = false ∧
        run_ops_str (fs_init []) [StoreOp.put long_key [120]] = none ∧
        run_ops_str (fs_init []) [StoreOp.put [97] [120], StoreOp.put long_key [121]] = none) ∧
      (run_ops_str { index := null, storage := [] } [StoreOp.put [97] [120]] = none ∧
        run_ops_str { index := node [([98], 0)] false null null null null, storage := [] }
          [StoreOp.put [97] [120]] = none) ∧
      (¬ KeySorted (btree_entries damaged_store.index) ∧
        run_ops_str damaged_store [StoreOp.put [103] [120]] =
          some (fs_create damaged_store [103] [120]) ∧
        fs_read (fs_create damaged_store [103] [120]) [103] = ReadResult.not_found) ∧
      (fs_load_str (fs_init []) stale_meta = some (fs_load (fs_init []) stale_meta) ∧
        btree_entries (fs_load (fs_init []) stale_meta).index = [([97], -1)] ∧
        run_ops_str (fs_load (fs_init []) stale_meta) [StoreOp.put [97] [120]] =
          some (fs_create (fs_load (fs_init []) stale_meta) [97] [120]) ∧
        fs_read (fs_create (fs_load (fs_init []) stale_meta) [97] [120]) [97] =
          ReadResult.not_found) ∧
      (fs_populate_str [] many_puts = some (fs_populate [] many_puts) ∧
        2 ^ 32 ≤ (btree_list (fs_populate [] many_puts : FileSystem (List Byte)).index).length ∧
        run_ops_str (fs_populate [] many_puts)
            [StoreOp.put [97] [120], StoreOp.snapshot_restore] =
          some (run_ops (fs_populate [] many_puts)
            [StoreOp.put [97] [120], StoreOp.snapshot_restore]) ∧
        fs_read (run_ops (fs_populate [] many_puts)
          [StoreOp.put [97] [120], StoreOp.snapshot_restore]) [97] = ReadResult.not_found) ∧
      (run_ops_str (fs_create (fs_init []) long_key [120])
        [StoreOp.put (List.replicate 255 97) [121], StoreOp.snapshot_restore]).map
          (fun s => fs_read s (List.replicate 255 97)) = some (ReadResult.content [120]) := by
  have h1 : apply_op_str (fs_init []) (StoreOp.put [97] [120]) =
      some (fs_create (fs_init []) [97] [120]) :=
    create_str_fits (fs_init []) [97] [120] create_safe.1 create_safe.2 (by decide)
  have hbig := snapshot_loses_key (fs_populate [] many_puts) [97] [120]
    (indexOK_treeOK _ (populate_ok [] many_puts)) many_puts_stored_fit (by decide)
    many_puts_below (Nat.le_add_right_of_le many_puts_length)
  refine ⟨⟨put_str_fits (fs_init []) [97] (List.replicate (2 ^ 48) 0) create_safe.1
        create_safe.2 (by decide),
      read_long_content _ _ _ (le_refl _)⟩,
    ⟨key_fits_long, put_str_long (fs_init []) [120] [] rfl, ?_⟩,
    ⟨rfl, rfl⟩,
    ⟨by unfold KeySorted; decide, rfl, by decide⟩,
    ⟨load_str_fits (fs_init []) stale_meta (by decide), by decide, rfl, by decide⟩,
    ⟨populate_str_fits [] many_puts many_puts_fit, many_puts_length, hbig⟩,
    long_name_stored_read⟩
  rw [run_ops_str_cons (fs_init []) (fs_create (fs_init []) [97] [120]) _ _ h1]
  exact put_str_long (fs_create (fs_init []) [97] [120]) [121] [] (by decide)

/-- C11 (as amended): the snapshot of a store just initialised restores to the
empty index of `btree_create`; for a store populated by puts of names shorter
than 256 bytes, all with defined results, whose index holds fewer than 2^32
keys, the names of the snapshot entries are the keys of the index in the order of
`btree_list`, strictly ascending for `strcmp`, the count written is the number of
keys, the restore has a defined result, and `btree_search` gives every key the
same offset in the restored index as in the index saved. -/
theorem fs_save_load_index (blob : List Byte) (puts : List (List Byte × List Byte))
    (hfit : ∀ p ∈ puts, key_fits p.1 = true)
    (hlen : (btree_list (fs_populate blob puts).index).length < 2 ^ 32) :
    (fs_load_str (fs_init blob) (fs_save_str (fs_init blob))).map FileSystem.index =
        some btree_create ∧
      fs_populate_str blob puts = some (fs_populate blob puts) ∧
      (fs_save_str (fs_populate blob puts)).entries.map MetaEntry.name =
        btree_list (fs_populate blob puts).index ∧
      ((fs_save_str (fs_populate blob puts)).entries.map MetaEntry.name).Pairwise
        (fun a b => strcmp a b < 0) ∧
      (fs_save_str (fs_populate blob puts)).count =
        (btree_list (fs_populate blob puts).index).length ∧
      fs_load_str (fs_populate blob puts) (fs_save_str (fs_populate blob puts)) =
        some (fs_load (fs_populate blob puts) (fs_save (fs_populate blob puts))) ∧
      ∀ k, btree_search
          (fs_load (fs_populate blob puts) (fs_save (fs_populate blob puts))).index k =
        btree_search (fs_populate blob puts).index k := by
  have hstored : ∀ k ∈ btree_list (fs_populate blob puts).index, key_fits k = true := by
    intro k hk
    rw [populate_list_mem] at hk
    obtain ⟨p, hp, rfl⟩ := List.mem_map.mp hk
    exact hfit p hp
  obtain ⟨-, h2, h3, h4, h5⟩ := save_load_index blob puts hlen
  refine ⟨rfl, populate_str_fits blob puts hfit, ?_, ?_, ?_,
    restore_str_fits _ hstored, h5⟩
  · rw [save_str_fits _ hstored]
    exact h2
  · rw [save_str_fits _ hstored]
    exact h3.imp (fun h => (strcmp_sign _ _).1.mpr h)
  · rw [save_str_fits _ hstored]
    exact h4

theorem fs_save_load_index_witness :
    (∀ p ∈ [(([98] : List Byte), ([98] : List Byte)), ([97], [97]), ([98], [99])],
        key_fits p.1 = true) ∧
      (btree_list (fs_populate [] [(([98] : List Byte), ([98] : List Byte)), ([97], [97]),
        ([98], [99])]).index).length < 2 ^ 32 ∧
      fs_populate_str [] [([98], [98]), ([97], [97]), ([98], [99])] =
        some (fs_populate [] [([98], [98]), ([97], [97]), ([98], [99])]) ∧
      (fs_save_str (fs_populate [] [([98], [98]), ([97], [97]), ([98], [99])])).entries.map
        MetaEntry.name = btree_list (fs_populate [] [(([98] : List Byte), ([98] : List Byte)),
          ([97], [97]), ([98], [99])]).index ∧
      (fs_save_str (fs_populate [] [([98], [98]), ([97], [97]), ([98], [99])])).count =
        (btree_list (fs_populate [] [(([98] : List Byte), ([98] : List Byte)), ([97], [97]),
          ([98], [99])]).index).length ∧
      ∀ k, btree_search
          (fs_load (fs_populate [] [([98], [98]), ([97], [97]), ([98], [99])])
            (fs_save (fs_populate [] [([98], [98]), ([97], [97]), ([98], [99])]))).index k =
        btree_search (fs_populate [] [(([98] : List Byte), ([98] : List Byte)), ([97], [97]),
          ([98], [99])]).index k :=
  ⟨by decide, by decide,
    (fs_save_load_index [] [([98], [98]), ([97], [97]), ([98], [99])] (by decide)
      (by decide)).2.1,
    (fs_save_load_index [] [([98], [98]), ([97], [97]), ([98], [99])] (by decide)
      (by decide)).2.2.1,
    (fs_save_load_index [] [([98], [98]), ([97], [97]), ([98], [99])] (by decide)
      (by decide)).2.2.2.2.1,
    (fs_save_load_index [] [([98], [98]), ([97], [97]), ([98], [99])] (by decide)
      (by decide)).2.2.2.2.2.2⟩

/-- C11 as stated fails, in two ways.  The store populated by the 2^32 puts of
`many_puts`, all with defined results, holds 2^32 keys or more, and the count of
its snapshot is not the number of its keys.  And the put of the name of 256
bytes `a` has no defined result; on a store whose index holds that name at the
offset 0, which no call with a defined result leaves there, the snapshot cuts
the name to 255 bytes and the restored index does not find it. -/
theorem fs_save_load_index_fails :
    fs_populate_str [] many_puts = some (fs_populate [] many_puts) ∧
      2 ^ 32 ≤ (btree_list (fs_populate [] many_puts : FileSystem (List Byte)).index).length ∧
      (fs_save_str (fs_populate [] many_puts)).count ≠
        (btree_list (fs_populate [] many_puts : FileSystem (List Byte)).index).length ∧
      key_fits long_key = false ∧
      fs_populate_str [] [(long_key, [120])] = none ∧
      btree_search (fs_create (fs_init []) long_key [120]).index long_key = 0 ∧
      (fs_load_str (fs_create (fs_init []) long_key [120])
        (fs_save_str (fs_create (fs_init []) long_key [120]))).map
          (fun s => btree_search s.index long_key) = some (-1) :=
  ⟨populate_str_fits [] many_puts many_puts_fit, many_puts_length,
    save_str_count_wraps (fs_populate [] many_puts) many_puts_length, key_fits_long,
    populate_str_long [120], long_name_cut⟩
